import Mathlib

/-!
# Ring-Log: a shallow embedding of `rlog.h` / `rlog.cc`

The development follows the C++ source.

* A `char` is a `Byte` (a value below 256).
* A `const char*` argument is a function from offsets to bytes; the length
  travels next to it, as in `cell_buffer::append(const char*, uint32_t)`.
* A `cell_buffer*` is an address (`Nat`).  The heap of cells is a function
  from addresses to cells.  Cells are numbered in allocation order: the
  constructor of `ring_log` allocates the cells 0, 1, 2 and every later
  `new cell_buffer` gets the address `_buff_cnt` (cells are never freed, so
  `_buff_cnt` counts the allocations).
* `uint32_t` and `uint64_t` arithmetic is written on `Nat` with an explicit
  reduction modulo `2^32` resp. `2^64`.
-/

namespace RingLog

/-- One `char`. -/
abbrev Byte := Fin 256

/-- Modulus of `uint32_t` arithmetic. -/
def U32 : Nat := 4294967296

/-- Modulus of `uint64_t` arithmetic. -/
def U64 : Nat := 18446744073709551616

/-- The macro `#define MEM_USE_LIMIT (3u * 1024 * 1024 * 1024)`, an `unsigned int`. -/
def MEM_USE_LIMIT : Nat := (3 * 1024 * 1024 * 1024) % U32

/-- The macro `#define LOG_USE_LIMIT (1u * 1024 * 1024 * 1024)`. -/
def LOG_USE_LIMIT : Nat := (1 * 1024 * 1024 * 1024) % U32

/-- The macro `#define LOG_LEN_LIMIT (4 * 1024)`. -/
def LOG_LEN_LIMIT : Nat := 4 * 1024

/-- The macro `#define RELOG_THRESOLD 5`. -/
def RELOG_THRESOLD : Nat := 5

/-- The enumeration `cell_buffer::buffer_status`. -/
inductive buffer_status where
  | FREE
  | FULL
  deriving DecidableEq, Repr

open buffer_status

/-- The class `cell_buffer`.  `_data` is the memory block `new char[len]`,
read through its offsets; `prev` and `next` are the list links. -/
structure cell_buffer where
  status : buffer_status
  prev : Nat
  next : Nat
  _total_len : Nat
  _used_len : Nat
  _data : Nat → Byte

namespace cell_buffer

/-- The constructor `cell_buffer(uint32_t len)`: status `FREE`, nothing used.
The links start as null pointers (written 0 here; the callers set both before
the cell is used) and the fresh memory block holds unspecified bytes, read
as 0. -/
def mk_len (len : Nat) : cell_buffer :=
  { status := FREE, prev := 0, next := 0, _total_len := len, _used_len := 0,
    _data := fun _ => 0 }

/-- Source: `uint32_t avail_len() const { return _total_len - _used_len; }`,
a subtraction in `uint32_t` arithmetic. -/
def avail_len (c : cell_buffer) : Nat :=
  (c._total_len + U32 - c._used_len) % U32

/-- Source: `bool empty() const { return _used_len == 0; }`. -/
def empty (c : cell_buffer) : Bool :=
  c._used_len == 0

/-- Source: `void append(const char* log_line, uint32_t len)`. It returns at once when
`avail_len() < len`; otherwise `memcpy(_data + _used_len, log_line, len)` and
`_used_len += len`. -/
def append (c : cell_buffer) (log_line : Nat → Byte) (len : Nat) : cell_buffer :=
  if c.avail_len < len then c
  else
    { c with
      _data := fun i =>
        if c._used_len ≤ i ∧ i < c._used_len + len then log_line (i - c._used_len)
        else c._data i
      _used_len := (c._used_len + len) % U32 }

/-- Source: `void clear()`, that is `_used_len = 0; status = FREE;`. -/
def clear (c : cell_buffer) : cell_buffer :=
  { c with _used_len := 0, status := FREE }

/-- The bytes `_data[0 .. _used_len)`: what `cell_buffer::persist` hands to
`fwrite(_data, 1, _used_len, fp)`. -/
def contents (c : cell_buffer) : List Byte :=
  (List.range c._used_len).map c._data

end cell_buffer

/-- The byte string of length `len` found at the pointer `p`. -/
def bytes_at (p : Nat → Byte) (len : Nat) : List Byte :=
  (List.range len).map p

/-- The pointer to the first byte of a byte string held as a list; reading
past its end gives 0. -/
def ptr_of (l : List Byte) : Nat → Byte :=
  fun i => l.getD i 0

/-- The class `ring_log`, the fields of the buffer pipeline: the heap of
cells, `_buff_cnt`, the producer pointer `_curr_buf`, the consumer pointer
`_prst_buf`, the time of the last lost record `_lst_lts` and the static
`_one_buff_len`.  `_buff_cnt` is an `int` that only ever grows from 3. -/
structure ring_log where
  heap : Nat → cell_buffer
  _buff_cnt : Nat
  _curr_buf : Nat
  _prst_buf : Nat
  _lst_lts : Nat
  _one_buff_len : Nat

/-- An assignment through a pointer: the cell at address `a` becomes `f` of
itself, every other cell stays. -/
def upd (h : Nat → cell_buffer) (a : Nat) (f : cell_buffer → cell_buffer) :
    Nat → cell_buffer :=
  fun x => if x = a then f (h a) else h x

/-- The allocation `new cell_buffer(len)` at address `a`. -/
def alloc (h : Nat → cell_buffer) (a : Nat) (len : Nat) : Nat → cell_buffer :=
  fun x => if x = a then cell_buffer.mk_len len else h x

namespace ring_log

/-- The loop `for (int i = 1; i < _buff_cnt; ++i)` of the constructor, over
the remaining values of `i`: allocate `current`, link it after `prev`. -/
def ctor_loop (len : Nat) : List Nat → (Nat → cell_buffer) → Nat → (Nat → cell_buffer) × Nat
  | [], h, prev => (h, prev)
  | i :: rest, h, prev =>
    let current := i
    let h1 := alloc h current len
    let h2 := upd h1 current (fun c => { c with prev := prev })
    let h3 := upd h2 prev (fun c => { c with next := current })
    ctor_loop len rest h3 current

/-- The constructor `ring_log::ring_log()` run with the static
`_one_buff_len = len`: three cells in a doubly linked circle, both pointers on
the head, `_lst_lts = 0`. -/
def ctor (len : Nat) : ring_log :=
  let head := 0
  let h0 := alloc (fun _ => cell_buffer.mk_len 0) head len
  let r := ctor_loop len (List.range' 1 (3 - 1)) h0 head
  let prev := r.2
  let h1 := upd r.1 prev (fun c => { c with next := head })
  let h2 := upd h1 head (fun c => { c with prev := prev })
  { heap := h2, _buff_cnt := 3, _curr_buf := head, _prst_buf := head, _lst_lts := 0,
    _one_buff_len := len }

/-- The growth test `_one_buff_len * (_buff_cnt + 1) > MEM_USE_LIMIT` of
`try_append`, a product of `uint32_t` by `int`, computed in `unsigned int`. -/
def over_limit (s : ring_log) : Bool :=
  decide ((s._one_buff_len * ((s._buff_cnt + 1) % U32)) % U32 > MEM_USE_LIMIT)

/-- The test `_lst_lts && curr_sec - _lst_lts < RELOG_THRESOLD` of
`try_append`, a subtraction in `uint64_t` arithmetic. -/
def backoff (s : ring_log) (curr_sec : Nat) : Bool :=
  decide (s._lst_lts ≠ 0) && decide ((curr_sec + U64 - s._lst_lts) % U64 < RELOG_THRESOLD)

/-- The function `ring_log::try_append`, from the backoff test on, given the
time `curr_sec` read from the timer and the formatted record `log_line` of
length `len`.  The result is the new state and the flag `tell_back` (true:
`pthread_cond_signal` is called). -/
def try_append (s : ring_log) (curr_sec : Nat) (log_line : Nat → Byte) (len : Nat) :
    ring_log × Bool :=
  if s.backoff curr_sec then (s, false)
  else
    let s0 := { s with _lst_lts := 0 }
    if (s0.heap s0._curr_buf).status = FREE ∧ (s0.heap s0._curr_buf).avail_len ≥ len then
      ({ s0 with heap := upd s0.heap s0._curr_buf (fun c => c.append log_line len) }, false)
    else if (s0.heap s0._curr_buf).status = FREE then
      let s1 := { s0 with heap := upd s0.heap s0._curr_buf (fun c => { c with status := FULL }) }
      let next_buf := (s1.heap s1._curr_buf).next
      let s2 :=
        if (s1.heap next_buf).status = FULL then
          if s1.over_limit then
            { s1 with _curr_buf := next_buf, _lst_lts := curr_sec }
          else
            let new_buffer := s1._buff_cnt
            let h1 := alloc s1.heap new_buffer s1._one_buff_len
            let h2 := upd h1 new_buffer (fun c => { c with prev := s1._curr_buf })
            let h3 := upd h2 s1._curr_buf (fun c => { c with next := new_buffer })
            let h4 := upd h3 new_buffer (fun c => { c with next := next_buf })
            let h5 := upd h4 next_buf (fun c => { c with prev := new_buffer })
            { s1 with heap := h5, _buff_cnt := s1._buff_cnt + 1, _curr_buf := new_buffer }
        else
          { s1 with _curr_buf := next_buf }
      let s3 :=
        if s2._lst_lts = 0 then
          { s2 with heap := upd s2.heap s2._curr_buf (fun c => c.append log_line len) }
        else s2
      (s3, true)
    else
      ({ s0 with _lst_lts := curr_sec }, false)

/-- The first critical section of one turn of the loop of `ring_log::persist`,
from the test `_prst_buf->empty()` on (the timed wait before it changes
nothing by itself).  `none`: the `assert(_curr_buf == _prst_buf)` fails.
`some (s, false)`: the turn gives up (`continue`).  `some (s, true)`: the cell
`_prst_buf` is to be written. -/
def persist_select (s : ring_log) : Option (ring_log × Bool) :=
  if (s.heap s._prst_buf).empty then some (s, false)
  else if (s.heap s._prst_buf).status = FREE then
    if s._curr_buf = s._prst_buf then
      let s1 := { s with heap := upd s.heap s._curr_buf (fun c => { c with status := FULL }) }
      some ({ s1 with _curr_buf := (s1.heap s1._curr_buf).next }, true)
    else none
  else some (s, true)

/-- The second critical section of a turn of `ring_log::persist`:
`_prst_buf->clear(); _prst_buf = _prst_buf->next;`. -/
def persist_release (s : ring_log) : ring_log :=
  let s1 := { s with heap := upd s.heap s._prst_buf (fun c => c.clear) }
  { s1 with _prst_buf := (s1.heap s1._prst_buf).next }

/-- One turn of the loop of `ring_log::persist` with no producer in between.
`file_ok` is the result of `decis_file`; the write of `cell_buffer::persist`
succeeds and emits the bytes `_data[0 .. _used_len)`.  The result is the new
state and the bytes written in this turn. -/
def persist_body (s : ring_log) (file_ok : Bool) : Option (ring_log × List Byte) :=
  match s.persist_select with
  | none => none
  | some (s1, false) => some (s1, [])
  | some (s1, true) =>
    if file_ok then some (s1.persist_release, (s1.heap s1._prst_buf).contents)
    else some (s1, [])

end ring_log

/-- A run of `cell_buffer::append` calls on one cell, in call order. -/
def append_all (c : cell_buffer) : List ((Nat → Byte) × Nat) → cell_buffer
  | [] => c
  | call :: rest => append_all (c.append call.1 call.2) rest

/-- The calls of a run whose length was at most `avail_len()` at the moment
of the call. -/
def fitting (c : cell_buffer) : List ((Nat → Byte) × Nat) → List ((Nat → Byte) × Nat)
  | [] => []
  | call :: rest =>
    if call.2 ≤ c.avail_len then call :: fitting (c.append call.1 call.2) rest
    else fitting (c.append call.1 call.2) rest

/-- The C library call `snprintf(buf, size, ...)` (and `vsnprintf`) for a
format that renders to `text`: at most `size - 1` bytes of `text` and a
terminating 0 are stored, and the return value is the length of the whole
`text`, truncated or not. -/
def snprintf (size : Nat) (text : List Byte) : List Byte × Nat :=
  (if size = 0 then [] else text.take (size - 1) ++ [0], text.length)

/-- The conversion `%03d` of a number `ms ≥ 0`: its decimal digits, padded
with zeros to three places. -/
def fmt_03d (ms : Nat) : List Byte :=
  let digits : List Byte := (Nat.toDigits 10 ms).map fun c => Fin.ofNat c.toNat
  List.replicate (3 - digits.length) 48 ++ digits

/-- The record head `"%s[%s.%03d]"` of `try_append`, rendered for the level
tag `lvl`, the cached time string `utc_fmt` and the milliseconds `ms`. -/
def head_text (lvl utc_fmt : List Byte) (ms : Nat) : List Byte :=
  lvl ++ [91] ++ utc_fmt ++ [46] ++ fmt_03d ms ++ [93]

/-- The length `len` that `ring_log::try_append` computes and hands to
`cell_buffer::append`: `prev_len = snprintf(log_line, LOG_LEN_LIMIT, ...)`,
`main_len = vsnprintf(log_line + prev_len, LOG_LEN_LIMIT - prev_len, format, ...)`
(the size converted to `size_t`), `uint32_t len = prev_len + main_len`.
`body` is the text that `format` renders to with its arguments. -/
def try_append_len (lvl utc_fmt : List Byte) (ms : Nat) (body : List Byte) : Nat :=
  let prev_len := (snprintf LOG_LEN_LIMIT (head_text lvl utc_fmt ms)).2
  let main_len := (snprintf ((LOG_LEN_LIMIT + U64 - prev_len) % U64) body).2
  (prev_len + main_len) % U32

/-- The level tag `"[INFO]"`. -/
def tag_INFO : List Byte := [91, 73, 78, 70, 79, 93]

/-- The time string `"2024-01-09 10:20:30"`. -/
def utc_sample : List Byte :=
  [50, 48, 50, 52, 45, 48, 49, 45, 48, 57, 32, 49, 48, 58, 50, 48, 58, 51, 48]

/-- A run of `try_append` calls with no drainer step in between; a call is
the time `curr_sec`, the record and its length. -/
def produce (s : ring_log) : List (Nat × (Nat → Byte) × Nat) → ring_log
  | [] => s
  | call :: rest => produce (s.try_append call.1 call.2.1 call.2.2).1 rest

/-- Scenario S2: cells of 100 bytes, the first one holding 60 bytes. -/
def S2_state : ring_log :=
  produce (ring_log.ctor 100) [(7, fun _ => 65, 60)]

/-- Scenario S3: cells of 90 MiB, three cells without room: the first two
sealed, the producer on the third. -/
def S3_state : ring_log :=
  produce (ring_log.ctor 94371840)
    [(7, fun _ => 65, 94371840), (7, fun _ => 65, 94371840), (7, fun _ => 65, 94371840)]

/-- Scenario S4: cells of 1 GiB, three cells without room: the first two
sealed, the producer on the third. -/
def S4_state : ring_log :=
  produce (ring_log.ctor 1073741824)
    [(7, fun _ => 65, 1073741824), (7, fun _ => 65, 1073741824), (7, fun _ => 65, 1073741824)]

/-- The state of scenario S4 with cells of 900 MiB (four of them exceed
3 GiB and stay below 4 GiB). -/
def S4_state_900 : ring_log :=
  produce (ring_log.ctor 943718400)
    [(7, fun _ => 65, 943718400), (7, fun _ => 65, 943718400), (7, fun _ => 65, 943718400)]

/-- Scenario S2 continued: cells of 100 bytes, records of 60, 50 and 60
bytes.  Cells 0 and 1 are sealed, the producer is on cell 2, the consumer on
cell 0. -/
def S2_third : ring_log :=
  produce (ring_log.ctor 100) [(7, fun _ => 65, 60), (8, fun _ => 66, 50), (9, fun _ => 67, 60)]

/-- The bytes held by the ring: the used lengths of its `_buff_cnt` cells,
summed. -/
def ring_log.held (s : ring_log) : Nat :=
  ((List.range s._buff_cnt).map fun a => (s.heap a)._used_len).sum

/-- The ring holds no data: every one of its cells is empty. -/
def ring_log.no_data (s : ring_log) : Prop :=
  ∀ a, a < s._buff_cnt → (s.heap a).empty = true

/-- The calls of a run of `try_append` that were accepted: those after which
the ring holds more bytes than before. -/
def accepted (s : ring_log) : List (Nat × (Nat → Byte) × Nat) → List (Nat × (Nat → Byte) × Nat)
  | [] => []
  | call :: rest =>
    if (s.try_append call.1 call.2.1 call.2.2).1.held ≠ s.held then
      call :: accepted (s.try_append call.1 call.2.1 call.2.2).1 rest
    else accepted (s.try_append call.1 call.2.1 call.2.2).1 rest

/-- The byte strings of a list of calls, concatenated in order. -/
def call_bytes (calls : List (Nat × (Nat → Byte) × Nat)) : List Byte :=
  (calls.map fun call => bytes_at call.2.1 call.2.2).flatten

/-- The first `k` turns of the loop of `ring_log::persist`, with no producer
running and `decis_file` and the write succeeding in every turn: the final
state and all the bytes written, in order.  `none`: the assertion failed. -/
def drain : Nat → ring_log → Option (ring_log × List Byte)
  | 0, s => some (s, [])
  | k + 1, s =>
    match s.persist_body true with
    | none => none
    | some (s1, out1) =>
      match drain k s1 with
      | none => none
      | some (s2, out2) => some (s2, out1 ++ out2)

/-- The cells of the list `l` are linked by `next` in list order, and the last
one links to `z`. -/
def Linked (h : Nat → cell_buffer) : List Nat → Nat → Prop
  | [], _ => True
  | a :: l, z => (h a).next = l.headD z ∧ Linked h l z

/-- The contents of the cells of a list, concatenated in order. -/
def cells_bytes (h : Nat → cell_buffer) (l : List Nat) : List Byte :=
  (l.map fun a => (h a).contents).flatten

/-- The shape of the ring while only producers run and nothing was lost: in
ring order from `C`, the sealed cells `pre` (all `FULL` and not empty), the
producer cell `P` (`FREE`), and the untouched cells `post` (`FREE` and empty);
`acc` is what the cells hold, in ring order. -/
structure ProdInv (s : ring_log) (pre post : List Nat) (acc : List Byte) : Prop where
  nodup : (pre ++ s._curr_buf :: post).Nodup
  mem : ∀ a, a ∈ pre ++ s._curr_buf :: post ↔ a < s._buff_cnt
  linked : Linked s.heap (pre ++ s._curr_buf :: post) s._prst_buf
  head : (pre ++ [s._curr_buf]).headD 0 = s._prst_buf
  full : ∀ a ∈ pre, (s.heap a).status = buffer_status.FULL ∧ 0 < (s.heap a)._used_len
  free : (s.heap s._curr_buf).status = buffer_status.FREE
  rest : ∀ a ∈ post, (s.heap a).status = buffer_status.FREE ∧ (s.heap a)._used_len = 0
  cap : ∀ a, a < s._buff_cnt →
    (s.heap a)._total_len = s._one_buff_len ∧ (s.heap a)._used_len ≤ s._one_buff_len
  small : s._one_buff_len < U32
  data : cells_bytes s.heap (pre ++ [s._curr_buf]) = acc

/-- The shape of the ring after a record was lost at the memory ceiling while
only producers run: every cell is `FULL` and not empty, and the producer
pointer stands on the consumer cell. -/
structure OverInv (s : ring_log) (ord : List Nat) (acc : List Byte) : Prop where
  nodup : ord.Nodup
  mem : ∀ a, a ∈ ord ↔ a < s._buff_cnt
  linked : Linked s.heap ord s._prst_buf
  head : ord.head? = some s._prst_buf
  cur : s._curr_buf = s._prst_buf
  full : ∀ a ∈ ord, (s.heap a).status = buffer_status.FULL ∧ 0 < (s.heap a)._used_len
  data : cells_bytes s.heap ord = acc

/-- The shape of the ring while only the drainer runs: from `C` on, the sealed
cells `fulls` (all `FULL` and not empty) linked up to the producer cell `P`
(`FREE`); every other cell is empty. -/
structure DrainInv (s : ring_log) (fulls : List Nat) : Prop where
  nodup : (fulls ++ [s._curr_buf]).Nodup
  linked : Linked s.heap fulls s._curr_buf
  head : (fulls ++ [s._curr_buf]).headD 0 = s._prst_buf
  full : ∀ a ∈ fulls, (s.heap a).status = buffer_status.FULL ∧ 0 < (s.heap a)._used_len
  free : (s.heap s._curr_buf).status = buffer_status.FREE
  others : ∀ a, a < s._buff_cnt → a ∉ fulls ++ [s._curr_buf] → (s.heap a)._used_len = 0
  nexts : ∀ a, a < s._buff_cnt → (s.heap a).next < s._buff_cnt
  inb : ∀ a ∈ fulls ++ [s._curr_buf], a < s._buff_cnt

/-- The shape of the ring while only producers run: either nothing was lost so
far, or a record was lost at the memory ceiling. -/
def RingInv (s : ring_log) (acc : List Byte) : Prop :=
  (∃ pre post, ProdInv s pre post acc) ∨ (∃ ord, OverInv s ord acc)

/-- A ring of three cells of 1 GiB in constructor order with no record lost:
the producer on cell `P`, cell `a` with status `st a` and `u a` bytes used. -/
structure Ring3 (s : ring_log) (P : Nat) (st : Nat → buffer_status) (u : Nat → Nat) : Prop where
  cnt : s._buff_cnt = 3
  len : s._one_buff_len = 1073741824
  lts : s._lst_lts = 0
  cur : s._curr_buf = P
  cells : ∀ a, a < 3 →
    (s.heap a).status = st a ∧ (s.heap a).next = (a + 1) % 3
      ∧ (s.heap a)._total_len = 1073741824 ∧ (s.heap a)._used_len = u a

/-! ### The sink: `init_path` and `decis_file`

A path is the string that `sprintf` builds; the log directory is a map from
paths to file contents.  `FILE* _fp` is the path the stream was opened on
(`none` for `NULL`), and `fpos` is what `ftell(_fp)` returns. -/

/-- The decimal digits of `n`, lowest first, with `fuel` steps allowed. -/
def dec_digits : Nat → Nat → List Byte
  | 0, _ => []
  | fuel + 1, n =>
    if n < 10 then [Fin.ofNat (48 + n)]
    else Fin.ofNat (48 + n % 10) :: dec_digits fuel (n / 10)

/-- The conversions `%d` and `%u` of a number `n ≥ 0`. -/
def fmt_d (n : Nat) : List Byte :=
  (dec_digits (n + 1) n).reverse

/-- The conversion `%d` of an `int`. -/
def fmt_int : Int → List Byte
  | Int.ofNat n => fmt_d n
  | Int.negSucc n => 45 :: fmt_d (n + 1)

/-- The conversion `%02d` of an `int`: padded with zeros to two places. -/
def fmt_02d (z : Int) : List Byte :=
  List.replicate (2 - (fmt_int z).length) 48 ++ fmt_int z

/-- The fields of `ring_log` that `init_path` and `decis_file` use, with the
log directory `fs` they act on. -/
structure ring_sink where
  _fp : Option (List Byte)
  fpos : Nat
  _pid : Nat
  _year : Int
  _mon : Int
  _day : Int
  _log_cnt : Nat
  _prog_name : List Byte
  _log_dir : List Byte
  _env_ok : Bool
  _level : Int
  fs : List Byte → Option (List Byte)

/-- The enumerators of `LOG_LEVEL`. -/
def FATAL : Int := 1

/-- The enumerator `TRACE` of `LOG_LEVEL` (`FATAL = 1, ERROR, WARN, INFO, DEBUG, TRACE`). -/
def TRACE : Int := 6

/-- The enumerator `INFO` of `LOG_LEVEL`. -/
def INFO : Int := 4

namespace ring_sink

/-- The sink fields as the constructor `ring_log::ring_log()` leaves them:
`_fp(nullptr)`, `_log_cnt(0)`, `_env_ok(false)`, `_level(INFO)`; the stamp and
the two names are not initialised (read as 0 and empty). -/
def ctor (pid : Nat) (fs : List Byte → Option (List Byte)) : ring_sink :=
  { _fp := none, fpos := 0, _pid := pid, _year := 0, _mon := 0, _day := 0, _log_cnt := 0,
    _prog_name := [], _log_dir := [], _env_ok := false, _level := INFO, fs := fs }

/-- The function `ring_log::init_path`.  `access_ok` is the outcome of
`access(_log_dir, F_OK | W_OK) != -1` after the `mkdir`.  The two `strncpy`
calls store at most 512 and 128 bytes; the fields hold the stored bytes, which
is the string that `%s` prints for a directory name shorter than 512 bytes and
a program name shorter than 128 bytes (for a longer name `strncpy` leaves the
array without its terminator, and this model does not cover what `%s` reads
then). -/
def init_path (s : ring_sink) (log_dir prog_name : List Byte) (level : Int)
    (access_ok : Bool) : ring_sink :=
  let s1 := { s with _log_dir := log_dir.take 512, _prog_name := prog_name.take 128 }
  let s2 := if access_ok then { s1 with _env_ok := true } else s1
  let level1 := if level > TRACE then TRACE else level
  let level2 := if level1 < FATAL then FATAL else level1
  { s2 with _level := level2 }

/-- The accessor `int get_level() const { return _level; }`. -/
def get_level (s : ring_sink) : Int :=
  s._level

/-- The path `"%s/%s.%d%02d%02d.%u.log"` for the stored stamp. -/
def log_path (s : ring_sink) : List Byte :=
  s._log_dir ++ [47] ++ s._prog_name ++ [46] ++ fmt_int s._year ++ fmt_02d s._mon
    ++ fmt_02d s._day ++ [46] ++ fmt_d s._pid ++ [46, 108, 111, 103]

/-- The path `"%s/%s.%d%02d%02d.%u.log.%d"` for the stored stamp and the
number `i`. -/
def log_path_n (s : ring_sink) (i : Nat) : List Byte :=
  s.log_path ++ [46] ++ fmt_d i

/-- The path `"/dev/null"`. -/
def dev_null : List Byte := [47, 100, 101, 118, 47, 110, 117, 108, 108]

/-- The call `rename(old_path, new_path)` on the directory: it fails when
`old_path` is no file, else `new_path` gets its contents (replacing what was
there) and `old_path` is gone. -/
def rename (fs : List Byte → Option (List Byte)) (old_path new_path : List Byte) :
    List Byte → Option (List Byte) :=
  match fs old_path with
  | none => fs
  | some c => fun q => if q = new_path then some c else if q = old_path then none else fs q

/-- The call `_fp = fopen(path, "w")`: on success the file exists and is
empty, the stream stands at position 0; on failure `_fp` is `NULL`. -/
def fopen_w (s : ring_sink) (path : List Byte) (open_ok : Bool) : ring_sink :=
  if open_ok then
    { s with _fp := some path, fpos := 0, fs := fun q => if q = path then some [] else s.fs q }
  else { s with _fp := none }

/-- The loop `for (int i = _log_cnt - 1; i > 0; --i)` of `decis_file`, from
the value `i` down: `rename` of `...log.i` to `...log.(i+1)`. -/
def rotate_loop (s : ring_sink) : Nat → (List Byte → Option (List Byte)) →
    List Byte → Option (List Byte)
  | 0, fs => fs
  | i + 1, fs => rotate_loop s i (rename fs (s.log_path_n (i + 1)) (s.log_path_n (i + 1 + 1)))

/-- The function `ring_log::decis_file`.  `open_ok` is the outcome of the one
`fopen` the call makes, if it makes one.  The result is the new state and the
return value `_fp != NULL`. -/
def decis_file (s : ring_sink) (year mon day : Int) (open_ok : Bool) : ring_sink × Bool :=
  if s._env_ok = false then
    let s1 : ring_sink := { s with _fp := if open_ok then some dev_null else none, fpos := 0 }
    (s1, s1._fp.isSome)
  else if s._fp = none then
    let s1 := { s with _year := year, _mon := mon, _day := day }
    let s2 := s1.fopen_w s1.log_path open_ok
    let s3 := if s2._fp.isSome then { s2 with _log_cnt := s2._log_cnt + 1 } else s2
    (s3, s3._fp.isSome)
  else if s._day ≠ day then
    let s1 := { s with _year := year, _mon := mon, _day := day }
    let s2 := s1.fopen_w s1.log_path open_ok
    let s3 := if s2._fp.isSome then { s2 with _log_cnt := 1 } else s2
    (s3, s3._fp.isSome)
  else if s.fpos ≥ LOG_USE_LIMIT then
    let fs1 := rotate_loop s (s._log_cnt - 1) s.fs
    let fs2 := rename fs1 s.log_path (s.log_path_n 1)
    let s2 := ({ s with fs := fs2 } : ring_sink).fopen_w s.log_path open_ok
    let s3 := if s2._fp.isSome then { s2 with _log_cnt := s2._log_cnt + 1 } else s2
    (s3, s3._fp.isSome)
  else (s, s._fp.isSome)

end ring_sink

/-- The number that a string of decimal digits, lowest first, stands for. -/
def dec_val : List Byte → Nat
  | [] => 0
  | d :: l => (d.val - 48) + 10 * dec_val l

/-- Scenario S2 after the 50-byte record: cell 0 sealed with 60 bytes, the
producer on cell 1. -/
def S2_sealed : ring_log :=
  produce (ring_log.ctor 100) [(7, fun _ => 65, 60), (8, fun _ => 66, 50)]

/-- A sink after `init_path("logs", "app", INFO)` in a process with pid 4242,
the directory accessible and empty. -/
def sink_init : ring_sink :=
  (ring_sink.ctor 4242 fun _ => none).init_path [108, 111, 103, 115] [97, 112, 112] 4 true

/-- The sink `sink_init` after a first `decis_file(2024, 1, 9)`: the primary
file of 2024-01-09 is open. -/
def sink_day9 : ring_sink :=
  (sink_init.decis_file 2024 1 9 true).1

/-- The sink `sink_day9` with two files of the day in the directory (the
primary and `.log.1`), the counter at 2 and the stream 1 GiB into the primary. -/
def sink_big : ring_sink :=
  { sink_day9 with
    fpos := 1073741824
    _log_cnt := 2
    fs := fun q =>
      if q = sink_day9.log_path_n 1 then some [49]
      else if q = sink_day9.log_path then some [48] else none }

/-- A sink whose directory was not accessible at `init_path`, after a first
`decis_file(2024, 1, 9)`: `/dev/null` is open. -/
def sink_null : ring_sink :=
  (((ring_sink.ctor 4242 fun _ => none).init_path [108, 111, 103, 115] [97, 112, 112] 4
    false).decis_file 2024 1 9 true).1

/-- The sink `sink_big` after a `decis_file(2024, 1, 9)` that took the rotation
branch and whose `fopen` failed: the two files of the day renamed to `.log.2`
and `.log.1`, no primary file, no file open, the counter still 2. -/
def sink_rotate_failed : ring_sink :=
  (sink_big.decis_file 2024 1 9 false).1

/-! ### The time cache `utc_timer` -/

/-- The fields of `struct tm` that `utc_timer` reads. -/
structure tm where
  tm_year : Int
  tm_mon : Int
  tm_mday : Int
  tm_hour : Int
  tm_min : Int
  tm_sec : Int

/-- The struct `utc_timer`: the cached fields, the buffer `char utc_fmt[20]`
and the two `uint64_t` counters. -/
structure utc_timer where
  year : Int
  mon : Int
  day : Int
  hour : Int
  min : Int
  sec : Int
  utc_fmt : List Byte
  _sys_acc_min : Nat
  _sys_acc_sec : Nat

/-- The text `"%d-%02d-%02d %02d:%02d:%02d"` for the six numbers. -/
def render_time (year mon day hour min sec : Int) : List Byte :=
  fmt_int year ++ [45] ++ fmt_02d mon ++ [45] ++ fmt_02d day ++ [32] ++ fmt_02d hour ++ [58]
    ++ fmt_02d min ++ [58] ++ fmt_02d sec

namespace utc_timer

/-- The private `reset_utc_fmt()`: `snprintf(utc_fmt, 20, ...)` of the six
cached fields; the bytes of the buffer behind the stored text stay. -/
def reset_utc_fmt (t : utc_timer) : utc_timer :=
  let stored := (snprintf 20 (render_time t.year t.mon t.day t.hour t.min t.sec)).1
  { t with utc_fmt := stored ++ t.utc_fmt.drop stored.length }

/-- The private `reset_utc_fmt_sec()`: `snprintf(utc_fmt + 17, 3, "%02d", sec)`. -/
def reset_utc_fmt_sec (t : utc_timer) : utc_timer :=
  let stored := (snprintf 3 (fmt_02d t.sec)).1
  { t with utc_fmt := t.utc_fmt.take 17 ++ stored ++ t.utc_fmt.drop (17 + stored.length) }

/-- The constructor `utc_timer()`, for the local-time conversion `localtime_r`
and the second `tv_sec` that `gettimeofday` reports. -/
def ctor (localtime_r : Nat → tm) (tv_sec : Nat) : utc_timer :=
  let cur_tm := localtime_r tv_sec
  reset_utc_fmt
    { year := cur_tm.tm_year + 1900, mon := cur_tm.tm_mon + 1, day := cur_tm.tm_mday,
      hour := cur_tm.tm_hour, min := cur_tm.tm_min, sec := cur_tm.tm_sec,
      utc_fmt := List.replicate 20 0, _sys_acc_min := tv_sec / 60, _sys_acc_sec := tv_sec }

/-- The function `get_curr_time`, for the second `tv_sec` that `gettimeofday`
reports: the new cache and the return value.  The first test compares
`(uint32_t)tv.tv_sec` with the `uint64_t _sys_acc_sec`. -/
def get_curr_time (localtime_r : Nat → tm) (t : utc_timer) (tv_sec : Nat) : utc_timer × Nat :=
  if tv_sec % U32 ≠ t._sys_acc_sec then
    let t1 := { t with sec := ((tv_sec % 60 : Nat) : Int), _sys_acc_sec := tv_sec }
    if t1._sys_acc_sec / 60 ≠ t1._sys_acc_min then
      let cur_tm := localtime_r t1._sys_acc_sec
      let t2 := { t1 with
        _sys_acc_min := t1._sys_acc_sec / 60
        year := cur_tm.tm_year + 1900
        mon := cur_tm.tm_mon + 1
        day := cur_tm.tm_mday
        hour := cur_tm.tm_hour
        min := cur_tm.tm_min }
      (t2.reset_utc_fmt, tv_sec)
    else (t1.reset_utc_fmt_sec, tv_sec)
  else (t, tv_sec)

end utc_timer

/-- The civil date (year, month, day) of a day count since 1970-01-01. -/
def civil_from_days (days : Nat) : Int × Int × Int :=
  let z := days + 719468
  let era := z / 146097
  let doe := z % 146097
  let yoe := (doe - doe / 1460 + doe / 36524 - doe / 146096) / 365
  let doy := doe - (365 * yoe + yoe / 4 - yoe / 100)
  let mp := (5 * doy + 2) / 153
  let d := doy - (153 * mp + 2) / 5 + 1
  let m := if mp < 10 then mp + 3 else mp - 9
  let y := yoe + era * 400 + (if m ≤ 2 then 1 else 0)
  ((y : Int), (m : Int), (d : Int))

/-- A local-time conversion: the one of the time zone UTC.  Its seconds field
is `t % 60`, every other field is computed from `t / 60`. -/
def utc_tm (t : Nat) : tm :=
  let date := civil_from_days (t / 60 / 1440)
  { tm_year := date.1 - 1900, tm_mon := date.2.1 - 1, tm_mday := date.2.2,
    tm_hour := ((t / 60 / 60 % 24 : Nat) : Int), tm_min := ((t / 60 % 60 : Nat) : Int),
    tm_sec := ((t % 60 : Nat) : Int) }

/-! ### Reachable states of the ring -/

/-- The cell reached from the cell `a` by following `next` `k` times. -/
def walk_next (h : Nat → cell_buffer) : Nat → Nat → Nat
  | 0, a => a
  | k + 1, a => walk_next h k (h a).next

/-- The cell reached from the cell `a` by following `prev` `k` times. -/
def walk_prev (h : Nat → cell_buffer) : Nat → Nat → Nat
  | 0, a => a
  | k + 1, a => walk_prev h k (h a).prev

/-- The states of the ring reachable from the constructor's ring with cells
of `B` bytes, by any interleaving of the critical sections of the producers
and of the drainer; `ok` is what is known about the length of the records.
The flag tells where the drainer stands: `true` between its two critical
sections (a cell is selected and being written), `false` otherwise.

* `produce`: one call of `try_append`, at any time, with any record;
* `select_skip`, `select_go`: the first critical section of `persist` (it
  gives up, or selects the cell `_prst_buf`), when the assertion holds;
* `file_fail`: `decis_file` fails and the turn ends without the second section;
* `release`: the second critical section of `persist`. -/
inductive Reach (B : Nat) (ok : Nat → Prop) : ring_log → Bool → Prop
  | init : Reach B ok (ring_log.ctor B) false
  | produce (s : ring_log) (w : Bool) (curr_sec : Nat) (log_line : Nat → Byte) (len : Nat) :
      Reach B ok s w → ok len → Reach B ok (s.try_append curr_sec log_line len).1 w
  | select_skip (s s1 : ring_log) :
      Reach B ok s false → s.persist_select = some (s1, false) → Reach B ok s1 false
  | select_go (s s1 : ring_log) :
      Reach B ok s false → s.persist_select = some (s1, true) → Reach B ok s1 true
  | file_fail (s : ring_log) : Reach B ok s true → Reach B ok s false
  | release (s : ring_log) : Reach B ok s true → Reach B ok s.persist_release false

/-- The cell at position `i` of the ring order `l`, counted round the circle. -/
def cyc (l : List Nat) (i : Nat) : Nat :=
  l.getD (i % l.length) 0

/-- The list `ord` is the ring: it holds every cell once, in `next` order
from the consumer cell `C` round to `C`, and `prev` undoes `next`. -/
structure RingShape (s : ring_log) (ord : List Nat) : Prop where
  nodup : ord.Nodup
  mem : ∀ a, a ∈ ord ↔ a < s._buff_cnt
  linked : Linked s.heap ord s._prst_buf
  head : ord.head? = some s._prst_buf
  back : ∀ a, a < s._buff_cnt → (s.heap (s.heap a).next).prev = a

/-- The statuses round the ring `ord`: either, from `C` on, sealed cells, then
the producer cell `P` (`FREE`), then cells that are `FREE` and empty; or every
cell is `FULL` and `P` stands on `C`. -/
def Modes (s : ring_log) (ord : List Nat) : Prop :=
  (∃ fulls frees, ord = fulls ++ s._curr_buf :: frees
      ∧ (∀ a ∈ fulls, (s.heap a).status = buffer_status.FULL)
      ∧ (s.heap s._curr_buf).status = buffer_status.FREE
      ∧ (∀ a ∈ frees, (s.heap a).status = buffer_status.FREE ∧ (s.heap a)._used_len = 0))
    ∨ (s._curr_buf = s._prst_buf ∧ ∀ a ∈ ord, (s.heap a).status = buffer_status.FULL)

/-- The invariant of the reachable states: the ring `ord`, its statuses, at
least three cells, and a selected consumer cell is `FULL`. -/
structure Inv (s : ring_log) (w : Bool) (ord : List Nat) : Prop where
  shape : RingShape s ord
  modes : Modes s ord
  busy : w = true → (s.heap s._prst_buf).status = buffer_status.FULL
  three : 3 ≤ ord.length

/-- Every cell has `B` bytes and uses at most `B` of them. -/
def Sized (s : ring_log) (B : Nat) : Prop :=
  s._one_buff_len = B
    ∧ ∀ a, a < s._buff_cnt → (s.heap a)._total_len = B ∧ (s.heap a)._used_len ≤ B

/-- Every `FULL` cell holds at least one byte. -/
def NonEmptyFull (s : ring_log) : Prop :=
  ∀ a, a < s._buff_cnt → (s.heap a).status = buffer_status.FULL → 0 < (s.heap a)._used_len

/-! ## Theorems -/

section cell_lemmas

open cell_buffer

theorem avail_len_of_le (c : cell_buffer) (h1 : c._used_len ≤ c._total_len)
    (h2 : c._total_len < U32) : c.avail_len = c._total_len - c._used_len := by
  unfold cell_buffer.avail_len U32 at *
  omega

theorem avail_len_lt (c : cell_buffer) : c.avail_len < U32 := by
  unfold cell_buffer.avail_len
  exact Nat.mod_lt _ (by decide)

theorem append_of_lt (c : cell_buffer) (p : Nat → Byte) (len : Nat)
    (h : c.avail_len < len) : c.append p len = c := by
  simp [cell_buffer.append, h]

theorem append_seal_of_lt (c : cell_buffer) (p : Nat → Byte) (len : Nat)
    (h : c.avail_len < len) :
    ({ c with status := FULL } : cell_buffer).append p len = { c with status := FULL } :=
  append_of_lt _ p len h

theorem append_status (c : cell_buffer) (p : Nat → Byte) (len : Nat) :
    (c.append p len).status = c.status := by
  unfold cell_buffer.append
  split <;> rfl

theorem append_next (c : cell_buffer) (p : Nat → Byte) (len : Nat) :
    (c.append p len).next = c.next := by
  unfold cell_buffer.append
  split <;> rfl

theorem append_prev (c : cell_buffer) (p : Nat → Byte) (len : Nat) :
    (c.append p len).prev = c.prev := by
  unfold cell_buffer.append
  split <;> rfl

theorem append_total_len (c : cell_buffer) (p : Nat → Byte) (len : Nat) :
    (c.append p len)._total_len = c._total_len := by
  unfold cell_buffer.append
  split <;> rfl

theorem append_used_len (c : cell_buffer) (p : Nat → Byte) (len : Nat)
    (h1 : c._used_len ≤ c._total_len) (h2 : c._total_len < U32) (h : len ≤ c.avail_len) :
    (c.append p len)._used_len = c._used_len + len := by
  have ha := avail_len_of_le c h1 h2
  have hn : ¬ c.avail_len < len := by omega
  simp only [cell_buffer.append, hn, if_false]
  unfold U32 at *
  omega

theorem append_contents (c : cell_buffer) (p : Nat → Byte) (len : Nat)
    (h1 : c._used_len ≤ c._total_len) (h2 : c._total_len < U32) (h : len ≤ c.avail_len) :
    (c.append p len).contents = c.contents ++ bytes_at p len := by
  have hu := append_used_len c p len h1 h2 h
  have hn : ¬ c.avail_len < len := by omega
  unfold cell_buffer.contents bytes_at
  rw [hu, List.range_add, List.map_append, List.map_map]
  congr 1
  · apply List.map_congr_left
    intro a ha
    have : a < c._used_len := List.mem_range.mp ha
    simp only [cell_buffer.append, hn, if_false]
    rw [if_neg (by omega)]
  · apply List.map_congr_left
    intro a ha
    have : a < len := List.mem_range.mp ha
    simp only [cell_buffer.append, hn, if_false, Function.comp]
    rw [if_pos (by omega)]
    congr 1
    omega

theorem append_all_spec (calls : List ((Nat → Byte) × Nat)) :
    ∀ c : cell_buffer, c._used_len ≤ c._total_len → c._total_len < U32 →
      (append_all c calls).contents
          = c.contents ++ ((fitting c calls).map fun call => bytes_at call.1 call.2).flatten
        ∧ (append_all c calls)._used_len
          = c._used_len + ((fitting c calls).map fun call => call.2).sum
        ∧ (append_all c calls)._used_len ≤ c._total_len
        ∧ (append_all c calls)._total_len = c._total_len
        ∧ (append_all c calls).status = c.status := by
  induction calls with
  | nil => intro c h1 _; simp [append_all, fitting, h1]
  | cons call rest ih =>
    intro c h1 h2
    by_cases hf : call.2 ≤ c.avail_len
    · have hu := append_used_len c call.1 call.2 h1 h2 hf
      have hc := append_contents c call.1 call.2 h1 h2 hf
      have ht := append_total_len c call.1 call.2
      have ha := avail_len_of_le c h1 h2
      have := ih (c.append call.1 call.2) (by omega) (by omega)
      simp only [append_all, fitting, hf, if_true, List.map_cons, List.flatten_cons,
        List.sum_cons]
      rw [this.1, this.2.1, hc, hu]
      refine ⟨by simp, by omega, ?_, ?_, ?_⟩
      · have := this.2.2.1; omega
      · rw [this.2.2.2.1, ht]
      · rw [this.2.2.2.2, append_status]
    · have hlt : c.avail_len < call.2 := by omega
      have hid := append_of_lt c call.1 call.2 hlt
      have := ih c h1 h2
      simp only [append_all, fitting, hf, if_false, hid]
      exact this

end cell_lemmas

section cell_claims

open cell_buffer

/-- Claim C9. After a `clear`, in any run of `cell_buffer::append` calls on a
cell of capacity `B < 2^32`: a call whose length exceeds `avail_len()` at that
moment leaves the cell as it is, and after the run the bytes `[0, u)` of the
cell are the byte strings of the calls that fitted, concatenated in call order,
`u` is the sum of their lengths and `u ≤ B`. -/
theorem C9_cell_append_contract (c0 : cell_buffer) (calls : List ((Nat → Byte) × Nat))
    (hB : c0._total_len < U32) :
    (∀ (before after : List ((Nat → Byte) × Nat)) (p : Nat → Byte) (len : Nat),
        calls = before ++ (p, len) :: after →
        (append_all c0.clear before).avail_len < len →
        (append_all c0.clear before).append p len = append_all c0.clear before)
      ∧ (append_all c0.clear calls).contents
          = ((fitting c0.clear calls).map fun call => bytes_at call.1 call.2).flatten
      ∧ (append_all c0.clear calls)._used_len
          = ((fitting c0.clear calls).map fun call => call.2).sum
      ∧ (append_all c0.clear calls)._used_len ≤ c0._total_len := by
  have h := append_all_spec calls c0.clear (by simp [cell_buffer.clear]) hB
  refine ⟨?_, ?_, ?_, ?_⟩
  · intro before after p len _ hlt
    exact append_of_lt _ p len hlt
  · rw [h.1]; simp [cell_buffer.contents, cell_buffer.clear]
  · rw [h.2.1]; simp [cell_buffer.clear]
  · exact h.2.2.1

/-- Witness of claim C9: a cell of capacity 4, the calls "ab", "cde" (too
long at that moment) and "f". -/
theorem C9_cell_append_contract_witness :
    (cell_buffer.mk_len 4)._total_len < U32
      ∧ (append_all (cell_buffer.mk_len 4).clear
          [(ptr_of [97, 98], 2), (ptr_of [99, 100, 101], 3), (ptr_of [102], 1)]).contents
        = ((fitting (cell_buffer.mk_len 4).clear
          [(ptr_of [97, 98], 2), (ptr_of [99, 100, 101], 3), (ptr_of [102], 1)]).map
            fun call => bytes_at call.1 call.2).flatten :=
  ⟨by decide, (C9_cell_append_contract (cell_buffer.mk_len 4)
    [(ptr_of [97, 98], 2), (ptr_of [99, 100, 101], 3), (ptr_of [102], 1)] (by decide)).2.1⟩

/-- Counterexample to claim C10 as stated: on a cell of capacity 4, `clear`
followed by `append` of a 5-byte string leaves `u = 0`, not 5. -/
theorem C10_counterexample :
    ((cell_buffer.mk_len 4).clear.append (ptr_of [1, 2, 3, 4, 5]) 5)._used_len = 0
      ∧ ((cell_buffer.mk_len 4).clear.append (ptr_of [1, 2, 3, 4, 5]) 5)._used_len ≠ 5 := by
  decide

/-- Claim C10, amended. For every cell of capacity `B < 2^32` (whatever its
used length and status) and every byte string `x` with `|x| ≤ B`, `clear`
followed by `append(x)` leaves the cell with `u = |x|`, status `FREE` and
contents `x`. -/
theorem C10_clear_append (c : cell_buffer) (p : Nat → Byte) (len : Nat)
    (hB : c._total_len < U32) (hlen : len ≤ c._total_len) :
    (c.clear.append p len)._used_len = len
      ∧ (c.clear.append p len).status = FREE
      ∧ (c.clear.append p len).contents = bytes_at p len := by
  have h0 : c.clear._used_len ≤ c.clear._total_len := by simp [cell_buffer.clear]
  have ht : c.clear._total_len < U32 := hB
  have ha : len ≤ c.clear.avail_len := by
    rw [avail_len_of_le _ h0 ht]; simpa [cell_buffer.clear] using hlen
  refine ⟨?_, ?_, ?_⟩
  · rw [append_used_len _ p len h0 ht ha]; simp [cell_buffer.clear]
  · rw [append_status]; rfl
  · rw [append_contents _ p len h0 ht ha]; simp [cell_buffer.contents, cell_buffer.clear]

/-- Witness of claim C10 (amended): a cell of capacity 4 holding one byte
and marked `FULL`, and the 3-byte string "abc". -/
theorem C10_clear_append_witness :
    ({ cell_buffer.mk_len 4 with _used_len := 1, status := FULL } : cell_buffer)._total_len < U32
      ∧ 3 ≤ ({ cell_buffer.mk_len 4 with _used_len := 1, status := FULL } : cell_buffer)._total_len
      ∧ (({ cell_buffer.mk_len 4 with _used_len := 1, status := FULL } : cell_buffer).clear.append
          (ptr_of [97, 98, 99]) 3)._used_len = 3 :=
  ⟨by decide, by decide,
    (C10_clear_append { cell_buffer.mk_len 4 with _used_len := 1, status := FULL }
      (ptr_of [97, 98, 99]) 3 (by decide) (by decide)).1⟩

end cell_claims

section heap_lemmas

@[simp] theorem upd_same (h : Nat → cell_buffer) (a : Nat) (f : cell_buffer → cell_buffer) :
    upd h a f a = f (h a) := by
  simp [upd]

theorem upd_other (h : Nat → cell_buffer) (a x : Nat) (f : cell_buffer → cell_buffer)
    (hx : x ≠ a) : upd h a f x = h x := by
  simp [upd, hx]

@[simp] theorem alloc_same (h : Nat → cell_buffer) (a len : Nat) :
    alloc h a len a = cell_buffer.mk_len len := by
  simp [alloc]

theorem alloc_other (h : Nat → cell_buffer) (a x len : Nat) (hx : x ≠ a) :
    alloc h a len x = h x := by
  simp [alloc, hx]

end heap_lemmas

section branch_lemmas

open cell_buffer ring_log

theorem try_append_gate (s : ring_log) (now_sec : Nat) (log_line : Nat → Byte) (len : Nat)
    (hb : s.backoff now_sec = true) : try_append s now_sec log_line len = (s, false) := by
  simp [try_append, hb]

theorem try_append_fast (s : ring_log) (now_sec : Nat) (log_line : Nat → Byte) (len : Nat)
    (hb : s.backoff now_sec = false) (hfree : (s.heap s._curr_buf).status = FREE)
    (hfit : len ≤ (s.heap s._curr_buf).avail_len) :
    try_append s now_sec log_line len
      = ({ s with _lst_lts := 0
                  heap := upd s.heap s._curr_buf (fun c => c.append log_line len) }, false) := by
  have hc : (s.heap s._curr_buf).status = FREE ∧ (s.heap s._curr_buf).avail_len ≥ len :=
    ⟨hfree, hfit⟩
  simp only [try_append, hb, Bool.false_eq_true, if_false, hc, and_self, if_true]

theorem try_append_full (s : ring_log) (now_sec : Nat) (log_line : Nat → Byte) (len : Nat)
    (hb : s.backoff now_sec = false) (hfull : (s.heap s._curr_buf).status = FULL) :
    try_append s now_sec log_line len = ({ s with _lst_lts := now_sec }, false) := by
  simp [try_append, hb, hfull]

theorem try_append_next_free (s : ring_log) (now_sec : Nat) (log_line : Nat → Byte) (len : Nat)
    (hb : s.backoff now_sec = false) (hfree : (s.heap s._curr_buf).status = FREE)
    (hfit : (s.heap s._curr_buf).avail_len < len)
    (hne : (s.heap s._curr_buf).next ≠ s._curr_buf)
    (hnext : (s.heap (s.heap s._curr_buf).next).status = FREE) :
    try_append s now_sec log_line len
      = ({ s with _lst_lts := 0
                  heap := upd (upd s.heap s._curr_buf (fun c => { c with status := FULL }))
                    (s.heap s._curr_buf).next (fun c => c.append log_line len)
                  _curr_buf := (s.heap s._curr_buf).next }, true) := by
  simp [try_append, hb, hfree, hfit, upd_other _ _ _ _ hne, hnext]

theorem try_append_over (s : ring_log) (now_sec : Nat) (log_line : Nat → Byte) (len : Nat)
    (hb : s.backoff now_sec = false) (hfree : (s.heap s._curr_buf).status = FREE)
    (hfit : (s.heap s._curr_buf).avail_len < len)
    (hnext : (s.heap s._curr_buf).next = s._curr_buf
      ∨ (s.heap (s.heap s._curr_buf).next).status = FULL)
    (hover : s.over_limit = true) :
    try_append s now_sec log_line len
      = (if now_sec = 0 then
          { s with _lst_lts := now_sec
                   heap := upd (upd s.heap s._curr_buf (fun c => { c with status := FULL }))
                     (s.heap s._curr_buf).next (fun c => c.append log_line len)
                   _curr_buf := (s.heap s._curr_buf).next }
        else
          { s with _lst_lts := now_sec
                   heap := upd s.heap s._curr_buf (fun c => { c with status := FULL })
                   _curr_buf := (s.heap s._curr_buf).next }, true) := by
  have hst : (upd s.heap s._curr_buf (fun c => { c with status := FULL })
      (s.heap s._curr_buf).next).status = FULL := by
    rcases hnext with h | h
    · rw [h]; simp
    · by_cases h2 : (s.heap s._curr_buf).next = s._curr_buf
      · rw [h2]; simp
      · rw [upd_other _ _ _ _ h2]; exact h
  have hov : ({ s with _lst_lts := 0
                       heap := upd s.heap s._curr_buf (fun c => { c with status := FULL }) }
      : ring_log).over_limit = true := hover
  by_cases hnow : now_sec = 0
  · subst hnow
    simp [try_append, hb, hfree, hfit, hst, hov]
  · simp [try_append, hb, hfree, hfit, hst, hov, hnow]

theorem try_append_drop (s : ring_log) (now_sec : Nat) (log_line : Nat → Byte) (len : Nat)
    (hb : s.backoff now_sec = false) (hfree : (s.heap s._curr_buf).status = FREE)
    (hfit : (s.heap s._curr_buf).avail_len < len)
    (hnext : (s.heap s._curr_buf).next = s._curr_buf
      ∨ (s.heap (s.heap s._curr_buf).next).status = FULL)
    (hover : s.over_limit = true) (hnow : now_sec ≠ 0) :
    try_append s now_sec log_line len
      = ({ s with _lst_lts := now_sec
                  heap := upd s.heap s._curr_buf (fun c => { c with status := FULL })
                  _curr_buf := (s.heap s._curr_buf).next }, true) := by
  rw [try_append_over s now_sec log_line len hb hfree hfit hnext hover, if_neg hnow]

theorem try_append_grow (s : ring_log) (now_sec : Nat) (log_line : Nat → Byte) (len : Nat)
    (hb : s.backoff now_sec = false) (hfree : (s.heap s._curr_buf).status = FREE)
    (hfit : (s.heap s._curr_buf).avail_len < len)
    (hnext : (s.heap s._curr_buf).next = s._curr_buf
      ∨ (s.heap (s.heap s._curr_buf).next).status = FULL)
    (hover : s.over_limit = false) :
    try_append s now_sec log_line len
      = ({ s with
            _lst_lts := 0
            heap :=
              upd (upd (upd (upd (upd (alloc
                (upd s.heap s._curr_buf (fun c => { c with status := FULL }))
                  s._buff_cnt s._one_buff_len)
                  s._buff_cnt (fun c => { c with prev := s._curr_buf }))
                  s._curr_buf (fun c => { c with next := s._buff_cnt }))
                  s._buff_cnt (fun c => { c with next := (s.heap s._curr_buf).next }))
                  (s.heap s._curr_buf).next (fun c => { c with prev := s._buff_cnt }))
                  s._buff_cnt (fun c => c.append log_line len)
            _buff_cnt := s._buff_cnt + 1
            _curr_buf := s._buff_cnt }, true) := by
  have hst : (upd s.heap s._curr_buf (fun c => { c with status := FULL })
      (s.heap s._curr_buf).next).status = FULL := by
    rcases hnext with h | h
    · rw [h]; simp
    · by_cases h2 : (s.heap s._curr_buf).next = s._curr_buf
      · rw [h2]; simp
      · rw [upd_other _ _ _ _ h2]; exact h
  have hov : ({ s with _lst_lts := 0
                       heap := upd s.heap s._curr_buf (fun c => { c with status := FULL }) }
      : ring_log).over_limit = false := hover
  simp [try_append, hb, hfree, hfit, hst, hov]

end branch_lemmas

section producer_claims

open cell_buffer ring_log

/-- Counterexample to claim C7 as stated: with `last_lost_ts = 100` and a call
at `now_sec = 99` (so `now_sec - t < 5` over the integers, and over the
naturals), the `uint64_t` difference wraps to `2^64 - 1`, the gate is not
taken, and the record is appended: the state changes. -/
theorem C7_counterexample :
    ((99 : Int) - 100 < 5) ∧ (99 - 100 < 5) ∧ (100 ≠ 0)
      ∧ ((try_append { ctor 100 with _lst_lts := 100 } 99 (ptr_of [65]) 1).1.heap 0)._used_len = 1
      ∧ (({ ctor 100 with _lst_lts := 100 } : ring_log).heap 0)._used_len = 0
      ∧ (try_append { ctor 100 with _lst_lts := 100 } 99 (ptr_of [65]) 1).1._lst_lts = 0 := by
  decide

/-- Claim C7, amended. For every state with `last_lost_ts = t ≠ 0` and every
call of `try_append` at a time `now_sec` (a `uint64_t`) with `t ≤ now_sec` and
`now_sec - t < 5`, the record is dropped: the call returns the state it was
given, and no signal is requested. -/
theorem C7_backoff_gate (s : ring_log) (now_sec : Nat) (log_line : Nat → Byte) (len : Nat)
    (ht : s._lst_lts ≠ 0) (hle : s._lst_lts ≤ now_sec)
    (hwin : now_sec - s._lst_lts < 5) :
    try_append s now_sec log_line len = (s, false) := by
  have hb : s.backoff now_sec = true := by
    simp only [backoff, RELOG_THRESOLD, Bool.and_eq_true, decide_eq_true_eq]
    refine ⟨ht, ?_⟩
    unfold U64 at *
    omega
  simp [try_append, hb]

/-- Witness of claim C7 (amended): scenario S4, a call 2 seconds after a drop
at second 100. -/
theorem C7_backoff_gate_witness :
    try_append { ctor 100 with _lst_lts := 100 } 102 (ptr_of [65]) 1
      = ({ ctor 100 with _lst_lts := 100 }, false) :=
  C7_backoff_gate { ctor 100 with _lst_lts := 100 } 102 (ptr_of [65]) 1
    (by decide) (by decide) (by decide)

/-- Claim C6. In every state with `P` a `FREE` cell (with `u ≤ B < 2^32`)
and no active backoff: a record of length `L ≤ P.avail()`, equality included,
is appended to `P` (its contents grow by exactly the record), `P`, `C`, `n`,
every cell's status and every other cell stay as they were and no signal is
requested; a record of length `avail() + 1` is not appended to that cell
(neither its bytes nor its used length change), the cell is sealed (`FULL`)
and a signal is requested. -/
theorem C6_fast_path (s : ring_log) (now_sec : Nat) (log_line : Nat → Byte) (len : Nat)
    (hfree : (s.heap s._curr_buf).status = FREE)
    (hgate : s.backoff now_sec = false)
    (hu : (s.heap s._curr_buf)._used_len ≤ (s.heap s._curr_buf)._total_len)
    (hB : (s.heap s._curr_buf)._total_len < U32)
    (hP : s._curr_buf < s._buff_cnt) :
    (len ≤ (s.heap s._curr_buf).avail_len →
        ((try_append s now_sec log_line len).1.heap s._curr_buf).contents
            = (s.heap s._curr_buf).contents ++ bytes_at log_line len
          ∧ ((try_append s now_sec log_line len).1.heap s._curr_buf)._used_len
            = (s.heap s._curr_buf)._used_len + len
          ∧ (try_append s now_sec log_line len).1._curr_buf = s._curr_buf
          ∧ (try_append s now_sec log_line len).1._prst_buf = s._prst_buf
          ∧ (try_append s now_sec log_line len).1._buff_cnt = s._buff_cnt
          ∧ (∀ a, ((try_append s now_sec log_line len).1.heap a).status = (s.heap a).status)
          ∧ (∀ a, a ≠ s._curr_buf → (try_append s now_sec log_line len).1.heap a = s.heap a)
          ∧ (try_append s now_sec log_line len).2 = false)
      ∧ (len = (s.heap s._curr_buf).avail_len + 1 →
        ((try_append s now_sec log_line len).1.heap s._curr_buf).status = FULL
          ∧ ((try_append s now_sec log_line len).1.heap s._curr_buf)._used_len
            = (s.heap s._curr_buf)._used_len
          ∧ ((try_append s now_sec log_line len).1.heap s._curr_buf)._data
            = (s.heap s._curr_buf)._data
          ∧ (try_append s now_sec log_line len).2 = true) := by
  constructor
  · intro hfit
    rw [try_append_fast s now_sec log_line len hgate hfree hfit]
    refine ⟨?_, ?_, rfl, rfl, rfl, ?_, ?_, rfl⟩
    · simpa using append_contents _ _ _ hu hB hfit
    · simpa using append_used_len _ _ _ hu hB hfit
    · intro a
      by_cases ha : a = s._curr_buf
      · subst ha; simp [append_status]
      · simp [upd_other _ _ _ _ ha]
    · intro a ha
      simp [upd_other _ _ _ _ ha]
  · intro hlen
    have hfit : (s.heap s._curr_buf).avail_len < len := by omega
    have hPn : s._curr_buf ≠ s._buff_cnt := by omega
    by_cases hnx : (s.heap s._curr_buf).next = s._curr_buf
    · by_cases hov : s.over_limit = true
      · rw [try_append_over s now_sec log_line len hgate hfree hfit (Or.inl hnx) hov]
        by_cases hnow : now_sec = 0
        · have key : ∀ c : cell_buffer, c._total_len = (s.heap s._curr_buf)._total_len →
              c._used_len = (s.heap s._curr_buf)._used_len → c.append log_line len = c := by
            intro c h1 h2
            apply append_of_lt
            unfold cell_buffer.avail_len at *
            rw [h1, h2]; exact hfit
          simp [hnow, hnx]
          rw [key ⟨FULL, (s.heap s._curr_buf).prev, s._curr_buf, (s.heap s._curr_buf)._total_len,
            (s.heap s._curr_buf)._used_len, (s.heap s._curr_buf)._data⟩ rfl rfl]
          exact ⟨rfl, rfl, rfl⟩
        · simp [hnow]
      · rw [try_append_grow s now_sec log_line len hgate hfree hfit (Or.inl hnx) (by simpa using hov)]
        simp [upd, alloc, hPn, hnx]
    · cases hst : (s.heap (s.heap s._curr_buf).next).status
      · rw [try_append_next_free s now_sec log_line len hgate hfree hfit hnx hst]
        simp [upd, Ne.symm hnx]
      · by_cases hov : s.over_limit = true
        · rw [try_append_over s now_sec log_line len hgate hfree hfit (Or.inr hst) hov]
          by_cases hnow : now_sec = 0
          · simp [hnow, upd, Ne.symm hnx]
          · simp [hnow]
        · rw [try_append_grow s now_sec log_line len hgate hfree hfit (Or.inr hst)
            (by simpa using hov)]
          simp [upd, alloc, hPn, Ne.symm hnx]

/-- Witness of claim C6: cells of 100 bytes, the producer cell empty, a record
of exactly 100 bytes. -/
theorem C6_fast_path_witness :
    ((ctor 100).heap (ctor 100)._curr_buf).status = FREE
      ∧ (ctor 100).backoff 7 = false
      ∧ 100 ≤ ((ctor 100).heap (ctor 100)._curr_buf).avail_len
      ∧ ((try_append (ctor 100) 7 (fun _ => 65) 100).1.heap (ctor 100)._curr_buf)._used_len
          = ((ctor 100).heap (ctor 100)._curr_buf)._used_len + 100 :=
  ⟨by decide, by decide, by decide,
    ((C6_fast_path (ctor 100) 7 (fun _ => 65) 100 (by decide) (by decide) (by decide)
      (by decide) (by decide)).1 (by decide)).2.1⟩

/-- Elastic growth once the backoff gate is passed: if `P` is `FREE`, the
record of length `L ≤ B` does not fit in `P`, `P.next` is `FULL` and
`(n+1)*B ≤ MEM_CAP` (`P` and `P.next` being two of the `n` cells),
`try_append` makes the cell count `n+1`, marks the old `P` `FULL` with its
bytes unchanged, splices one fresh cell (address `n`) between the old `P` and
the old `P.next`, makes it the new `P` with status `FREE` and contents exactly
the record; every other cell and `C` are as they were. -/
theorem elastic_growth_of_gate (s : ring_log) (now_sec : Nat) (log_line : Nat → Byte) (len : Nat)
    (hgate : s.backoff now_sec = false)
    (hfree : (s.heap s._curr_buf).status = FREE)
    (hfit : (s.heap s._curr_buf).avail_len < len)
    (hnext : (s.heap (s.heap s._curr_buf).next).status = FULL)
    (hlen : len ≤ s._one_buff_len)
    (hcap : (s._buff_cnt + 1) * s._one_buff_len ≤ MEM_USE_LIMIT)
    (hP : s._curr_buf < s._buff_cnt)
    (hN : (s.heap s._curr_buf).next < s._buff_cnt) :
    (try_append s now_sec log_line len).1._buff_cnt = s._buff_cnt + 1
      ∧ (try_append s now_sec log_line len).1.heap s._curr_buf
          = { s.heap s._curr_buf with status := FULL, next := s._buff_cnt }
      ∧ (try_append s now_sec log_line len).1.heap (s.heap s._curr_buf).next
          = { s.heap (s.heap s._curr_buf).next with prev := s._buff_cnt }
      ∧ (try_append s now_sec log_line len).1._curr_buf = s._buff_cnt
      ∧ ((try_append s now_sec log_line len).1.heap s._buff_cnt).status = FREE
      ∧ ((try_append s now_sec log_line len).1.heap s._buff_cnt).prev = s._curr_buf
      ∧ ((try_append s now_sec log_line len).1.heap s._buff_cnt).next = (s.heap s._curr_buf).next
      ∧ ((try_append s now_sec log_line len).1.heap s._buff_cnt).contents = bytes_at log_line len
      ∧ ((try_append s now_sec log_line len).1.heap s._buff_cnt)._used_len = len
      ∧ (try_append s now_sec log_line len).1._prst_buf = s._prst_buf
      ∧ (∀ a, a ≠ s._curr_buf → a ≠ (s.heap s._curr_buf).next → a ≠ s._buff_cnt →
          (try_append s now_sec log_line len).1.heap a = s.heap a)
      ∧ (try_append s now_sec log_line len).2 = true := by
  have hmem : MEM_USE_LIMIT < U32 := by decide
  have hB : s._one_buff_len < U32 := by
    have : s._one_buff_len ≤ (s._buff_cnt + 1) * s._one_buff_len :=
      Nat.le_mul_of_pos_left _ (Nat.succ_pos _)
    omega
  have hov : s.over_limit = false := by
    simp only [over_limit, decide_eq_false_iff_not, not_lt]
    calc (s._one_buff_len * ((s._buff_cnt + 1) % U32)) % U32
        ≤ s._one_buff_len * ((s._buff_cnt + 1) % U32) := Nat.mod_le _ _
      _ ≤ s._one_buff_len * (s._buff_cnt + 1) := Nat.mul_le_mul_left _ (Nat.mod_le _ _)
      _ = (s._buff_cnt + 1) * s._one_buff_len := Nat.mul_comm _ _
      _ ≤ MEM_USE_LIMIT := hcap
  have hPn : s._curr_buf ≠ s._buff_cnt := by omega
  have hNn : (s.heap s._curr_buf).next ≠ s._buff_cnt := by omega
  have hne : (s.heap s._curr_buf).next ≠ s._curr_buf := by
    intro h; rw [h, hfree] at hnext; cases hnext
  have hfresh : (cell_buffer.mk_len s._one_buff_len)._used_len
      ≤ (cell_buffer.mk_len s._one_buff_len)._total_len := by simp [cell_buffer.mk_len]
  have happ : ∀ q r : Nat,
      ((cell_buffer.mk FREE q r s._one_buff_len 0 (fun _ => 0)).append log_line len).contents
          = bytes_at log_line len
        ∧ ((cell_buffer.mk FREE q r s._one_buff_len 0 (fun _ => 0)).append log_line len)._used_len
          = len := by
    intro q r
    have h0 : (cell_buffer.mk FREE q r s._one_buff_len 0 (fun _ => 0))._used_len
        ≤ (cell_buffer.mk FREE q r s._one_buff_len 0 (fun _ => 0))._total_len := Nat.zero_le _
    have ha : len ≤ (cell_buffer.mk FREE q r s._one_buff_len 0 (fun _ => 0)).avail_len := by
      rw [avail_len_of_le _ h0 hB]; exact hlen
    constructor
    · rw [append_contents _ _ _ h0 hB ha]; simp [cell_buffer.contents]
    · rw [append_used_len _ _ _ h0 hB ha]; simp
  rw [try_append_grow s now_sec log_line len hgate hfree hfit (Or.inr hnext) hov]
  refine ⟨rfl, ?_, ?_, rfl, ?_, ?_, ?_, ?_, ?_, rfl, ?_, rfl⟩
  · simp [upd, alloc, hPn, hPn.symm, hne, hne.symm]
  · simp [upd, alloc, hNn, hNn.symm, hne, hne.symm]
  · simp [upd, alloc, append_status, cell_buffer.mk_len, hNn, hNn.symm, hPn, hPn.symm]
  · simp [upd, alloc, append_prev, cell_buffer.mk_len, hNn, hNn.symm, hPn, hPn.symm]
  · simp [upd, alloc, append_next, cell_buffer.mk_len, hNn, hNn.symm, hPn, hPn.symm]
  · simp only [upd, alloc, cell_buffer.mk_len, if_true, hNn.symm, if_false, hPn.symm]
    exact (happ _ _).1
  · simp only [upd, alloc, cell_buffer.mk_len, if_true, hNn.symm, if_false, hPn.symm]
    exact (happ _ _).2
  · intro a h1 h2 h3
    simp [upd, alloc, h1, h2, h3]

/-- The ceiling branch where the growth test does not wrap: once the backoff
gate is passed, if `P` is `FREE`, the record does not fit in `P`, `P.next` is
`FULL` and `MEM_CAP < (n+1)*B < 2^32`, `try_append` at a time `now_sec ≠ 0`
drops the record: the old `P` is marked `FULL` and otherwise unchanged, every
other cell is unchanged, `n` and `C` are unchanged, `P` advances to the old
`P.next`, `last_lost_ts = now_sec` afterwards and a signal is requested. -/
theorem ceiling_drop_of_gate (s : ring_log) (now_sec : Nat) (log_line : Nat → Byte) (len : Nat)
    (hgate : s.backoff now_sec = false)
    (hnow : now_sec ≠ 0)
    (hfree : (s.heap s._curr_buf).status = FREE)
    (hfit : (s.heap s._curr_buf).avail_len < len)
    (hnext : (s.heap (s.heap s._curr_buf).next).status = FULL)
    (hcap : MEM_USE_LIMIT < (s._buff_cnt + 1) * s._one_buff_len)
    (hwrap : (s._buff_cnt + 1) * s._one_buff_len < U32) :
    (try_append s now_sec log_line len).1.heap s._curr_buf
        = { s.heap s._curr_buf with status := FULL }
      ∧ (∀ a, a ≠ s._curr_buf → (try_append s now_sec log_line len).1.heap a = s.heap a)
      ∧ (∀ a, ((try_append s now_sec log_line len).1.heap a)._used_len = (s.heap a)._used_len
          ∧ ((try_append s now_sec log_line len).1.heap a)._data = (s.heap a)._data)
      ∧ (try_append s now_sec log_line len).1._buff_cnt = s._buff_cnt
      ∧ (try_append s now_sec log_line len).1._prst_buf = s._prst_buf
      ∧ (try_append s now_sec log_line len).1._curr_buf = (s.heap s._curr_buf).next
      ∧ (try_append s now_sec log_line len).1._lst_lts = now_sec
      ∧ (try_append s now_sec log_line len).2 = true := by
  have hpos : 0 < s._one_buff_len := by
    rcases Nat.eq_zero_or_pos s._one_buff_len with h | h
    · rw [h] at hcap; simp at hcap
    · exact h
  have hn : s._buff_cnt + 1 < U32 := by
    have : s._buff_cnt + 1 ≤ (s._buff_cnt + 1) * s._one_buff_len :=
      Nat.le_mul_of_pos_right _ hpos
    omega
  have hov : s.over_limit = true := by
    simp only [over_limit, decide_eq_true_eq]
    rw [Nat.mod_eq_of_lt hn, Nat.mul_comm, Nat.mod_eq_of_lt hwrap]
    exact hcap
  rw [try_append_drop s now_sec log_line len hgate hfree hfit (Or.inr hnext) hov hnow]
  refine ⟨?_, ?_, ?_, rfl, rfl, rfl, rfl, rfl⟩
  · simp
  · intro a ha
    simp [upd, ha]
  · intro a
    by_cases ha : a = s._curr_buf
    · subst ha; simp
    · simp [upd, ha]

theorem try_append_len_eq (lvl utc_fmt : List Byte) (ms : Nat) (body : List Byte) :
    try_append_len lvl utc_fmt ms body
      = ((head_text lvl utc_fmt ms).length + body.length) % U32 := rfl

/-- Claim C8, the code at its failing input. For the level tag `[INFO]`, a
19-byte time string and a format whose rendering has 5000 bytes (a record
longer than 4096 bytes), the length handed to `cell_buffer::append` is the sum
of the two untruncated return values, 5031, above `LOG_LEN_LIMIT = 4096`. -/
theorem C8_len_exceeds_limit :
    try_append_len tag_INFO utc_sample 7 (List.replicate 5000 120) = 5031
      ∧ LOG_LEN_LIMIT < try_append_len tag_INFO utc_sample 7 (List.replicate 5000 120) := by
  have hhead : (head_text tag_INFO utc_sample 7).length = 31 := by decide
  have h : try_append_len tag_INFO utc_sample 7 (List.replicate 5000 120) = 5031 := by
    rw [try_append_len_eq, hhead, List.length_replicate]
    decide
  rw [h]
  exact ⟨rfl, by decide⟩

end producer_claims

section ring_lemmas

open cell_buffer ring_log

theorem linked_congr (h h2 : Nat → cell_buffer) (l : List Nat) (z : Nat)
    (hh : ∀ a ∈ l, (h2 a).next = (h a).next) (hl : Linked h l z) : Linked h2 l z := by
  induction l with
  | nil => trivial
  | cons a l ih =>
    refine ⟨?_, ih (fun b hb => hh b (List.mem_cons_of_mem _ hb)) hl.2⟩
    rw [hh a (List.mem_cons_self _ _)]; exact hl.1

theorem linked_append (h : Nat → cell_buffer) (l1 l2 : List Nat) (z : Nat) :
    Linked h (l1 ++ l2) z ↔ Linked h l1 (l2.headD z) ∧ Linked h l2 z := by
  induction l1 with
  | nil => simp [Linked]
  | cons a l ih =>
    cases l with
    | nil => simp [Linked]
    | cons b l => simp only [List.cons_append, Linked, List.headD_cons] at ih ⊢; tauto

theorem contents_length (c : cell_buffer) : c.contents.length = c._used_len := by
  simp [cell_buffer.contents]

theorem cells_bytes_length (h : Nat → cell_buffer) (l : List Nat) :
    (cells_bytes h l).length = (l.map fun a => (h a)._used_len).sum := by
  induction l with
  | nil => rfl
  | cons a l ih =>
    simp only [cells_bytes, List.map_cons, List.flatten_cons, List.length_append,
      List.sum_cons, contents_length] at ih ⊢
    rw [ih]

theorem cells_bytes_append (h : Nat → cell_buffer) (l1 l2 : List Nat) :
    cells_bytes h (l1 ++ l2) = cells_bytes h l1 ++ cells_bytes h l2 := by
  simp [cells_bytes]

theorem cells_bytes_congr (h h2 : Nat → cell_buffer) (l : List Nat)
    (hh : ∀ a ∈ l, (h2 a).contents = (h a).contents) : cells_bytes h2 l = cells_bytes h l := by
  unfold cells_bytes
  rw [List.map_congr_left hh]

theorem cells_bytes_empty (h : Nat → cell_buffer) (l : List Nat)
    (hh : ∀ a ∈ l, (h a)._used_len = 0) : cells_bytes h l = [] := by
  induction l with
  | nil => rfl
  | cons a l ih =>
    have h1 : (h a).contents = [] := by
      simp [cell_buffer.contents, hh a (List.mem_cons_self _ _)]
    have h2 := ih (fun b hb => hh b (List.mem_cons_of_mem _ hb))
    simp only [cells_bytes, List.map_cons, List.flatten_cons] at h2 ⊢
    rw [h1, h2]; rfl

theorem held_eq_of_perm (s : ring_log) (ord : List Nat) (hn : ord.Nodup)
    (hm : ∀ a, a ∈ ord ↔ a < s._buff_cnt) :
    s.held = (cells_bytes s.heap ord).length := by
  have hp : List.Perm (List.range s._buff_cnt) ord := by
    rw [List.perm_ext_iff_of_nodup (List.nodup_range _) hn]
    intro a; rw [hm a, List.mem_range]
  rw [cells_bytes_length]
  unfold ring_log.held
  exact (hp.map _).sum_eq

theorem ctor_inv (B : Nat) (hB : B < U32) : ProdInv (ctor B) [] [1, 2] [] := by
  refine ⟨(by show ([0, 1, 2] : List Nat).Nodup; decide), ?_, ?_, rfl, ?_, rfl, ?_, ?_, hB, ?_⟩
  · intro a
    show a ∈ [0, 1, 2] ↔ a < 3
    simp only [List.mem_cons, List.mem_singleton, List.not_mem_nil, or_false]
    omega
  · exact ⟨rfl, rfl, rfl, trivial⟩
  · intro a ha; cases ha
  · intro a ha
    simp only [List.mem_cons, List.mem_singleton, List.not_mem_nil, or_false] at ha
    rcases ha with rfl | rfl <;> exact ⟨rfl, rfl⟩
  · intro a ha
    have h3 : a < 3 := ha
    have : a = 0 ∨ a = 1 ∨ a = 2 := by omega
    rcases this with rfl | rfl | rfl <;> exact ⟨rfl, Nat.zero_le _⟩
  · rfl

theorem headD_append_ne (l1 l2 : List Nat) (z : Nat) (h : l1 ≠ []) :
    (l1 ++ l2).headD z = l1.headD z := by
  cases l1 with
  | nil => exact absurd rfl h
  | cons a l => rfl

theorem prod_fast (s : ring_log) (pre post : List Nat) (acc : List Byte) (now_sec : Nat)
    (log_line : Nat → Byte) (len : Nat) (hi : ProdInv s pre post acc)
    (hb : s.backoff now_sec = false) (hfit : len ≤ (s.heap s._curr_buf).avail_len) :
    ProdInv (try_append s now_sec log_line len).1 pre post (acc ++ bytes_at log_line len) := by
  rw [try_append_fast s now_sec log_line len hb hi.free hfit]
  have hP : s._curr_buf < s._buff_cnt := (hi.mem _).1 (by simp)
  have hcapP := hi.cap _ hP
  have hu : (s.heap s._curr_buf)._used_len ≤ (s.heap s._curr_buf)._total_len := by omega
  have hB : (s.heap s._curr_buf)._total_len < U32 := by have := hi.small; omega
  have hnd := hi.nodup
  have hPpre : ∀ a ∈ pre, a ≠ s._curr_buf := by
    intro a ha h; subst h
    exact (List.nodup_append.mp hnd).2.2 ha (List.mem_cons_self _ _)
  have hPpost : ∀ a ∈ post, a ≠ s._curr_buf := by
    intro a ha h; subst h
    exact (List.nodup_cons.mp (List.nodup_append.mp hnd).2.1).1 ha
  refine ⟨hi.nodup, hi.mem, ?_, hi.head, ?_, ?_, ?_, ?_, hi.small, ?_⟩
  · refine linked_congr s.heap _ _ _ ?_ hi.linked
    intro a _
    by_cases ha : a = s._curr_buf
    · subst ha; simp [append_next]
    · simp [upd_other _ _ _ _ ha]
  · intro a ha
    simp only [upd_other _ _ _ _ (hPpre a ha)]
    exact hi.full a ha
  · simp only [upd_same, append_status]; exact hi.free
  · intro a ha
    simp only [upd_other _ _ _ _ (hPpost a ha)]
    exact hi.rest a ha
  · intro a ha
    by_cases h : a = s._curr_buf
    · subst h
      simp only [upd_same, append_total_len, append_used_len _ _ _ hu hB hfit]
      have := avail_len_of_le _ hu hB
      omega
    · simp only [upd_other _ _ _ _ h]
      exact hi.cap a ha
  · show cells_bytes (upd s.heap s._curr_buf fun c => c.append log_line len)
      (pre ++ [s._curr_buf]) = acc ++ bytes_at log_line len
    rw [cells_bytes_append, ← hi.data, cells_bytes_append, List.append_assoc]
    congr 1
    · apply cells_bytes_congr
      intro a ha
      rw [upd_other _ _ _ _ (hPpre a ha)]
    · simp [cells_bytes, append_contents _ _ _ hu hB hfit]

theorem prod_cur_lt {s : ring_log} {pre post : List Nat} {acc : List Byte}
    (hi : ProdInv s pre post acc) : s._curr_buf < s._buff_cnt :=
  (hi.mem _).1 (by simp)

theorem prod_not_pre {s : ring_log} {pre post : List Nat} {acc : List Byte}
    (hi : ProdInv s pre post acc) : ∀ a ∈ pre, a ≠ s._curr_buf := by
  intro a ha h; subst h
  exact (List.nodup_append.mp hi.nodup).2.2 ha (List.mem_cons_self _ _)

theorem prod_not_post {s : ring_log} {pre post : List Nat} {acc : List Byte}
    (hi : ProdInv s pre post acc) : ∀ a ∈ post, a ≠ s._curr_buf := by
  intro a ha h; subst h
  exact (List.nodup_cons.mp (List.nodup_append.mp hi.nodup).2.1).1 ha

theorem prod_pre_not_post {s : ring_log} {pre post : List Nat} {acc : List Byte}
    (hi : ProdInv s pre post acc) : ∀ a ∈ pre, a ∉ post := by
  intro a ha h
  exact (List.nodup_append.mp hi.nodup).2.2 ha (List.mem_cons_of_mem _ h)

theorem prod_next {s : ring_log} {pre post : List Nat} {acc : List Byte}
    (hi : ProdInv s pre post acc) :
    (s.heap s._curr_buf).next = post.headD s._prst_buf :=
  ((linked_append _ _ _ _).1 hi.linked).2.1

theorem prod_sealed_pos {s : ring_log} {pre post : List Nat} {acc : List Byte}
    (hi : ProdInv s pre post acc) (len : Nat) (hlen : len ≤ s._one_buff_len)
    (hfit : (s.heap s._curr_buf).avail_len < len) : 0 < (s.heap s._curr_buf)._used_len := by
  have hc := hi.cap _ (prod_cur_lt hi)
  have := avail_len_of_le (s.heap s._curr_buf) (by omega) (by have := hi.small; omega)
  omega

theorem prod_next_free (s : ring_log) (pre post : List Nat) (q : Nat) (acc : List Byte)
    (now_sec : Nat) (log_line : Nat → Byte) (len : Nat) (hi : ProdInv s pre (q :: post) acc)
    (hb : s.backoff now_sec = false) (hfit : (s.heap s._curr_buf).avail_len < len)
    (hlen : len ≤ s._one_buff_len) :
    ProdInv (try_append s now_sec log_line len).1 (pre ++ [s._curr_buf]) post
      (acc ++ bytes_at log_line len) := by
  have hnx : (s.heap s._curr_buf).next = q := prod_next hi
  have hqP : q ≠ s._curr_buf := prod_not_post hi q (List.mem_cons_self _ _)
  have hq := hi.rest q (List.mem_cons_self _ _)
  have hqn : q < s._buff_cnt := (hi.mem q).1 (by simp)
  have hcq := hi.cap q hqn
  have hq0 : (s.heap q)._used_len ≤ (s.heap q)._total_len := by omega
  have hqB : (s.heap q)._total_len < U32 := by have := hi.small; omega
  have hqa : len ≤ (s.heap q).avail_len := by rw [avail_len_of_le _ hq0 hqB]; omega
  have hpos := prod_sealed_pos hi len hlen hfit
  rw [try_append_next_free s now_sec log_line len hb hi.free hfit (by rw [hnx]; exact hqP)
    (by rw [hnx]; exact hq.1), hnx]
  dsimp only
  have hord : (pre ++ [s._curr_buf]) ++ q :: post = pre ++ s._curr_buf :: q :: post := by simp
  have hpreq : ∀ a ∈ pre, a ≠ q := by
    intro a ha h; subst h
    exact prod_pre_not_post hi a ha (List.mem_cons_self _ _)
  have hpostq : ∀ a ∈ post, a ≠ q := by
    intro a ha h; subst h
    have := (List.nodup_cons.mp (List.nodup_cons.mp (List.nodup_append.mp hi.nodup).2.1).2).1
    exact this ha
  refine ⟨?_, ?_, ?_, ?_, ?_, ?_, ?_, ?_, hi.small, ?_⟩
  all_goals (try dsimp only)
  · show ((pre ++ [s._curr_buf]) ++ q :: post).Nodup
    rw [hord]; exact hi.nodup
  · intro a
    show a ∈ (pre ++ [s._curr_buf]) ++ q :: post ↔ a < s._buff_cnt
    rw [hord]; exact hi.mem a
  · show Linked _ ((pre ++ [s._curr_buf]) ++ q :: post) s._prst_buf
    rw [hord]
    refine linked_congr s.heap _ _ _ ?_ hi.linked
    intro a _
    by_cases h1 : a = q
    · subst h1; simp [append_next, upd_other _ _ _ _ hqP]
    · by_cases h2 : a = s._curr_buf
      · subst h2; simp [upd_other _ _ _ _ h1]
      · simp [upd_other _ _ _ _ h1, upd_other _ _ _ _ h2]
  · show ((pre ++ [s._curr_buf]) ++ [q]).headD 0 = s._prst_buf
    rw [headD_append_ne _ _ _ (by simp)]; exact hi.head
  · intro a ha
    rcases List.mem_append.mp ha with h | h
    · simp only [upd_other _ _ _ _ (hpreq a h), upd_other _ _ _ _ (prod_not_pre hi a h)]
      exact hi.full a h
    · simp only [List.mem_singleton] at h
      subst h
      rw [upd_other _ _ _ _ (Ne.symm hqP), upd_same]
      exact ⟨rfl, hpos⟩
  · show (upd _ q _ q).status = FREE
    simp only [upd_same, upd_other _ _ _ _ hqP, append_status]; exact hq.1
  · intro a ha
    simp only [upd_other _ _ _ _ (hpostq a ha),
      upd_other _ _ _ _ (prod_not_post hi a (List.mem_cons_of_mem _ ha))]
    exact hi.rest a (List.mem_cons_of_mem _ ha)
  · intro a ha
    by_cases h1 : a = q
    · subst h1
      simp only [upd_same, upd_other _ _ _ _ hqP, append_total_len,
        append_used_len _ _ _ hq0 hqB hqa]
      refine ⟨hcq.1, ?_⟩
      show (s.heap a)._used_len + len ≤ s._one_buff_len
      omega
    · by_cases h2 : a = s._curr_buf
      · subst h2
        simp only [upd_other _ _ _ _ h1, upd_same]
        exact hi.cap _ ha
      · simp only [upd_other _ _ _ _ h1, upd_other _ _ _ _ h2]
        exact hi.cap _ ha
  · show cells_bytes _ ((pre ++ [s._curr_buf]) ++ [q]) = acc ++ bytes_at log_line len
    rw [cells_bytes_append, ← hi.data]
    congr 1
    · apply cells_bytes_congr
      intro a ha
      rcases List.mem_append.mp ha with h | h
      · rw [upd_other _ _ _ _ (hpreq a h), upd_other _ _ _ _ (prod_not_pre hi a h)]
      · simp only [List.mem_singleton] at h
        subst h
        rw [upd_other _ _ _ _ (Ne.symm hqP)]
        simp [cell_buffer.contents]
    · simp only [cells_bytes, List.map_cons, List.map_nil, List.flatten_cons, List.flatten_nil,
        List.append_nil, upd_same, upd_other _ _ _ _ hqP]
      rw [append_contents _ _ _ hq0 hqB hqa]
      simp [cell_buffer.contents, hq.2]

@[simp] theorem upd_seal_prev (h : Nat → cell_buffer) (x a : Nat) :
    (upd h x (fun c => { c with status := FULL }) a).prev = (h a).prev := by
  unfold upd; split <;> simp_all

@[simp] theorem upd_seal_next (h : Nat → cell_buffer) (x a : Nat) :
    (upd h x (fun c => { c with status := FULL }) a).next = (h a).next := by
  unfold upd; split <;> simp_all

@[simp] theorem upd_seal_total_len (h : Nat → cell_buffer) (x a : Nat) :
    (upd h x (fun c => { c with status := FULL }) a)._total_len = (h a)._total_len := by
  unfold upd; split <;> simp_all

@[simp] theorem upd_seal_used_len (h : Nat → cell_buffer) (x a : Nat) :
    (upd h x (fun c => { c with status := FULL }) a)._used_len = (h a)._used_len := by
  unfold upd; split <;> simp_all

@[simp] theorem upd_seal_data (h : Nat → cell_buffer) (x a : Nat) :
    (upd h x (fun c => { c with status := FULL }) a)._data = (h a)._data := by
  unfold upd; split <;> simp_all

@[simp] theorem upd_prev_status (h : Nat → cell_buffer) (x a : Nat) (v : Nat) :
    (upd h x (fun c => { c with prev := v }) a).status = (h a).status := by
  unfold upd; split <;> simp_all

@[simp] theorem upd_prev_next (h : Nat → cell_buffer) (x a : Nat) (v : Nat) :
    (upd h x (fun c => { c with prev := v }) a).next = (h a).next := by
  unfold upd; split <;> simp_all

@[simp] theorem upd_prev_total_len (h : Nat → cell_buffer) (x a : Nat) (v : Nat) :
    (upd h x (fun c => { c with prev := v }) a)._total_len = (h a)._total_len := by
  unfold upd; split <;> simp_all

@[simp] theorem upd_prev_used_len (h : Nat → cell_buffer) (x a : Nat) (v : Nat) :
    (upd h x (fun c => { c with prev := v }) a)._used_len = (h a)._used_len := by
  unfold upd; split <;> simp_all

@[simp] theorem upd_prev_data (h : Nat → cell_buffer) (x a : Nat) (v : Nat) :
    (upd h x (fun c => { c with prev := v }) a)._data = (h a)._data := by
  unfold upd; split <;> simp_all

@[simp] theorem upd_next_status (h : Nat → cell_buffer) (x a : Nat) (v : Nat) :
    (upd h x (fun c => { c with next := v }) a).status = (h a).status := by
  unfold upd; split <;> simp_all

@[simp] theorem upd_next_prev (h : Nat → cell_buffer) (x a : Nat) (v : Nat) :
    (upd h x (fun c => { c with next := v }) a).prev = (h a).prev := by
  unfold upd; split <;> simp_all

@[simp] theorem upd_next_total_len (h : Nat → cell_buffer) (x a : Nat) (v : Nat) :
    (upd h x (fun c => { c with next := v }) a)._total_len = (h a)._total_len := by
  unfold upd; split <;> simp_all

@[simp] theorem upd_next_used_len (h : Nat → cell_buffer) (x a : Nat) (v : Nat) :
    (upd h x (fun c => { c with next := v }) a)._used_len = (h a)._used_len := by
  unfold upd; split <;> simp_all

@[simp] theorem upd_next_data (h : Nat → cell_buffer) (x a : Nat) (v : Nat) :
    (upd h x (fun c => { c with next := v }) a)._data = (h a)._data := by
  unfold upd; split <;> simp_all

@[simp] theorem upd_append_status (h : Nat → cell_buffer) (x a : Nat) (p : Nat → Byte)
    (len : Nat) : (upd h x (fun c => c.append p len) a).status = (h a).status := by
  unfold upd; split
  · simp_all [append_status]
  · rfl

@[simp] theorem upd_append_prev (h : Nat → cell_buffer) (x a : Nat) (p : Nat → Byte)
    (len : Nat) : (upd h x (fun c => c.append p len) a).prev = (h a).prev := by
  unfold upd; split
  · simp_all [append_prev]
  · rfl

@[simp] theorem upd_append_next (h : Nat → cell_buffer) (x a : Nat) (p : Nat → Byte)
    (len : Nat) : (upd h x (fun c => c.append p len) a).next = (h a).next := by
  unfold upd; split
  · simp_all [append_next]
  · rfl

@[simp] theorem upd_append_total_len (h : Nat → cell_buffer) (x a : Nat) (p : Nat → Byte)
    (len : Nat) : (upd h x (fun c => c.append p len) a)._total_len = (h a)._total_len := by
  unfold upd; split
  · simp_all [append_total_len]
  · rfl

theorem contents_congr (c1 c2 : cell_buffer) (h1 : c1._used_len = c2._used_len)
    (h2 : c1._data = c2._data) : c1.contents = c2.contents := by
  simp [cell_buffer.contents, h1, h2]

theorem grow_fields (s : ring_log) (now_sec : Nat) (log_line : Nat → Byte) (len : Nat)
    (hb : s.backoff now_sec = false) (hfree : (s.heap s._curr_buf).status = FREE)
    (hfit : (s.heap s._curr_buf).avail_len < len)
    (hnext : (s.heap s._curr_buf).next = s._curr_buf
      ∨ (s.heap (s.heap s._curr_buf).next).status = FULL)
    (hover : s.over_limit = false)
    (hP : s._curr_buf < s._buff_cnt) (hN : (s.heap s._curr_buf).next < s._buff_cnt)
    (hlen : len ≤ s._one_buff_len) (hB : s._one_buff_len < U32) :
    (try_append s now_sec log_line len).1._buff_cnt = s._buff_cnt + 1
      ∧ (try_append s now_sec log_line len).1._curr_buf = s._buff_cnt
      ∧ (try_append s now_sec log_line len).1._prst_buf = s._prst_buf
      ∧ (try_append s now_sec log_line len).1._one_buff_len = s._one_buff_len
      ∧ (∀ a, a ≠ s._curr_buf → a ≠ s._buff_cnt →
          ((try_append s now_sec log_line len).1.heap a).status = (s.heap a).status
          ∧ ((try_append s now_sec log_line len).1.heap a).next = (s.heap a).next
          ∧ ((try_append s now_sec log_line len).1.heap a)._total_len = (s.heap a)._total_len
          ∧ ((try_append s now_sec log_line len).1.heap a)._used_len = (s.heap a)._used_len
          ∧ ((try_append s now_sec log_line len).1.heap a)._data = (s.heap a)._data)
      ∧ (((try_append s now_sec log_line len).1.heap s._curr_buf).status = FULL
          ∧ ((try_append s now_sec log_line len).1.heap s._curr_buf).next = s._buff_cnt
          ∧ ((try_append s now_sec log_line len).1.heap s._curr_buf)._total_len
              = (s.heap s._curr_buf)._total_len
          ∧ ((try_append s now_sec log_line len).1.heap s._curr_buf)._used_len
              = (s.heap s._curr_buf)._used_len
          ∧ ((try_append s now_sec log_line len).1.heap s._curr_buf)._data
              = (s.heap s._curr_buf)._data)
      ∧ (((try_append s now_sec log_line len).1.heap s._buff_cnt).status = FREE
          ∧ ((try_append s now_sec log_line len).1.heap s._buff_cnt).next
              = (s.heap s._curr_buf).next
          ∧ ((try_append s now_sec log_line len).1.heap s._buff_cnt)._total_len
              = s._one_buff_len
          ∧ ((try_append s now_sec log_line len).1.heap s._buff_cnt)._used_len = len
          ∧ ((try_append s now_sec log_line len).1.heap s._buff_cnt).contents
              = bytes_at log_line len) := by
  have hPn : s._curr_buf ≠ s._buff_cnt := by omega
  have hNn : (s.heap s._curr_buf).next ≠ s._buff_cnt := by omega
  have happ : ∀ q r : Nat,
      ((cell_buffer.mk FREE q r s._one_buff_len 0 (fun _ => 0)).append log_line len).contents
          = bytes_at log_line len
        ∧ ((cell_buffer.mk FREE q r s._one_buff_len 0 (fun _ => 0)).append log_line len)._used_len
          = len := by
    intro q r
    have h0 : (cell_buffer.mk FREE q r s._one_buff_len 0 (fun _ => 0))._used_len
        ≤ (cell_buffer.mk FREE q r s._one_buff_len 0 (fun _ => 0))._total_len := Nat.zero_le _
    have ha : len ≤ (cell_buffer.mk FREE q r s._one_buff_len 0 (fun _ => 0)).avail_len := by
      rw [avail_len_of_le _ h0 hB]; exact hlen
    constructor
    · rw [append_contents _ _ _ h0 hB ha]; simp [cell_buffer.contents]
    · rw [append_used_len _ _ _ h0 hB ha]; simp
  rw [try_append_grow s now_sec log_line len hb hfree hfit hnext hover]
  refine ⟨rfl, rfl, rfl, rfl, ?_, ?_, ?_⟩
  · intro a h1 h2
    simp [upd_other _ _ _ _ h1, upd_other _ _ _ _ h2, alloc_other _ _ _ _ h2]
  · simp [upd_other _ _ _ _ hPn, alloc_other _ _ _ _ hPn]
  · refine ⟨?_, ?_, ?_, ?_, ?_⟩
    · simp [cell_buffer.mk_len, append_status]
    · simp [cell_buffer.mk_len, append_next]
    · simp [cell_buffer.mk_len, append_total_len]
    · simp only [upd_same, upd_other _ _ _ _ hNn.symm, upd_other _ _ _ _ hPn.symm, alloc_same,
        cell_buffer.mk_len]
      exact (happ _ _).2
    · simp only [upd_same, upd_other _ _ _ _ hNn.symm, upd_other _ _ _ _ hPn.symm, alloc_same,
        cell_buffer.mk_len]
      exact (happ _ _).1

theorem prod_next_alt {s : ring_log} {pre : List Nat} {acc : List Byte}
    (hi : ProdInv s pre [] acc) :
    (s.heap s._curr_buf).next = s._curr_buf
      ∨ (s.heap (s.heap s._curr_buf).next).status = FULL := by
  have hnx : (s.heap s._curr_buf).next = s._prst_buf := prod_next hi
  have hh := hi.head
  cases pre with
  | nil => left; rw [hnx]; exact hh.symm
  | cons a l =>
    right
    have : a = s._prst_buf := hh
    rw [hnx, ← this]
    exact (hi.full a (List.mem_cons_self _ _)).1

theorem prod_grow (s : ring_log) (pre : List Nat) (acc : List Byte)
    (now_sec : Nat) (log_line : Nat → Byte) (len : Nat) (hi : ProdInv s pre [] acc)
    (hb : s.backoff now_sec = false) (hfit : (s.heap s._curr_buf).avail_len < len)
    (hlen : len ≤ s._one_buff_len) (hov : s.over_limit = false) :
    ProdInv (try_append s now_sec log_line len).1 (pre ++ [s._curr_buf]) []
      (acc ++ bytes_at log_line len) := by
  have hP := prod_cur_lt hi
  have hnx : (s.heap s._curr_buf).next = s._prst_buf := prod_next hi
  have hCmem : s._prst_buf ∈ pre ++ [s._curr_buf] := by
    rw [← hi.head]
    cases pre with
    | nil => simp
    | cons a l => simp
  have hN : (s.heap s._curr_buf).next < s._buff_cnt := by
    rw [hnx]; exact (hi.mem _).1 hCmem
  have hpos := prod_sealed_pos hi len hlen hfit
  obtain ⟨hn, hcur, hC, hBB, hoth, hPf, hnf⟩ :=
    grow_fields s now_sec log_line len hb hi.free hfit (prod_next_alt hi) hov hP hN hlen hi.small
  have hlt : ∀ a ∈ pre ++ [s._curr_buf], a < s._buff_cnt := fun a ha => (hi.mem a).1 ha
  have hpre : ∀ a ∈ pre, a ≠ s._curr_buf ∧ a ≠ s._buff_cnt := by
    intro a ha
    have := hlt a (List.mem_append_left _ ha)
    exact ⟨prod_not_pre hi a ha, by omega⟩
  have hkeep : ∀ a, a < s._buff_cnt →
      ((try_append s now_sec log_line len).1.heap a)._total_len = (s.heap a)._total_len
      ∧ ((try_append s now_sec log_line len).1.heap a)._used_len = (s.heap a)._used_len
      ∧ ((try_append s now_sec log_line len).1.heap a)._data = (s.heap a)._data := by
    intro a ha
    by_cases h1 : a = s._curr_buf
    · subst h1; exact ⟨hPf.2.2.1, hPf.2.2.2.1, hPf.2.2.2.2⟩
    · have := hoth a h1 (by omega)
      exact ⟨this.2.2.1, this.2.2.2.1, this.2.2.2.2⟩
  refine ⟨?_, ?_, ?_, ?_, ?_, ?_, ?_, ?_, ?_, ?_⟩
  · rw [hcur, List.nodup_append]
    refine ⟨hi.nodup, List.nodup_singleton _, ?_⟩
    intro a ha hb2
    have := hlt a ha
    simp only [List.mem_singleton] at hb2
    omega
  · intro a
    rw [hcur, hn, List.mem_append, List.mem_singleton]
    have := hi.mem a
    constructor
    · rintro (h | h)
      · have := this.1 h; omega
      · omega
    · intro h
      by_cases h2 : a = s._buff_cnt
      · right; exact h2
      · left; exact this.2 (by omega)
  · rw [hcur, hC, linked_append]
    refine ⟨?_, ?_, trivial⟩
    · have h0 := (linked_append _ _ _ _).1 hi.linked
      rw [linked_append]
      refine ⟨linked_congr s.heap _ _ _ ?_ h0.1, ?_, trivial⟩
      · intro a ha
        exact (hoth a (hpre a ha).1 (hpre a ha).2).2.1
      · exact hPf.2.1
    · show ((try_append s now_sec log_line len).1.heap s._buff_cnt).next = s._prst_buf
      rw [hnf.2.1, hnx]
  · rw [hcur, hC, headD_append_ne _ _ _ (by simp)]; exact hi.head
  · intro a ha
    rcases List.mem_append.mp ha with h | h
    · have := hoth a (hpre a h).1 (hpre a h).2
      rw [this.1, this.2.2.2.1]; exact hi.full a h
    · simp only [List.mem_singleton] at h
      subst h
      rw [hPf.1, hPf.2.2.2.1]; exact ⟨rfl, hpos⟩
  · rw [hcur]; exact hnf.1
  · intro a ha; cases ha
  · intro a ha
    rw [hn] at ha
    rw [hBB]
    by_cases h2 : a = s._buff_cnt
    · subst h2
      rw [hnf.2.2.1, hnf.2.2.2.1]; exact ⟨rfl, hlen⟩
    · have h3 : a < s._buff_cnt := by omega
      have := hkeep a h3
      rw [this.1, this.2.1]; exact hi.cap a h3
  · rw [hBB]; exact hi.small
  · rw [hcur, cells_bytes_append, ← hi.data]
    congr 1
    · apply cells_bytes_congr
      intro a ha
      have := hkeep a (hlt a ha)
      exact contents_congr _ _ this.2.1 this.2.2
    · simp only [cells_bytes, List.map_cons, List.map_nil, List.flatten_cons, List.flatten_nil,
        List.append_nil]
      exact hnf.2.2.2.2

theorem head?_of_headD (l1 : List Nat) (P C : Nat) (h : (l1 ++ [P]).headD 0 = C) :
    (l1 ++ [P]).head? = some C := by
  cases l1 with
  | nil => simpa using h
  | cons a l => simpa using h

theorem prod_drop (s : ring_log) (pre : List Nat) (acc : List Byte)
    (now_sec : Nat) (log_line : Nat → Byte) (len : Nat) (hi : ProdInv s pre [] acc)
    (hb : s.backoff now_sec = false) (hfit : (s.heap s._curr_buf).avail_len < len)
    (hlen : len ≤ s._one_buff_len) (hov : s.over_limit = true) (hnow : now_sec ≠ 0) :
    OverInv (try_append s now_sec log_line len).1 (pre ++ [s._curr_buf]) acc := by
  have hnx : (s.heap s._curr_buf).next = s._prst_buf := prod_next hi
  have hpos := prod_sealed_pos hi len hlen hfit
  rw [try_append_drop s now_sec log_line len hb hi.free hfit (prod_next_alt hi) hov hnow]
  refine ⟨hi.nodup, hi.mem, ?_, head?_of_headD _ _ _ hi.head, hnx, ?_, ?_⟩
  all_goals (try dsimp only)
  · refine linked_congr s.heap _ _ _ ?_ hi.linked
    intro a _; simp
  · intro a ha
    rcases List.mem_append.mp ha with h | h
    · rw [upd_other _ _ _ _ (prod_not_pre hi a h)]; exact hi.full a h
    · simp only [List.mem_singleton] at h
      subst h
      rw [upd_same]; exact ⟨rfl, hpos⟩
  · rw [← hi.data]
    apply cells_bytes_congr
    intro a _
    exact contents_congr _ _ (by simp) (by simp)

theorem over_step (s : ring_log) (ord : List Nat) (acc : List Byte)
    (now_sec : Nat) (log_line : Nat → Byte) (len : Nat) (hi : OverInv s ord acc) :
    OverInv (try_append s now_sec log_line len).1 ord acc := by
  cases hb : s.backoff now_sec
  · have hC : s._prst_buf ∈ ord := List.mem_of_mem_head? hi.head
    have hfull : (s.heap s._curr_buf).status = FULL := by rw [hi.cur]; exact (hi.full _ hC).1
    rw [try_append_full s now_sec log_line len hb hfull]
    exact ⟨hi.nodup, hi.mem, hi.linked, hi.head, hi.cur, hi.full, hi.data⟩
  · rw [try_append_gate s now_sec log_line len hb]; exact hi

theorem prod_step (s : ring_log) (pre post : List Nat) (acc : List Byte)
    (now_sec : Nat) (log_line : Nat → Byte) (len : Nat) (hi : ProdInv s pre post acc)
    (hlen : len ≤ s._one_buff_len) (hnow : now_sec ≠ 0) :
    RingInv (try_append s now_sec log_line len).1 (acc ++ bytes_at log_line len)
      ∨ RingInv (try_append s now_sec log_line len).1 acc := by
  cases hb : s.backoff now_sec
  · by_cases hfit : len ≤ (s.heap s._curr_buf).avail_len
    · exact Or.inl (Or.inl ⟨_, _, prod_fast s pre post acc now_sec log_line len hi hb hfit⟩)
    · have hfit2 : (s.heap s._curr_buf).avail_len < len := by omega
      cases post with
      | cons q post =>
        exact Or.inl (Or.inl ⟨_, _,
          prod_next_free s pre post q acc now_sec log_line len hi hb hfit2 hlen⟩)
      | nil =>
        cases hov : s.over_limit
        · exact Or.inl (Or.inl ⟨_, _,
            prod_grow s pre acc now_sec log_line len hi hb hfit2 hlen hov⟩)
        · exact Or.inr (Or.inr ⟨_,
            prod_drop s pre acc now_sec log_line len hi hb hfit2 hlen hov hnow⟩)
  · rw [try_append_gate s now_sec log_line len hb]
    exact Or.inr (Or.inl ⟨_, _, hi⟩)

theorem try_append_one_buff_len (s : ring_log) (now_sec : Nat) (log_line : Nat → Byte)
    (len : Nat) : (try_append s now_sec log_line len).1._one_buff_len = s._one_buff_len := by
  unfold try_append
  dsimp only
  split_ifs <;> rfl

theorem ring_step (s : ring_log) (acc : List Byte)
    (now_sec : Nat) (log_line : Nat → Byte) (len : Nat) (hi : RingInv s acc)
    (hlen : len ≤ s._one_buff_len) (hnow : now_sec ≠ 0) :
    RingInv (try_append s now_sec log_line len).1 (acc ++ bytes_at log_line len)
      ∨ RingInv (try_append s now_sec log_line len).1 acc := by
  rcases hi with ⟨pre, post, hi⟩ | ⟨ord, hi⟩
  · exact prod_step s pre post acc now_sec log_line len hi hlen hnow
  · exact Or.inr (Or.inr ⟨ord, over_step s ord acc now_sec log_line len hi⟩)

theorem ring_held (s : ring_log) (acc : List Byte) (hi : RingInv s acc) :
    s.held = acc.length := by
  rcases hi with ⟨pre, post, hi⟩ | ⟨ord, hi⟩
  · rw [held_eq_of_perm s _ hi.nodup hi.mem]
    have : pre ++ s._curr_buf :: post = (pre ++ [s._curr_buf]) ++ post := by simp
    rw [this, cells_bytes_append, hi.data,
      cells_bytes_empty _ post (fun a ha => (hi.rest a ha).2)]
    simp
  · rw [held_eq_of_perm s _ hi.nodup hi.mem, hi.data]

theorem bytes_at_length (p : Nat → Byte) (len : Nat) : (bytes_at p len).length = len := by
  simp [bytes_at]

theorem produce_inv (calls : List (Nat × (Nat → Byte) × Nat)) :
    ∀ (s : ring_log) (acc : List Byte), RingInv s acc →
      (∀ call ∈ calls, call.2.2 ≤ s._one_buff_len ∧ call.1 ≠ 0) →
      RingInv (produce s calls) (acc ++ call_bytes (accepted s calls)) := by
  induction calls with
  | nil => intro s acc hi _; simpa [produce, accepted, call_bytes] using hi
  | cons call rest ih =>
    intro s acc hi hc
    have h1 := hc call (List.mem_cons_self _ _)
    have hB := try_append_one_buff_len s call.1 call.2.1 call.2.2
    have hrest : ∀ c ∈ rest,
        c.2.2 ≤ (try_append s call.1 call.2.1 call.2.2).1._one_buff_len ∧ c.1 ≠ 0 := by
      intro c hcm; rw [hB]; exact hc c (List.mem_cons_of_mem _ hcm)
    have hheld := ring_held s acc hi
    rcases ring_step s acc call.1 call.2.1 call.2.2 hi h1.1 h1.2 with h | h
    · have hheld2 := ring_held _ _ h
      rw [List.length_append, bytes_at_length] at hheld2
      by_cases hz : call.2.2 = 0
      · have hne : ¬ (try_append s call.1 call.2.1 call.2.2).1.held ≠ s.held := by
          rw [hheld, hheld2, hz]; simp
        have hnil : bytes_at call.2.1 call.2.2 = [] := by simp [bytes_at, hz]
        rw [hnil, List.append_nil] at h
        have := ih _ acc h hrest
        simpa [produce, accepted, hne] using this
      · have hne : (try_append s call.1 call.2.1 call.2.2).1.held ≠ s.held := by
          rw [hheld, hheld2]; omega
        have := ih _ _ h hrest
        simpa [produce, accepted, hne, call_bytes, List.append_assoc] using this
    · have hheld2 := ring_held _ _ h
      have hne : ¬ (try_append s call.1 call.2.1 call.2.2).1.held ≠ s.held := by
        rw [hheld, hheld2]; simp
      have := ih _ acc h hrest
      simpa [produce, accepted, hne] using this

@[simp] theorem upd_clear_next (h : Nat → cell_buffer) (x a : Nat) :
    (upd h x (fun c => c.clear) a).next = (h a).next := by
  unfold upd; split <;> simp_all [cell_buffer.clear]

theorem headD_append_singleton (l : List Nat) (P : Nat) :
    (l ++ [P]).headD 0 = l.headD P := by
  cases l <;> rfl

theorem persist_body_empty (s : ring_log) (h : (s.heap s._prst_buf)._used_len = 0) :
    s.persist_body true = some (s, []) := by
  simp [persist_body, persist_select, cell_buffer.empty, h]

theorem persist_body_full (s : ring_log) (h : 0 < (s.heap s._prst_buf)._used_len)
    (hf : (s.heap s._prst_buf).status = FULL) :
    s.persist_body true
      = some ({ s with heap := upd s.heap s._prst_buf (fun c => c.clear)
                       _prst_buf := (s.heap s._prst_buf).next },
              (s.heap s._prst_buf).contents) := by
  have h0 : (s.heap s._prst_buf)._used_len ≠ 0 := by omega
  simp [persist_body, persist_select, persist_release, cell_buffer.empty, h0, hf,
    cell_buffer.clear]

theorem persist_body_promote (s : ring_log) (h : 0 < (s.heap s._prst_buf)._used_len)
    (hf : (s.heap s._prst_buf).status = FREE) (hc : s._curr_buf = s._prst_buf) :
    s.persist_body true
      = some ({ s with heap := upd (upd s.heap s._prst_buf (fun c => { c with status := FULL }))
                         s._prst_buf (fun c => c.clear)
                       _curr_buf := (s.heap s._prst_buf).next
                       _prst_buf := (s.heap s._prst_buf).next },
              (s.heap s._prst_buf).contents) := by
  have h0 : (s.heap s._prst_buf)._used_len ≠ 0 := by omega
  simp [persist_body, persist_select, persist_release, cell_buffer.empty, h0, hf, hc,
    cell_buffer.clear, cell_buffer.contents]

theorem drain_succ (k : Nat) (s s1 : ring_log) (out1 : List Byte)
    (h : s.persist_body true = some (s1, out1)) :
    drain (k + 1) s = (drain k s1).map fun r => (r.1, out1 ++ r.2) := by
  simp only [drain, h]
  cases drain k s1 <;> rfl

theorem drain_fulls (fulls : List Nat) :
    ∀ s : ring_log, DrainInv s fulls →
      ∃ s2, drain (fulls.length + 1) s
          = some (s2, cells_bytes s.heap (fulls ++ [s._curr_buf]))
        ∧ s2.no_data := by
  induction fulls with
  | nil =>
    intro s hi
    have hC : s._curr_buf = s._prst_buf := hi.head
    have hPn : s._curr_buf < s._buff_cnt := hi.inb _ (by simp)
    rcases Nat.eq_zero_or_pos (s.heap s._prst_buf)._used_len with h0 | h0
    · refine ⟨s, ?_, ?_⟩
      · show drain (0 + 1) s = _
        rw [drain_succ 0 s s [] (persist_body_empty s h0)]
        simp [drain, cells_bytes, cell_buffer.contents, hC, h0]
      · intro a ha
        by_cases h1 : a = s._curr_buf
        · subst h1; simp [cell_buffer.empty, hC, h0]
        · simp [cell_buffer.empty, hi.others a ha (by simpa using h1)]
    · have hf : (s.heap s._prst_buf).status = FREE := by rw [← hC]; exact hi.free
      refine ⟨{ s with heap := upd (upd s.heap s._prst_buf (fun c => { c with status := FULL }))
                         s._prst_buf (fun c => c.clear)
                       _curr_buf := (s.heap s._prst_buf).next
                       _prst_buf := (s.heap s._prst_buf).next }, ?_, ?_⟩
      · show drain (0 + 1) s = _
        rw [drain_succ 0 s _ _ (persist_body_promote s h0 hf hC)]
        simp [drain, cells_bytes, hC]
      · intro a ha
        have ha2 : a < s._buff_cnt := ha
        show (upd (upd s.heap s._prst_buf _) s._prst_buf _ a).empty = true
        by_cases h1 : a = s._prst_buf
        · subst h1; simp [cell_buffer.empty, cell_buffer.clear]
        · rw [upd_other _ _ _ _ h1, upd_other _ _ _ _ h1]
          simp [cell_buffer.empty, hi.others a ha2 (by simpa [hC] using h1)]
  | cons a f ih =>
    intro s hi
    have hC : a = s._prst_buf := hi.head
    have hfa := hi.full a (List.mem_cons_self _ _)
    have hnd : (a :: (f ++ [s._curr_buf])).Nodup := hi.nodup
    have hna : ∀ b ∈ f ++ [s._curr_buf], b ≠ a := by
      intro b hb h; subst h
      exact (List.nodup_cons.mp hnd).1 hb
    have hstep := persist_body_full s (by rw [← hC]; exact hfa.2) (by rw [← hC]; exact hfa.1)
    rw [← hC] at hstep
    have hi1 : DrainInv { s with heap := upd s.heap a (fun c => c.clear)
                                 _prst_buf := (s.heap a).next } f := by
      refine ⟨(List.nodup_cons.mp hnd).2, ?_, ?_, ?_, ?_, ?_, ?_, ?_⟩
      all_goals (try dsimp only)
      · exact linked_congr s.heap _ _ _ (fun b _ => by simp) hi.linked.2
      · rw [headD_append_singleton]; exact hi.linked.1.symm
      · intro b hb
        rw [upd_other _ _ _ _ (hna b (List.mem_append_left _ hb))]
        exact hi.full b (List.mem_cons_of_mem _ hb)
      · rw [upd_other _ _ _ _ (hna _ (by simp))]; exact hi.free
      · intro b hb hnb
        by_cases h1 : b = a
        · subst h1; simp [cell_buffer.clear]
        · rw [upd_other _ _ _ _ h1]
          refine hi.others b hb ?_
          intro hm
          rcases List.mem_cons.mp hm with h2 | h2
          · exact h1 h2
          · exact hnb h2
      · intro b hb; rw [upd_clear_next]; exact hi.nexts b hb
      · intro b hb; exact hi.inb b (List.mem_cons_of_mem _ hb)
    obtain ⟨s2, hd, hnd2⟩ := ih _ hi1
    have key : (s.heap a).contents
        ++ cells_bytes (upd s.heap a fun c => c.clear) (f ++ [s._curr_buf])
        = cells_bytes s.heap (a :: f ++ [s._curr_buf]) := by
      have e : cells_bytes (upd s.heap a fun c => c.clear) (f ++ [s._curr_buf])
          = cells_bytes s.heap (f ++ [s._curr_buf]) := by
        apply cells_bytes_congr
        intro b hb
        rw [upd_other _ _ _ _ (hna b hb)]
      rw [e]
      rfl
    refine ⟨s2, ?_, hnd2⟩
    rw [List.length_cons, drain_succ _ s _ _ hstep, hd]
    simp only [Option.map_some']
    rw [← key]

theorem linked_next_mem (h : Nat → cell_buffer) (l : List Nat) (z : Nat) (hl : Linked h l z) :
    ∀ a ∈ l, (h a).next ∈ l ∨ (h a).next = z := by
  induction l with
  | nil => intro a ha; cases ha
  | cons b l ih =>
    intro a ha
    rcases List.mem_cons.mp ha with h1 | h1
    · subst h1
      have := hl.1
      cases l with
      | nil => right; exact this
      | cons c l => left; rw [this]; simp
    · rcases ih hl.2 a h1 with h2 | h2
      · left; exact List.mem_cons_of_mem _ h2
      · right; exact h2

theorem prod_closed {s : ring_log} {pre post : List Nat} {acc : List Byte}
    (hi : ProdInv s pre post acc) :
    (∀ a, a < s._buff_cnt → (s.heap a).next < s._buff_cnt) ∧ s._prst_buf < s._buff_cnt := by
  have hC : s._prst_buf ∈ pre ++ s._curr_buf :: post := by
    rw [← hi.head]
    cases pre with
    | nil => simp
    | cons a l => simp
  refine ⟨?_, (hi.mem _).1 hC⟩
  intro a ha
  rcases linked_next_mem _ _ _ hi.linked a ((hi.mem a).2 ha) with h | h
  · exact (hi.mem _).1 h
  · rw [h]; exact (hi.mem _).1 hC

theorem over_closed {s : ring_log} {ord : List Nat} {acc : List Byte}
    (hi : OverInv s ord acc) :
    (∀ a, a < s._buff_cnt → (s.heap a).next < s._buff_cnt) ∧ s._prst_buf < s._buff_cnt := by
  have hC : s._prst_buf ∈ ord := List.mem_of_mem_head? hi.head
  refine ⟨?_, (hi.mem _).1 hC⟩
  intro a ha
  rcases linked_next_mem _ _ _ hi.linked a ((hi.mem a).2 ha) with h | h
  · exact (hi.mem _).1 h
  · rw [h]; exact (hi.mem _).1 hC

theorem prod_to_drain {s : ring_log} {pre post : List Nat} {acc : List Byte}
    (hi : ProdInv s pre post acc) : DrainInv s pre := by
  have hsplit : pre ++ s._curr_buf :: post = (pre ++ [s._curr_buf]) ++ post := by simp
  refine ⟨?_, ?_, hi.head, hi.full, hi.free, ?_, (prod_closed hi).1, ?_⟩
  · have := hi.nodup
    rw [hsplit] at this
    exact (List.nodup_append.mp this).1
  · exact ((linked_append _ _ _ _).1 hi.linked).1
  · intro a ha hna
    have hm := (hi.mem a).2 ha
    rw [hsplit] at hm
    rcases List.mem_append.mp hm with h | h
    · exact absurd h hna
    · exact (hi.rest a h).2
  · intro a ha
    refine (hi.mem a).1 ?_
    rw [hsplit]; exact List.mem_append_left _ ha

theorem prod_drain {s : ring_log} {pre post : List Nat} {acc : List Byte}
    (hi : ProdInv s pre post acc) :
    ∃ s2, drain (pre.length + 1) s = some (s2, acc) ∧ s2.no_data := by
  obtain ⟨s2, h1, h2⟩ := drain_fulls pre s (prod_to_drain hi)
  exact ⟨s2, by rw [h1, hi.data], h2⟩

theorem over_drain {s : ring_log} {ord : List Nat} {acc : List Byte}
    (hi : OverInv s ord acc) :
    ∃ s2, drain (ord.length + 1) s = some (s2, acc) ∧ s2.no_data := by
  cases ord with
  | nil => have := hi.head; simp at this
  | cons a rest =>
    have hC : a = s._prst_buf := by have := hi.head; simpa using this
    have hcur : s._curr_buf = a := by rw [hi.cur, hC]
    have hfa := hi.full a (List.mem_cons_self _ _)
    have hna : ∀ b ∈ rest, b ≠ a := by
      intro b hb h; subst h
      exact (List.nodup_cons.mp hi.nodup).1 hb
    have hstep := persist_body_full s (by rw [← hC]; exact hfa.2) (by rw [← hC]; exact hfa.1)
    rw [← hC] at hstep
    have hi1 : DrainInv { s with heap := upd s.heap a (fun c => c.clear)
                                 _prst_buf := (s.heap a).next } rest := by
      refine ⟨?_, ?_, ?_, ?_, ?_, ?_, ?_, ?_⟩
      all_goals (try dsimp only)
      · rw [hcur, List.nodup_append]
        refine ⟨(List.nodup_cons.mp hi.nodup).2, List.nodup_singleton _, ?_⟩
        intro b hb hb2
        simp only [List.mem_singleton] at hb2
        exact hna b hb hb2
      · rw [hcur]
        refine linked_congr s.heap _ _ _ (fun b _ => by simp) ?_
        have := hi.linked.2
        rw [← hC] at this
        exact this
      · rw [hcur, headD_append_singleton]
        have := hi.linked.1
        rw [← hC] at this
        exact this.symm
      · intro b hb
        rw [upd_other _ _ _ _ (hna b hb)]
        exact hi.full b (List.mem_cons_of_mem _ hb)
      · rw [hcur, upd_same]; rfl
      · intro b hb hnb
        exfalso
        apply hnb
        rw [hcur]
        rcases List.mem_cons.mp ((hi.mem b).2 hb) with h | h
        · subst h; simp
        · exact List.mem_append_left _ h
      · intro b hb; rw [upd_clear_next]; exact (over_closed hi).1 b hb
      · intro b hb
        refine (hi.mem b).1 ?_
        rw [hcur] at hb
        rcases List.mem_append.mp hb with h | h
        · exact List.mem_cons_of_mem _ h
        · simp only [List.mem_singleton] at h
          subst h; exact List.mem_cons_self _ _
    obtain ⟨s2, hd, hnd2⟩ := drain_fulls rest _ hi1
    refine ⟨s2, ?_, hnd2⟩
    have key : (s.heap a).contents
        ++ cells_bytes (upd s.heap a fun c => c.clear) (rest ++ [s._curr_buf]) = acc := by
      rw [← hi.data, cells_bytes_append, hcur]
      have e1 : cells_bytes (upd s.heap a fun c => c.clear) rest = cells_bytes s.heap rest := by
        apply cells_bytes_congr
        intro b hb
        rw [upd_other _ _ _ _ (hna b hb)]
      have e2 : cells_bytes (upd s.heap a fun c => c.clear) [a] = [] := by
        apply cells_bytes_empty
        intro b hb
        simp only [List.mem_singleton] at hb
        subst hb; simp [cell_buffer.clear]
      rw [e1, e2, List.append_nil]
      rfl
    rw [List.length_cons, drain_succ _ s _ _ hstep, hd]
    simp only [Option.map_some']
    rw [← key]

theorem ring_drain (s : ring_log) (acc : List Byte) (hi : RingInv s acc) :
    ∃ k s2, drain k s = some (s2, acc) ∧ s2.no_data := by
  rcases hi with ⟨pre, post, hi⟩ | ⟨ord, hi⟩
  · exact ⟨_, prod_drain hi⟩
  · exact ⟨_, over_drain hi⟩

theorem ring_closed (s : ring_log) (acc : List Byte) (hi : RingInv s acc) :
    (∀ a, a < s._buff_cnt → (s.heap a).next < s._buff_cnt) ∧ s._prst_buf < s._buff_cnt := by
  rcases hi with ⟨pre, post, hi⟩ | ⟨ord, hi⟩
  · exact prod_closed hi
  · exact over_closed hi

theorem persist_body_closed (s s1 : ring_log) (out : List Byte)
    (hn : ∀ a, a < s._buff_cnt → (s.heap a).next < s._buff_cnt)
    (hC : s._prst_buf < s._buff_cnt) (h : s.persist_body true = some (s1, out)) :
    (∀ a, a < s1._buff_cnt → (s1.heap a).next < s1._buff_cnt)
      ∧ s1._prst_buf < s1._buff_cnt := by
  rcases Nat.eq_zero_or_pos (s.heap s._prst_buf)._used_len with h0 | h0
  · rw [persist_body_empty s h0] at h
    simp only [Option.some.injEq, Prod.mk.injEq] at h
    rw [← h.1]; exact ⟨hn, hC⟩
  · cases hf : (s.heap s._prst_buf).status
    · by_cases hc : s._curr_buf = s._prst_buf
      · rw [persist_body_promote s h0 hf hc] at h
        simp only [Option.some.injEq, Prod.mk.injEq] at h
        rw [← h.1]
        refine ⟨?_, hn _ hC⟩
        intro a ha
        show (upd (upd s.heap s._prst_buf _) s._prst_buf _ a).next < s._buff_cnt
        rw [upd_clear_next, upd_seal_next]
        exact hn a ha
      · have h1 : (s.heap s._prst_buf)._used_len ≠ 0 := by omega
        simp [persist_body, persist_select, cell_buffer.empty, h1, hf, hc] at h
    · rw [persist_body_full s h0 hf] at h
      simp only [Option.some.injEq, Prod.mk.injEq] at h
      rw [← h.1]
      refine ⟨?_, hn _ hC⟩
      intro a ha
      show (upd s.heap s._prst_buf _ a).next < s._buff_cnt
      rw [upd_clear_next]
      exact hn a ha

theorem drain_closed (k : Nat) :
    ∀ (s s1 : ring_log) (out : List Byte),
      (∀ a, a < s._buff_cnt → (s.heap a).next < s._buff_cnt) →
      s._prst_buf < s._buff_cnt → drain k s = some (s1, out) →
      s1._prst_buf < s1._buff_cnt := by
  induction k with
  | zero =>
    intro s s1 out _ hC h
    simp only [drain, Option.some.injEq, Prod.mk.injEq] at h
    rw [← h.1]; exact hC
  | succ k ih =>
    intro s s1 out hn hC h
    cases hb : s.persist_body true with
    | none => simp [drain, hb] at h
    | some r =>
      obtain ⟨sa, oa⟩ := r
      rw [drain_succ k s sa oa hb] at h
      cases hd : drain k sa with
      | none => simp [hd] at h
      | some r2 =>
        obtain ⟨sb, ob⟩ := r2
        rw [hd] at h
        simp only [Option.map_some', Option.some.injEq, Prod.mk.injEq] at h
        have hcl := persist_body_closed s sa oa hn hC hb
        rw [← h.1]
        exact ih sa sb ob hcl.1 hcl.2 hd

theorem drain_quiet (s : ring_log) (hq : s.no_data) (hC : s._prst_buf < s._buff_cnt) :
    ∀ m, drain m s = some (s, []) := by
  have h0 : (s.heap s._prst_buf)._used_len = 0 := by
    have := hq _ hC
    simpa [cell_buffer.empty] using this
  intro m
  induction m with
  | zero => rfl
  | succ m ih => rw [drain_succ m s s [] (persist_body_empty s h0), ih]; rfl

theorem drain_add (k : Nat) :
    ∀ (m : Nat) (s s1 : ring_log) (out1 : List Byte), drain k s = some (s1, out1) →
      drain (k + m) s = (drain m s1).map fun r => (r.1, out1 ++ r.2) := by
  induction k with
  | zero =>
    intro m s s1 out1 h
    simp only [drain, Option.some.injEq, Prod.mk.injEq] at h
    rw [← h.1, ← h.2, Nat.zero_add]
    cases drain m s <;> simp
  | succ k ih =>
    intro m s s1 out1 h
    cases hb : s.persist_body true with
    | none => simp [drain, hb] at h
    | some r =>
      obtain ⟨sa, oa⟩ := r
      rw [drain_succ k s sa oa hb] at h
      cases hd : drain k sa with
      | none => simp [hd] at h
      | some r2 =>
        obtain ⟨sb, ob⟩ := r2
        rw [hd] at h
        simp only [Option.map_some', Option.some.injEq, Prod.mk.injEq] at h
        rw [show k + 1 + m = (k + m) + 1 by omega, drain_succ (k + m) s sa oa hb,
          ih m sa sb ob hd, ← h.1, ← h.2]
        cases drain m sb <;> simp

theorem drain_unique (s : ring_log) (acc : List Byte)
    (hn : ∀ a, a < s._buff_cnt → (s.heap a).next < s._buff_cnt)
    (hC : s._prst_buf < s._buff_cnt)
    (k0 : Nat) (s0 : ring_log) (h0 : drain k0 s = some (s0, acc)) (hq0 : s0.no_data)
    (k : Nat) (s1 : ring_log) (out : List Byte) (h1 : drain k s = some (s1, out))
    (hq1 : s1.no_data) : out = acc := by
  have e0 := drain_add k0 k s s0 acc h0
  rw [drain_quiet s0 hq0 (drain_closed k0 s s0 acc hn hC h0) k] at e0
  have e1 := drain_add k k0 s s1 out h1
  rw [drain_quiet s1 hq1 (drain_closed k s s1 out hn hC h1) k0] at e1
  rw [Nat.add_comm k0 k, e1] at e0
  simp only [Option.map_some', List.append_nil, Option.some.injEq, Prod.mk.injEq] at e0
  exact e0.2

end ring_lemmas

section fill_lemmas

open cell_buffer ring_log

theorem produce_append (l1 l2 : List (Nat × (Nat → Byte) × Nat)) :
    ∀ s : ring_log, produce s (l1 ++ l2) = produce (produce s l1) l2 := by
  induction l1 with
  | nil => intro s; rfl
  | cons c l ih => intro s; exact ih _

theorem produce_single (s : ring_log) (call : Nat × (Nat → Byte) × Nat) :
    produce s [call] = (try_append s call.1 call.2.1 call.2.2).1 := rfl

theorem backoff_of_zero (s : ring_log) (t : Nat) (h : s._lst_lts = 0) :
    s.backoff t = false := by
  simp [backoff, h]

theorem ring3_fast (s : ring_log) (P : Nat) (st : Nat → buffer_status) (u : Nat → Nat)
    (t : Nat) (p : Nat → Byte) (len : Nat) (hr : Ring3 s P st u) (hP : P < 3)
    (hfree : st P = FREE) (hfit : u P + len ≤ 1073741824) :
    Ring3 (try_append s t p len).1 P st (Function.update u P (u P + len)) := by
  have hc := hr.cells P hP
  have hcur := hr.cur
  have hu : (s.heap s._curr_buf)._used_len ≤ (s.heap s._curr_buf)._total_len := by
    rw [hcur, hc.2.2.1, hc.2.2.2]; omega
  have hB : (s.heap s._curr_buf)._total_len < U32 := by
    rw [hcur, hc.2.2.1]; decide
  have hav : len ≤ (s.heap s._curr_buf).avail_len := by
    rw [avail_len_of_le _ hu hB, hcur, hc.2.2.1, hc.2.2.2]; omega
  rw [try_append_fast s t p len (backoff_of_zero s t hr.lts) (by rw [hcur, hc.1, hfree]) hav]
  refine ⟨hr.cnt, hr.len, rfl, hr.cur, ?_⟩
  intro a ha
  dsimp only
  by_cases h : a = P
  · subst h
    rw [hcur, upd_same, append_status, append_next, append_total_len,
      append_used_len _ _ _ (by rw [← hcur]; exact hu) (by rw [← hcur]; exact hB)
        (by rw [← hcur]; exact hav), Function.update_same]
    exact ⟨hc.1, hc.2.1, hc.2.2.1, by rw [hc.2.2.2]⟩
  · rw [hcur, upd_other _ _ _ _ h, Function.update_noteq h]
    exact hr.cells a ha

theorem ring3_fill (t : Nat) (p : Nat → Byte) (len : Nat) (k : Nat) :
    ∀ (s : ring_log) (P : Nat) (st : Nat → buffer_status) (u : Nat → Nat),
      Ring3 s P st u → P < 3 → st P = FREE → u P + k * len ≤ 1073741824 →
      Ring3 (produce s (List.replicate k (t, p, len))) P st
        (Function.update u P (u P + k * len)) := by
  induction k with
  | zero =>
    intro s P st u hr _ _ _
    simpa [produce] using hr
  | succ k ih =>
    intro s P st u hr hP hfree hfit
    have hle : u P + len ≤ 1073741824 := by
      have : (k + 1) * len = k * len + len := Nat.succ_mul k len
      omega
    have h1 := ring3_fast s P st u t p len hr hP hfree hle
    have h2 := ih _ P st _ h1 hP hfree (by
      rw [Function.update_same]
      have : (k + 1) * len = k * len + len := Nat.succ_mul k len
      omega)
    rw [Function.update_same, Function.update_idem] at h2
    have e : u P + len + k * len = u P + (k + 1) * len := by
      have : (k + 1) * len = k * len + len := Nat.succ_mul k len
      omega
    rw [e] at h2
    exact h2

theorem ring3_advance (s : ring_log) (P : Nat) (st : Nat → buffer_status) (u : Nat → Nat)
    (t : Nat) (p : Nat → Byte) (len : Nat) (hr : Ring3 s P st u) (hP : P < 3)
    (hfree : st P = FREE) (hup : u P ≤ 1073741824) (hfit : 1073741824 - u P < len)
    (hnext : st ((P + 1) % 3) = FREE) (hempty : u ((P + 1) % 3) = 0)
    (hlen : len ≤ 1073741824) :
    Ring3 (try_append s t p len).1 ((P + 1) % 3) (Function.update st P FULL)
      (Function.update u ((P + 1) % 3) len) := by
  have hc := hr.cells P hP
  have hQ : (P + 1) % 3 < 3 := Nat.mod_lt _ (by decide)
  have hq := hr.cells _ hQ
  have hcur := hr.cur
  have hne : (P + 1) % 3 ≠ P := by omega
  have hu : (s.heap s._curr_buf)._used_len ≤ (s.heap s._curr_buf)._total_len := by
    rw [hcur, hc.2.2.1, hc.2.2.2]; exact hup
  have hB : (s.heap s._curr_buf)._total_len < U32 := by
    rw [hcur, hc.2.2.1]; decide
  have hav : (s.heap s._curr_buf).avail_len < len := by
    rw [avail_len_of_le _ hu hB, hcur, hc.2.2.1, hc.2.2.2]; exact hfit
  have hnx : (s.heap s._curr_buf).next = (P + 1) % 3 := by rw [hcur, hc.2.1]
  have hq0 : (s.heap ((P + 1) % 3))._used_len ≤ (s.heap ((P + 1) % 3))._total_len := by
    rw [hq.2.2.2, hempty]; exact Nat.zero_le _
  have hqB : (s.heap ((P + 1) % 3))._total_len < U32 := by rw [hq.2.2.1]; decide
  have hqa : len ≤ (s.heap ((P + 1) % 3)).avail_len := by
    rw [avail_len_of_le _ hq0 hqB, hq.2.2.1, hq.2.2.2, hempty]; exact hlen
  rw [try_append_next_free s t p len (backoff_of_zero s t hr.lts) (by rw [hcur, hc.1, hfree]) hav
    (by rw [hnx, hcur]; exact hne) (by rw [hnx, hq.1, hnext]), hnx, hcur]
  refine ⟨hr.cnt, hr.len, rfl, rfl, ?_⟩
  intro a ha
  dsimp only
  by_cases h1 : a = (P + 1) % 3
  · rw [h1, upd_same, upd_other _ _ _ _ hne, append_status, append_next, append_total_len,
      append_used_len _ _ _ hq0 hqB hqa, Function.update_same, Function.update_noteq hne]
    exact ⟨hq.1, hq.2.1, hq.2.2.1, by rw [hq.2.2.2, hempty, Nat.zero_add]⟩
  · rw [Function.update_noteq h1, upd_other _ _ _ _ h1]
    by_cases h2 : a = P
    · subst h2
      rw [upd_same, Function.update_same]
      exact ⟨rfl, hc.2.1, hc.2.2.1, hc.2.2.2⟩
    · rw [upd_other _ _ _ _ h2, Function.update_noteq h2]
      exact hr.cells a ha

theorem ring3_grow (s : ring_log) (st : Nat → buffer_status) (u : Nat → Nat)
    (t : Nat) (p : Nat → Byte) (len : Nat) (hr : Ring3 s 2 st u)
    (hfree : st 2 = FREE) (hup : u 2 ≤ 1073741824) (hfit : 1073741824 - u 2 < len)
    (hnext : st 0 = FULL) :
    (try_append s t p len).1._buff_cnt = 4
      ∧ (try_append s t p len).1._one_buff_len = 1073741824 := by
  have hc := hr.cells 2 (by decide)
  have hq := hr.cells 0 (by decide)
  have hcur := hr.cur
  have hu : (s.heap s._curr_buf)._used_len ≤ (s.heap s._curr_buf)._total_len := by
    rw [hcur, hc.2.2.1, hc.2.2.2]; exact hup
  have hB : (s.heap s._curr_buf)._total_len < U32 := by
    rw [hcur, hc.2.2.1]; decide
  have hav : (s.heap s._curr_buf).avail_len < len := by
    rw [avail_len_of_le _ hu hB, hcur, hc.2.2.1, hc.2.2.2]; exact hfit
  have hnx : (s.heap s._curr_buf).next = 0 := by rw [hcur, hc.2.1]
  have hov : s.over_limit = false := by
    simp only [over_limit, hr.cnt, hr.len]
    decide
  rw [try_append_grow s t p len (backoff_of_zero s t hr.lts) (by rw [hcur, hc.1, hfree]) hav
    (Or.inr (by rw [hnx, hq.1, hnext])) hov]
  exact ⟨by dsimp only; rw [hr.cnt], hr.len⟩

theorem ring3_ctor :
    Ring3 (ctor 1073741824) 0 (fun _ => FREE) (fun _ => 0) := by
  refine ⟨rfl, rfl, rfl, rfl, ?_⟩
  intro a ha
  have : a = 0 ∨ a = 1 ∨ a = 2 := by omega
  rcases this with rfl | rfl | rfl <;> exact ⟨rfl, rfl, rfl, rfl⟩

theorem ring3_congr (s : ring_log) (P : Nat) (st st2 : Nat → buffer_status) (u u2 : Nat → Nat)
    (hr : Ring3 s P st u) (h1 : ∀ a, a < 3 → st a = st2 a) (h2 : ∀ a, a < 3 → u a = u2 a) :
    Ring3 s P st2 u2 := by
  refine ⟨hr.cnt, hr.len, hr.lts, hr.cur, ?_⟩
  intro a ha
  rw [← h1 a ha, ← h2 a ha]
  exact hr.cells a ha

theorem ring3_advance_one (s : ring_log) (P : Nat) (st : Nat → buffer_status) (u : Nat → Nat)
    (t : Nat) (p : Nat → Byte) (len : Nat) (hr : Ring3 s P st u) (hP : P < 3)
    (hfree : st P = FREE) (hup : u P ≤ 1073741824) (hfit : 1073741824 - u P < len)
    (hnext : st ((P + 1) % 3) = FREE) (hempty : u ((P + 1) % 3) = 0)
    (hlen : len ≤ 1073741824) :
    Ring3 (produce s [(t, p, len)]) ((P + 1) % 3) (Function.update st P FULL)
      (Function.update u ((P + 1) % 3) len) :=
  ring3_advance s P st u t p len hr hP hfree hup hfit hnext hempty hlen

theorem ring3_grow_one (s : ring_log) (st : Nat → buffer_status) (u : Nat → Nat)
    (t : Nat) (p : Nat → Byte) (len : Nat) (hr : Ring3 s 2 st u)
    (hfree : st 2 = FREE) (hup : u 2 ≤ 1073741824) (hfit : 1073741824 - u 2 < len)
    (hnext : st 0 = FULL) :
    (produce s [(t, p, len)])._buff_cnt = 4
      ∧ (produce s [(t, p, len)])._one_buff_len = 1073741824 :=
  ring3_grow s st u t p len hr hfree hup hfit hnext

/-- Claim C2, the code at its failing input. With `B = 1 GiB` (the upper end
of the configurable range), starting from the ring built by the constructor
and with no drainer step, `3 * 2^20` records of 1024 bytes fill the three
cells and one more record makes `try_append` allocate a fourth cell:
`n * B = 4 GiB` exceeds `MEM_CAP = 3 GiB`.  The growth test
`_one_buff_len * (_buff_cnt + 1) > MEM_USE_LIMIT` is evaluated modulo `2^32`,
where `2^30 * 4` is 0. -/
theorem C2_memory_ceiling_exceeded :
    (produce (ctor 1073741824)
        (List.replicate (3 * 1048576 + 1) (7, fun _ => 65, 1024)))._buff_cnt = 4
      ∧ (produce (ctor 1073741824)
        (List.replicate (3 * 1048576 + 1) (7, fun _ => 65, 1024)))._one_buff_len = 1073741824
      ∧ MEM_USE_LIMIT < 4 * 1073741824
      ∧ (1073741824 * ((3 + 1) % U32)) % U32 = 0 := by
  have hsplit : List.replicate (3 * 1048576 + 1) ((7 : Nat), ((fun _ => 65) : Nat → Byte), (1024 : Nat))
      = List.replicate 1048576 (7, fun _ => 65, 1024)
        ++ ([(7, fun _ => 65, 1024)]
        ++ (List.replicate 1048575 (7, fun _ => 65, 1024)
        ++ ([(7, fun _ => 65, 1024)]
        ++ (List.replicate 1048575 (7, fun _ => 65, 1024)
        ++ [(7, fun _ => 65, 1024)])))) := by
    rw [show 3 * 1048576 + 1 = 1048576 + (1 + (1048575 + (1 + (1048575 + 1)))) by norm_num]
    simp only [List.replicate_add, List.replicate_one]
  have hA := ring3_ctor
  have hB := ring3_congr _ _ _ (fun _ => FREE) _ (fun a => if a = 0 then 1073741824 else 0)
    (ring3_fill 7 (fun _ => 65) 1024 1048576 _ 0 _ _ hA (by decide) rfl (by norm_num))
    (fun _ _ => rfl)
    (fun a ha => by
      have : a = 0 ∨ a = 1 ∨ a = 2 := by omega
      rcases this with rfl | rfl | rfl <;> simp [Function.update])
  have hC := ring3_congr _ _ _ (fun a => if a = 0 then FULL else FREE) _
    (fun a => if a = 0 then 1073741824 else if a = 1 then 1024 else 0)
    (ring3_advance_one _ 0 _ _ 7 (fun _ => 65) 1024 hB (by decide) rfl (by simp) (by simp)
      rfl rfl (by norm_num))
    (fun a ha => by
      have : a = 0 ∨ a = 1 ∨ a = 2 := by omega
      rcases this with rfl | rfl | rfl <;> simp [Function.update])
    (fun a ha => by
      have : a = 0 ∨ a = 1 ∨ a = 2 := by omega
      rcases this with rfl | rfl | rfl <;> simp [Function.update])
  have hD := ring3_congr _ _ _ (fun a => if a = 0 then FULL else FREE) _
    (fun a => if a = 2 then 0 else 1073741824)
    (ring3_fill 7 (fun _ => 65) 1024 1048575 _ 1 _ _ hC (by decide) rfl (by norm_num))
    (fun _ _ => rfl)
    (fun a ha => by
      have : a = 0 ∨ a = 1 ∨ a = 2 := by omega
      rcases this with rfl | rfl | rfl <;> simp [Function.update])
  have hE := ring3_congr _ _ _ (fun a => if a = 2 then FREE else FULL) _
    (fun a => if a = 2 then 1024 else 1073741824)
    (ring3_advance_one _ 1 _ _ 7 (fun _ => 65) 1024 hD (by decide) rfl (by simp) (by simp)
      rfl rfl (by norm_num))
    (fun a ha => by
      have : a = 0 ∨ a = 1 ∨ a = 2 := by omega
      rcases this with rfl | rfl | rfl <;> simp [Function.update])
    (fun a ha => by
      have : a = 0 ∨ a = 1 ∨ a = 2 := by omega
      rcases this with rfl | rfl | rfl <;> simp [Function.update])
  have hF := ring3_congr _ _ _ (fun a => if a = 2 then FREE else FULL) _
    (fun _ => 1073741824)
    (ring3_fill 7 (fun _ => 65) 1024 1048575 _ 2 _ _ hE (by decide) rfl (by norm_num))
    (fun _ _ => rfl)
    (fun a ha => by
      have : a = 0 ∨ a = 1 ∨ a = 2 := by omega
      rcases this with rfl | rfl | rfl <;> simp [Function.update])
  have hG := ring3_grow_one _ _ _ 7 (fun _ => 65) 1024 hF rfl (by simp) (by simp) rfl
  rw [hsplit, produce_append, produce_append, produce_append, produce_append, produce_append]
  exact ⟨hG.1, hG.2, by decide, by decide⟩

end fill_lemmas

section pipeline_claims

open cell_buffer ring_log

/-- Counterexample to claim C1 as stated.
(1) Cells of `B = 100` bytes, the initial 3-cell ring, and the records of 200
bytes and of 10 bytes (210 bytes in total, at most `n*B = 300`).  The first
record fits no cell: it seals the empty producer cell and is lost.  The second
is accepted into the next cell.  The drainer then finds its cell `FULL` and
empty in every turn and gives up: it never writes a byte, and the ring never
gets empty.
(2) Cells of `B = 900 MiB`, four records of `B-1`, `B`, `B` and 1 bytes, all at
second 0 (`3*B` bytes in total): all four are accepted, and the fourth (the
byte 66) lands at the end of cell 0, the cell the drainer writes first, ahead
of the second record in cell 1. -/
theorem C1_counterexample :
    (200 + 10 ≤ 3 * 100
      ∧ call_bytes (accepted (ctor 100) [(7, fun _ => 65, 200), (7, fun _ => 66, 10)])
          = List.replicate 10 66
      ∧ ((produce (ctor 100) [(7, fun _ => 65, 200), (7, fun _ => 66, 10)]).heap 1).empty = false
      ∧ ¬ (produce (ctor 100) [(7, fun _ => 65, 200), (7, fun _ => 66, 10)]).no_data
      ∧ ∀ k, drain k (produce (ctor 100) [(7, fun _ => 65, 200), (7, fun _ => 66, 10)])
          = some (produce (ctor 100) [(7, fun _ => 65, 200), (7, fun _ => 66, 10)], []))
    ∧ (943718399 + 943718400 + 943718400 + 1 ≤ 3 * 943718400
      ∧ (accepted (ctor 943718400)
          [(0, fun _ => 65, 943718399), (0, fun _ => 65, 943718400),
            (0, fun _ => 65, 943718400), (0, fun _ => 66, 1)]).length = 4
      ∧ (produce (ctor 943718400)
          [(0, fun _ => 65, 943718399), (0, fun _ => 65, 943718400),
            (0, fun _ => 65, 943718400), (0, fun _ => 66, 1)])._prst_buf = 0
      ∧ ((produce (ctor 943718400)
          [(0, fun _ => 65, 943718399), (0, fun _ => 65, 943718400),
            (0, fun _ => 65, 943718400), (0, fun _ => 66, 1)]).heap 0)._used_len = 943718400
      ∧ ((produce (ctor 943718400)
          [(0, fun _ => 65, 943718399), (0, fun _ => 65, 943718400),
            (0, fun _ => 65, 943718400), (0, fun _ => 66, 1)]).heap 0)._data 943718399 = 66
      ∧ ((produce (ctor 943718400)
          [(0, fun _ => 65, 943718399), (0, fun _ => 65, 943718400),
            (0, fun _ => 65, 943718400), (0, fun _ => 66, 1)]).heap 0).next = 1
      ∧ ((produce (ctor 943718400)
          [(0, fun _ => 65, 943718399), (0, fun _ => 65, 943718400),
            (0, fun _ => 65, 943718400), (0, fun _ => 66, 1)]).heap 1)._data 0 = 65) := by
  refine ⟨⟨by decide, by decide, by decide, ?_, ?_⟩, by decide⟩
  · intro h
    have := h 1 (by decide)
    revert this
    decide
  · intro k
    induction k with
    | zero => rfl
    | succ k ih =>
      rw [drain_succ k _ _ [] (persist_body_empty _ (by decide)), ih]
      rfl

/-- Claim C1, amended. For every cell size `B` (a `uint32_t`), the ring built
by the constructor and every run of `try_append` calls made while the drainer
takes no step, each record of length at most `B` and handed over at a time
`now_sec ≠ 0`: when the drainer afterwards runs turns of its loop (file open
and write succeeding), after some number of turns the ring holds no data and
the bytes written are exactly the accepted records, concatenated in the order
of acceptance; and whenever the ring holds no data after some number of turns,
the bytes written up to then are exactly that concatenation. -/
theorem C1_drain_in_order (B : Nat) (hB : B < U32) (calls : List (Nat × (Nat → Byte) × Nat))
    (hcalls : ∀ call ∈ calls, call.2.2 ≤ B ∧ call.1 ≠ 0) :
    (∃ k s2, drain k (produce (ctor B) calls)
          = some (s2, call_bytes (accepted (ctor B) calls)) ∧ s2.no_data)
      ∧ (∀ k s2 out, drain k (produce (ctor B) calls) = some (s2, out) → s2.no_data →
          out = call_bytes (accepted (ctor B) calls)) := by
  have hi : RingInv (produce (ctor B) calls) ([] ++ call_bytes (accepted (ctor B) calls)) :=
    produce_inv calls (ctor B) [] (Or.inl ⟨_, _, ctor_inv B hB⟩) hcalls
  rw [List.nil_append] at hi
  obtain ⟨k0, s0, h0, hq0⟩ := ring_drain _ _ hi
  have hcl := ring_closed _ _ hi
  refine ⟨⟨k0, s0, h0, hq0⟩, ?_⟩
  intro k s2 out h1 hq1
  exact drain_unique _ _ hcl.1 hcl.2 k0 s0 h0 hq0 k s2 out h1 hq1

/-- Witness of claim C1 (amended): cells of 100 bytes, a record of 60 bytes at
second 7 and a record of 50 bytes at second 8 (scenario S2). -/
theorem C1_drain_in_order_witness :
    100 < U32
      ∧ (∀ call ∈ [((7 : Nat), ((fun _ => 65 : Nat → Byte)), (60 : Nat)), (8, (fun _ => 66), 50)],
          call.2.2 ≤ 100 ∧ call.1 ≠ 0)
      ∧ (∃ k s2, drain k (produce (ctor 100) [(7, fun _ => 65, 60), (8, fun _ => 66, 50)])
          = some (s2, call_bytes (accepted (ctor 100) [(7, fun _ => 65, 60), (8, fun _ => 66, 50)]))
          ∧ s2.no_data) :=
  ⟨by decide, by simp,
    (C1_drain_in_order 100 (by decide) [(7, fun _ => 65, 60), (8, fun _ => 66, 50)]
      (by simp)).1⟩

end pipeline_claims

section sink_lemmas

open ring_sink

theorem dec_val_digits (fuel : Nat) : ∀ n, n < fuel → dec_val (dec_digits fuel n) = n := by
  induction fuel with
  | zero => intro n h; omega
  | succ f ih =>
    intro n h
    unfold dec_digits
    split
    · rename_i h10
      simp only [dec_val, Fin.ofNat, Nat.mul_zero, Nat.add_zero]
      omega
    · rename_i h10
      simp only [dec_val, Fin.ofNat]
      rw [ih (n / 10) (by omega)]
      omega

theorem fmt_d_inj (a b : Nat) (h : fmt_d a = fmt_d b) : a = b := by
  have h1 : dec_digits (a + 1) a = dec_digits (b + 1) b := List.reverse_injective h
  have h2 := congrArg dec_val h1
  rwa [dec_val_digits _ a (by omega), dec_val_digits _ b (by omega)] at h2

theorem log_path_n_inj (s : ring_sink) (i j : Nat) (h : s.log_path_n i = s.log_path_n j) :
    i = j := by
  unfold log_path_n at h
  exact fmt_d_inj i j (List.append_cancel_left h)

theorem log_path_ne (s : ring_sink) (i : Nat) : s.log_path ≠ s.log_path_n i := by
  intro h
  have := congrArg List.length h
  simp [log_path_n] at this

theorem rename_new (fs : List Byte → Option (List Byte)) (a b : List Byte) (c : List Byte)
    (h : fs a = some c) : rename fs a b b = some c := by
  simp [rename, h]

theorem rename_other (fs : List Byte → Option (List Byte)) (a b q : List Byte)
    (h1 : q ≠ b) (h2 : q ≠ a) : rename fs a b q = fs q := by
  cases h : fs a <;> simp [rename, h, h1, h2]

theorem rotate_loop_spec (s : ring_sink) (j : Nat) :
    ∀ fs : List Byte → Option (List Byte),
      (∀ i, 1 ≤ i → i ≤ j → fs (s.log_path_n i) ≠ none) →
      (∀ i, 1 ≤ i → i ≤ j → rotate_loop s j fs (s.log_path_n (i + 1)) = fs (s.log_path_n i))
        ∧ (∀ q, (∀ i, 1 ≤ i → i ≤ j + 1 → q ≠ s.log_path_n i) → rotate_loop s j fs q = fs q) := by
  induction j with
  | zero =>
    intro fs _
    exact ⟨fun i h1 h2 => by omega, fun q _ => rfl⟩
  | succ j ih =>
    intro fs hex
    have hne : ∀ a b : Nat, a ≠ b → s.log_path_n a ≠ s.log_path_n b :=
      fun a b hab h => hab (log_path_n_inj s a b h)
    have hex1 : ∀ i, 1 ≤ i → i ≤ j →
        rename fs (s.log_path_n (j + 1)) (s.log_path_n (j + 1 + 1)) (s.log_path_n i) ≠ none := by
      intro i h1 h2
      rw [rename_other _ _ _ _ (hne _ _ (by omega)) (hne _ _ (by omega))]
      exact hex i h1 (by omega)
    obtain ⟨ih1, ih2⟩ := ih _ hex1
    obtain ⟨c, hc⟩ := Option.ne_none_iff_exists'.mp (hex (j + 1) (by omega) (Nat.le_refl _))
    constructor
    · intro i h1 h2
      show rotate_loop s j _ (s.log_path_n (i + 1)) = _
      by_cases hij : i ≤ j
      · rw [ih1 i h1 hij, rename_other _ _ _ _ (hne _ _ (by omega)) (hne _ _ (by omega))]
      · have hi : i = j + 1 := by omega
        subst hi
        rw [ih2 _ (fun i h1 h2 => hne _ _ (by omega)), rename_new _ _ _ _ hc, hc]
    · intro q hq
      show rotate_loop s j _ q = _
      rw [ih2 q (fun i h1 h2 => hq i h1 (by omega)),
        rename_other _ _ _ _ (hq _ (by omega) (by omega)) (hq _ (by omega) (by omega))]

end sink_lemmas

section sink_claims

open ring_sink ring_log

/-- Claim C14. Whatever level is passed to `init_path`, `get_level()` then
returns the level itself when `FATAL(1) ≤ level ≤ TRACE(6)`, 1 when
`level < 1` and 6 when `level > 6`; the stored level lies in `[1, 6]` and the
test `get_level() >= FATAL` of a `FATAL` record holds. -/
theorem C14_level_clamp (s : ring_sink) (log_dir prog_name : List Byte) (level : Int)
    (access_ok : Bool) :
    (s.init_path log_dir prog_name level access_ok).get_level
        = (if level < 1 then 1 else if level > 6 then 6 else level)
      ∧ 1 ≤ (s.init_path log_dir prog_name level access_ok).get_level
      ∧ (s.init_path log_dir prog_name level access_ok).get_level ≤ 6
      ∧ FATAL ≤ (s.init_path log_dir prog_name level access_ok).get_level := by
  have h : (s.init_path log_dir prog_name level access_ok).get_level
      = (if (if level > TRACE then TRACE else level) < FATAL then FATAL
          else (if level > TRACE then TRACE else level)) := rfl
  rw [h]
  unfold FATAL TRACE
  refine ⟨?_, ?_, ?_, ?_⟩ <;> split_ifs <;> omega

theorem persist_select_empty (s : ring_log) (hE : (s.heap s._prst_buf).empty = true) :
    s.persist_select = some (s, false) := by
  simp [persist_select, hE]

theorem persist_select_full (s : ring_log) (hE : (s.heap s._prst_buf).empty = false)
    (hst : (s.heap s._prst_buf).status = buffer_status.FULL) :
    s.persist_select = some (s, true) := by
  simp [persist_select, hE, hst]

theorem persist_select_promote (s : ring_log) (hE : (s.heap s._prst_buf).empty = false)
    (hst : (s.heap s._prst_buf).status = buffer_status.FREE) (hc : s._curr_buf = s._prst_buf) :
    s.persist_select
      = some ({ s with heap := upd s.heap s._prst_buf (fun c => { c with status := FULL })
                       _curr_buf := (s.heap s._prst_buf).next }, true) := by
  simp [persist_select, hE, hst, hc]

theorem persist_select_abort (s : ring_log) (hE : (s.heap s._prst_buf).empty = false)
    (hst : (s.heap s._prst_buf).status = buffer_status.FREE) (hc : s._curr_buf ≠ s._prst_buf) :
    s.persist_select = none := by
  simp [persist_select, hE, hst, hc]

/-- Claim C13. In a turn of the loop of `persist` that reaches `decis_file`
(the first critical section selected the consumer cell) and gets `false` from
it: nothing is written, the consumer pointer is not advanced, the consumer
cell is not cleared (bytes and used length as before) and is `FULL`, and the
next turn selects the same cell in the same state and, once the file opens,
writes exactly those bytes. -/
theorem C13_open_failure_retry (s s1 : ring_log) (h : s.persist_select = some (s1, true)) :
    s.persist_body false = some (s1, [])
      ∧ s1._prst_buf = s._prst_buf
      ∧ (s1.heap s1._prst_buf)._data = (s.heap s._prst_buf)._data
      ∧ (s1.heap s1._prst_buf)._used_len = (s.heap s._prst_buf)._used_len
      ∧ (s1.heap s1._prst_buf).status = buffer_status.FULL
      ∧ s1.persist_select = some (s1, true)
      ∧ s1.persist_body true = some (s1.persist_release, (s.heap s._prst_buf).contents) := by
  have hb : s.persist_body false = some (s1, []) := by simp [persist_body, h]
  have hE : (s.heap s._prst_buf).empty = false := by
    cases he : (s.heap s._prst_buf).empty
    · rfl
    · rw [persist_select_empty s he] at h
      simp at h
  have key : s1._prst_buf = s._prst_buf
      ∧ (s1.heap s1._prst_buf)._data = (s.heap s._prst_buf)._data
      ∧ (s1.heap s1._prst_buf)._used_len = (s.heap s._prst_buf)._used_len
      ∧ (s1.heap s1._prst_buf).status = buffer_status.FULL := by
    cases hst : (s.heap s._prst_buf).status
    · by_cases hc : s._curr_buf = s._prst_buf
      · rw [persist_select_promote s hE hst hc] at h
        simp only [Option.some.injEq, Prod.mk.injEq, and_true] at h
        rw [← h]
        refine ⟨rfl, ?_, ?_, ?_⟩
        · show (upd s.heap s._prst_buf _ s._prst_buf)._data = _
          rw [upd_same]
        · show (upd s.heap s._prst_buf _ s._prst_buf)._used_len = _
          rw [upd_same]
        · show (upd s.heap s._prst_buf _ s._prst_buf).status = _
          rw [upd_same]
      · rw [persist_select_abort s hE hst hc] at h
        simp at h
    · rw [persist_select_full s hE hst] at h
      simp only [Option.some.injEq, Prod.mk.injEq, and_true] at h
      rw [← h]
      exact ⟨rfl, rfl, rfl, hst⟩
  obtain ⟨k1, k2, k3, k4⟩ := key
  have hne : (s1.heap s1._prst_buf).empty = false := by
    simp only [cell_buffer.empty] at hE ⊢
    rw [k3]; exact hE
  have hsel : s1.persist_select = some (s1, true) := persist_select_full s1 hne k4
  refine ⟨hb, k1, k2, k3, k4, hsel, ?_⟩
  simp only [persist_body, hsel, if_true]
  rw [contents_congr _ _ k3 k2]

/-- Witness of claim C13: scenario S2 after the 50-byte record, the consumer
on the sealed cell 0 with its 60 bytes. -/
theorem C13_open_failure_retry_witness :
    S2_sealed.persist_select = some (S2_sealed, true)
      ∧ S2_sealed.persist_body false = some (S2_sealed, [])
      ∧ (S2_sealed.heap S2_sealed._prst_buf)._used_len = 60 :=
  ⟨rfl, (C13_open_failure_retry S2_sealed S2_sealed rfl).1, by decide⟩

/-- Claim C11. With the directory a map from paths to contents in which
`rename` replaces its target and `fopen(path, "w")` succeeds: for every
`k ≥ 1` and every directory holding the primary file and the rotated files
`.log.1 … .log.(k-1)` of the stamped day, a call of `decis_file` on that day
with the counter at `k` and `ftell ≥ 1 GiB` ends with `.log.1` holding the old
contents of the primary, `.log.(i+1)` holding the old contents of `.log.i` for
every `1 ≤ i ≤ k-1`, the primary path open and empty at position 0, and the
counter at `k + 1`. -/
theorem C11_size_rotation (s : ring_sink) (year mon day : Int) (k : Nat)
    (henv : s._env_ok = true) (hfp : s._fp ≠ none) (hday : s._day = day)
    (hsize : LOG_USE_LIMIT ≤ s.fpos) (hcnt : s._log_cnt = k) (hk : 1 ≤ k)
    (hprim : s.fs s.log_path ≠ none)
    (hrot : ∀ i, 1 ≤ i → i ≤ k - 1 → s.fs (s.log_path_n i) ≠ none) :
    (s.decis_file year mon day true).2 = true
      ∧ (s.decis_file year mon day true).1.fs (s.log_path_n 1) = s.fs s.log_path
      ∧ (∀ i, 1 ≤ i → i ≤ k - 1 →
          (s.decis_file year mon day true).1.fs (s.log_path_n (i + 1)) = s.fs (s.log_path_n i))
      ∧ (s.decis_file year mon day true).1.fs s.log_path = some []
      ∧ (s.decis_file year mon day true).1._fp = some s.log_path
      ∧ (s.decis_file year mon day true).1.fpos = 0
      ∧ (s.decis_file year mon day true).1._log_cnt = k + 1
      ∧ (s.decis_file year mon day true).1.log_path = s.log_path := by
  obtain ⟨h1, h2⟩ := rotate_loop_spec s (k - 1) s.fs hrot
  obtain ⟨c, hc⟩ := Option.ne_none_iff_exists'.mp hprim
  have hp1 : rotate_loop s (k - 1) s.fs s.log_path = some c := by
    rw [h2 _ (fun i _ _ => log_path_ne s i), hc]
  have hne : ∀ a b : Nat, a ≠ b → s.log_path_n a ≠ s.log_path_n b :=
    fun a b hab h => hab (log_path_n_inj s a b h)
  have hres : s.decis_file year mon day true
      = ({ s with
            _fp := some s.log_path
            fpos := 0
            fs := fun q => if q = s.log_path then some []
              else rename (rotate_loop s (k - 1) s.fs) s.log_path (s.log_path_n 1) q
            _log_cnt := k + 1 }, true) := by
    have h0 : ¬ (s._env_ok = false) := by simp [henv]
    have h3 : ¬ (s._day ≠ day) := by simp [hday]
    simp [decis_file, henv, hfp, hday, hsize, fopen_w, hcnt]
  rw [hres]
  refine ⟨rfl, ?_, ?_, ?_, rfl, rfl, rfl, rfl⟩
  · show (if s.log_path_n 1 = s.log_path then some [] else _) = _
    rw [if_neg (Ne.symm (log_path_ne s 1)), rename_new _ _ _ _ hp1, hc]
  · intro i hi1 hi2
    show (if s.log_path_n (i + 1) = s.log_path then some [] else _) = _
    rw [if_neg (Ne.symm (log_path_ne s (i + 1))),
      rename_other _ _ _ _ (hne _ _ (by omega)) (Ne.symm (log_path_ne s (i + 1)))]
    exact h1 i hi1 hi2
  · show (if s.log_path = s.log_path then some [] else _) = _
    rw [if_pos rfl]

/-- Witness of claim C11: two files of 2024-01-09 in the directory (`k = 2`),
the stream 1 GiB into the primary. -/
theorem C11_size_rotation_witness :
    sink_big._env_ok = true ∧ sink_big._fp ≠ none ∧ sink_big._day = 9
      ∧ LOG_USE_LIMIT ≤ sink_big.fpos ∧ sink_big._log_cnt = 2
      ∧ sink_big.fs sink_big.log_path = some [48]
      ∧ sink_big.fs (sink_big.log_path_n 1) = some [49]
      ∧ (sink_big.decis_file 2024 1 9 true).1.fs (sink_big.log_path_n 1) = some [48]
      ∧ (sink_big.decis_file 2024 1 9 true).1.fs (sink_big.log_path_n 2) = some [49]
      ∧ (sink_big.decis_file 2024 1 9 true).1._log_cnt = 3 :=
  ⟨by decide, by decide, by decide, by decide, by decide, by decide, by decide,
    by decide, by decide,
    (C11_size_rotation sink_big 2024 1 9 2 (by decide) (by decide) (by decide) (by decide)
      (by decide) (by decide) (by decide)
      (fun i h1 h2 => by
        have hi : i = 1 := by omega
        subst hi
        decide)).2.2.2.2.2.2.1⟩

/-- Counterexample to claim C12 as stated, at two sinks with a file open.
(1) The directory was not accessible at `init_path` and `/dev/null` is open:
`decis_file(2024, 1, 10)` reopens `/dev/null`, the stamp and the counter stay
as they were (0).
(2) The primary file of 2024-01-09 is open and the drain date is 2024-02-09, a
different date with the same day of the month: `decis_file` compares the days
only and keeps the file and the stamp of 2024-01-09. -/
theorem C12_counterexample :
    (sink_null._fp ≠ none
      ∧ (sink_null._year, sink_null._mon, sink_null._day) ≠ (2024, 1, 10)
      ∧ (sink_null.decis_file 2024 1 10 true).2 = true
      ∧ (sink_null.decis_file 2024 1 10 true).1._fp = some dev_null
      ∧ (sink_null.decis_file 2024 1 10 true).1._day = 0
      ∧ (sink_null.decis_file 2024 1 10 true).1._log_cnt = 0)
    ∧ (sink_day9._env_ok = true ∧ sink_day9._fp ≠ none
      ∧ (sink_day9._year, sink_day9._mon, sink_day9._day) = (2024, 1, 9)
      ∧ ((2024, 1, 9) : Int × Int × Int) ≠ (2024, 2, 9)
      ∧ (sink_day9.decis_file 2024 2 9 true).1._fp = some sink_day9.log_path
      ∧ (sink_day9.decis_file 2024 2 9 true).1._fp
          ≠ some ({ sink_day9 with _year := 2024, _mon := 2, _day := 9 } : ring_sink).log_path
      ∧ (sink_day9.decis_file 2024 2 9 true).1._mon = 1) := by
  refine ⟨by decide, by decide⟩

/-- Claim C12, amended. For every sink with the environment OK and a file open,
stamped with the date `(y0, m0, d0)`, and every drain date `(y, m, d)` with
`d ≠ d0`: a call of `decis_file(y, m, d)` whose open succeeds returns true and
leaves the current file equal to the primary path
`<dir>/<prog>.<YYYYMMDD of (y,m,d)>.<pid>.log`, opened empty, the stored stamp
equal to `(y, m, d)` and the rotation counter equal to 1. -/
theorem C12_day_rollover (s : ring_sink) (year mon day : Int)
    (henv : s._env_ok = true) (hfp : s._fp ≠ none) (hday : s._day ≠ day) :
    (s.decis_file year mon day true).2 = true
      ∧ (s.decis_file year mon day true).1._fp
          = some ({ s with _year := year, _mon := mon, _day := day } : ring_sink).log_path
      ∧ (s.decis_file year mon day true).1._fp
          = some (s.decis_file year mon day true).1.log_path
      ∧ (s.decis_file year mon day true).1.fs (s.decis_file year mon day true).1.log_path
          = some []
      ∧ (s.decis_file year mon day true).1._year = year
      ∧ (s.decis_file year mon day true).1._mon = mon
      ∧ (s.decis_file year mon day true).1._day = day
      ∧ (s.decis_file year mon day true).1._log_cnt = 1 := by
  have hres : s.decis_file year mon day true
      = ({ s with
            _year := year
            _mon := mon
            _day := day
            _fp := some ({ s with _year := year, _mon := mon, _day := day } : ring_sink).log_path
            fpos := 0
            fs := fun q =>
              if q = ({ s with _year := year, _mon := mon, _day := day } : ring_sink).log_path
              then some [] else s.fs q
            _log_cnt := 1 }, true) := by
    simp [decis_file, henv, hfp, hday, fopen_w]
  rw [hres]
  refine ⟨rfl, rfl, rfl, ?_, rfl, rfl, rfl, rfl⟩
  simp [log_path]

/-- Witness of claim C12 (amended): scenario S6, the file of 2024-01-09 open
and the drain date 2024-01-10. -/
theorem C12_day_rollover_witness :
    sink_day9._env_ok = true ∧ sink_day9._fp ≠ none ∧ sink_day9._day ≠ 10
      ∧ (sink_day9.decis_file 2024 1 10 true).1._log_cnt = 1
      ∧ (sink_day9.decis_file 2024 1 10 true).1._day = 10 :=
  ⟨by decide, by decide, by decide,
    (C12_day_rollover sink_day9 2024 1 10 (by decide) (by decide) (by decide)).2.2.2.2.2.2.2,
    (C12_day_rollover sink_day9 2024 1 10 (by decide) (by decide) (by decide)).2.2.2.2.2.2.1⟩

/-- Claim C19 as stated fails. The sink `sink_rotate_failed` is left by a failed
open in the rotation branch: environment OK, no file open, the counter at 2
and the two files of 2024-01-09 renamed to `.log.1` and `.log.2`.  The next
`decis_file(2024, 1, 9)`, whose open succeeds, opens the primary file again and
runs `_log_cnt += 1`: the counter is 3, the number of files of the day, not 1. -/
theorem C19_counterexample :
    sink_rotate_failed._env_ok = true ∧ sink_rotate_failed._fp = none
      ∧ sink_rotate_failed._log_cnt = 2
      ∧ (sink_rotate_failed.decis_file 2024 1 9 true).2 = true
      ∧ (sink_rotate_failed.decis_file 2024 1 9 true).1._year = 2024
      ∧ (sink_rotate_failed.decis_file 2024 1 9 true).1._mon = 1
      ∧ (sink_rotate_failed.decis_file 2024 1 9 true).1._day = 9
      ∧ (sink_rotate_failed.decis_file 2024 1 9 true).1._log_cnt = 3
      ∧ (sink_rotate_failed.decis_file 2024 1 9 true).1.fs sink_big.log_path = some []
      ∧ (sink_rotate_failed.decis_file 2024 1 9 true).1.fs (sink_big.log_path_n 1) = some [48]
      ∧ (sink_rotate_failed.decis_file 2024 1 9 true).1.fs (sink_big.log_path_n 2)
          = some [49] := by
  decide

/-- Claim C19, amended. For every sink with the environment OK and no file
open, a call of `decis_file(y, m, d)` whose open succeeds returns true, opens
the primary path of `(y, m, d)` and leaves the stored stamp equal to
`(y, m, d)`.  The rotation counter is 1 afterwards when it was 0 before (the
initial state).  When the state was left by a failed open in the rotation
branch of a call `decis_file(y, m, d)` on a sink `s0` stamped `(y, m, d)`, the
counter is the counter of `s0` plus 1 and the file opened is the primary file
of `s0`. -/
theorem C19_first_open (s s0 : ring_sink) (year mon day : Int)
    (henv : s._env_ok = true) (hfp : s._fp = none) :
    (s.decis_file year mon day true).2 = true
      ∧ (s.decis_file year mon day true).1._fp
          = some ({ s with _year := year, _mon := mon, _day := day } : ring_sink).log_path
      ∧ (s.decis_file year mon day true).1._year = year
      ∧ (s.decis_file year mon day true).1._mon = mon
      ∧ (s.decis_file year mon day true).1._day = day
      ∧ (s._log_cnt = 0 → (s.decis_file year mon day true).1._log_cnt = 1)
      ∧ (s0._env_ok = true → s0._fp ≠ none → s0._year = year → s0._mon = mon →
          s0._day = day → LOG_USE_LIMIT ≤ s0.fpos →
          s = (s0.decis_file year mon day false).1 →
          (s.decis_file year mon day true).1._log_cnt = s0._log_cnt + 1
            ∧ (s.decis_file year mon day true).1._fp = some s0.log_path) := by
  have hres : s.decis_file year mon day true
      = ({ s with
            _year := year
            _mon := mon
            _day := day
            _fp := some ({ s with _year := year, _mon := mon, _day := day } : ring_sink).log_path
            fpos := 0
            fs := fun q =>
              if q = ({ s with _year := year, _mon := mon, _day := day } : ring_sink).log_path
              then some [] else s.fs q
            _log_cnt := s._log_cnt + 1 }, true) := by
    simp [decis_file, henv, hfp, fopen_w]
  rw [hres]
  refine ⟨rfl, rfl, rfl, rfl, rfl, ?_, ?_⟩
  · intro h0
    show s._log_cnt + 1 = 1
    rw [h0]
  · intro h0env h0fp hy hm hd hsize hs
    have hs0 : (s0.decis_file year mon day false).1
        = { s0 with
            fs := rename (rotate_loop s0 (s0._log_cnt - 1) s0.fs) s0.log_path (s0.log_path_n 1)
            _fp := none } := by
      simp [decis_file, h0env, h0fp, hd, hsize, fopen_w]
    rw [hs0] at hs
    subst hs
    constructor
    · rfl
    · show some (log_path _) = some s0.log_path
      simp only [log_path, hy, hm, hd]

/-- Claim C19, amended, at the sink right after `init_path` (counter 0) and at
the sink left by the failed rotation of `sink_big` (counter 2). -/
theorem C19_first_open_witness :
    (sink_init._env_ok = true ∧ sink_init._fp = none ∧ sink_init._log_cnt = 0
      ∧ (sink_init.decis_file 2024 1 9 true).1._log_cnt = 1)
    ∧ (sink_rotate_failed._env_ok = true ∧ sink_rotate_failed._fp = none
      ∧ sink_big._log_cnt = 2
      ∧ (sink_rotate_failed.decis_file 2024 1 9 true).1._log_cnt = sink_big._log_cnt + 1
      ∧ (sink_rotate_failed.decis_file 2024 1 9 true).1._fp = some sink_big.log_path) :=
  ⟨⟨by decide, by decide, by decide,
      (C19_first_open sink_init sink_init 2024 1 9 (by decide) (by decide)).2.2.2.2.2.1
        (by decide)⟩,
    by decide, by decide, by decide,
    (C19_first_open sink_rotate_failed sink_big 2024 1 9 (by decide) (by decide)).2.2.2.2.2.2
      (by decide) (by decide) (by decide) (by decide) (by decide) (by decide) rfl⟩

end sink_claims

section timer_claims

/-- Claim C15, the code at its failing input. With the local time of the zone
UTC: a timer built at second 1704795630 (2024-01-09 10:20:30) caches the string
`2024-01-09 10:20:30`.  A call of `get_curr_time` at second
`1704795630 + 2^32` (2160-02-15 16:48:46) returns that second, but
`(uint32_t)tv.tv_sec` equals the cached `_sys_acc_sec`, so nothing is updated:
the cached string and fields are still those of 2024-01-09 10:20:30 and differ
from the rendering of the local time of the call. -/
theorem C15_stale_cache :
    ((utc_timer.ctor utc_tm 1704795630).utc_fmt.take 19 = utc_sample
      ∧ (utc_timer.ctor utc_tm 1704795630).utc_fmt.take 19
          = render_time ((utc_tm 1704795630).tm_year + 1900) ((utc_tm 1704795630).tm_mon + 1)
              (utc_tm 1704795630).tm_mday (utc_tm 1704795630).tm_hour
              (utc_tm 1704795630).tm_min (utc_tm 1704795630).tm_sec)
    ∧ ((utc_timer.get_curr_time utc_tm (utc_timer.ctor utc_tm 1704795630)
          (1704795630 + 4294967296)).2 = 1704795630 + 4294967296
      ∧ (utc_timer.get_curr_time utc_tm (utc_timer.ctor utc_tm 1704795630)
          (1704795630 + 4294967296)).1.utc_fmt.take 19 = utc_sample
      ∧ (utc_timer.get_curr_time utc_tm (utc_timer.ctor utc_tm 1704795630)
          (1704795630 + 4294967296)).1.year = 2024
      ∧ (utc_tm (1704795630 + 4294967296)).tm_year + 1900 = 2160
      ∧ (utc_timer.get_curr_time utc_tm (utc_timer.ctor utc_tm 1704795630)
          (1704795630 + 4294967296)).1.utc_fmt.take 19
          ≠ render_time ((utc_tm (1704795630 + 4294967296)).tm_year + 1900)
              ((utc_tm (1704795630 + 4294967296)).tm_mon + 1)
              (utc_tm (1704795630 + 4294967296)).tm_mday
              (utc_tm (1704795630 + 4294967296)).tm_hour
              (utc_tm (1704795630 + 4294967296)).tm_min
              (utc_tm (1704795630 + 4294967296)).tm_sec) := by
  refine ⟨by decide, by decide⟩

end timer_claims

section reach_lemmas

open cell_buffer ring_log

theorem headD_eq_getD (l : List Nat) (z : Nat) : l.headD z = l.getD 0 z := by
  cases l <;> rfl

theorem linked_getD (h : Nat → cell_buffer) (l : List Nat) (z : Nat) (hl : Linked h l z) :
    ∀ i, i < l.length → (h (l.getD i 0)).next = l.getD (i + 1) z := by
  induction l with
  | nil => intro i hi; cases hi
  | cons a l ih =>
    intro i hi
    cases i with
    | zero =>
      show (h a).next = l.getD 0 z
      rw [← headD_eq_getD]; exact hl.1
    | succ i =>
      show (h (l.getD i 0)).next = l.getD (i + 1) z
      exact ih hl.2 i (Nat.lt_of_succ_lt_succ hi)

theorem shape_pos {s : ring_log} {ord : List Nat} (hs : RingShape s ord) : 0 < ord.length := by
  have := hs.head
  cases ord with
  | nil => cases this
  | cons a l => simp

theorem cyc_zero {s : ring_log} {ord : List Nat} (hs : RingShape s ord) :
    cyc ord 0 = s._prst_buf := by
  have := hs.head
  cases ord with
  | nil => cases this
  | cons a l =>
    simp only [List.head?_cons, Option.some.injEq] at this
    simp [cyc, this]

theorem cyc_of_lt (ord : List Nat) (i : Nat) (hi : i < ord.length) :
    cyc ord i = ord.get ⟨i, hi⟩ := by
  unfold cyc
  rw [Nat.mod_eq_of_lt hi, List.getD_eq_getElem _ _ hi]
  rfl

theorem cyc_mem_ord (ord : List Nat) (i : Nat) (hpos : 0 < ord.length) : cyc ord i ∈ ord := by
  have hi : i % ord.length < ord.length := Nat.mod_lt _ hpos
  unfold cyc
  rw [List.getD_eq_getElem _ _ hi]
  exact List.getElem_mem _

theorem cyc_add_length (ord : List Nat) (i : Nat) : cyc ord (i + ord.length) = cyc ord i := by
  unfold cyc
  rw [Nat.add_mod_right]

theorem cyc_of_mem (ord : List Nat) (a : Nat) (ha : a ∈ ord) :
    ∃ i, i < ord.length ∧ cyc ord i = a := by
  obtain ⟨i, hi, rfl⟩ := List.getElem_of_mem ha
  exact ⟨i, hi, cyc_of_lt ord i hi⟩

theorem cyc_inj (ord : List Nat) (hn : ord.Nodup) (i j : Nat) (hi : i < ord.length)
    (hj : j < ord.length) (h : cyc ord i = cyc ord j) : i = j := by
  rw [cyc_of_lt ord i hi, cyc_of_lt ord j hj] at h
  have := (List.Nodup.get_inj_iff hn).1 h
  exact Fin.mk.inj this

theorem cyc_ne (ord : List Nat) (hn : ord.Nodup) (i k : Nat) (hk : 0 < k)
    (hkn : k < ord.length) : cyc ord (i + k) ≠ cyc ord i := by
  intro h
  have hpos : 0 < ord.length := by omega
  have h1 : cyc ord (i + k) = cyc ord ((i + k) % ord.length) := by
    unfold cyc; rw [Nat.mod_mod]
  have h2 : cyc ord i = cyc ord (i % ord.length) := by
    unfold cyc; rw [Nat.mod_mod]
  rw [h1, h2] at h
  have h3 := cyc_inj ord hn _ _ (Nat.mod_lt _ hpos) (Nat.mod_lt _ hpos) h
  have h4 : (i + k) % ord.length = (i % ord.length + k) % ord.length := by
    rw [Nat.mod_add_mod]
  rw [h4] at h3
  have h5 : i % ord.length < ord.length := Nat.mod_lt _ hpos
  by_cases h6 : i % ord.length + k < ord.length
  · rw [Nat.mod_eq_of_lt h6] at h3; omega
  · have h7 : (i % ord.length + k) % ord.length = i % ord.length + k - ord.length := by
      rw [Nat.mod_eq_sub_mod (by omega)]
      exact Nat.mod_eq_of_lt (by omega)
    rw [h7] at h3; omega

theorem cyc_next {s : ring_log} {ord : List Nat} (hs : RingShape s ord) (i : Nat) :
    (s.heap (cyc ord i)).next = cyc ord (i + 1) := by
  have hpos := shape_pos hs
  have hi : i % ord.length < ord.length := Nat.mod_lt _ hpos
  have h1 := linked_getD s.heap ord s._prst_buf hs.linked _ hi
  show (s.heap (ord.getD (i % ord.length) 0)).next = _
  rw [h1]
  have h4 : (i + 1) % ord.length = (i % ord.length + 1) % ord.length := by
    rw [Nat.mod_add_mod]
  by_cases h6 : i % ord.length + 1 < ord.length
  · unfold cyc
    rw [h4, Nat.mod_eq_of_lt h6, List.getD_eq_getElem _ _ h6, List.getD_eq_getElem _ _ h6]
  · have h7 : i % ord.length + 1 = ord.length := by omega
    unfold cyc
    rw [h4, h7, Nat.mod_self, List.getD_eq_default _ _ (Nat.le_refl _)]
    exact (cyc_zero hs).symm

theorem cyc_lt {s : ring_log} {ord : List Nat} (hs : RingShape s ord) (i : Nat) :
    cyc ord i < s._buff_cnt :=
  (hs.mem _).1 (cyc_mem_ord ord i (shape_pos hs))

theorem cyc_prev {s : ring_log} {ord : List Nat} (hs : RingShape s ord) (i : Nat) :
    (s.heap (cyc ord (i + 1))).prev = cyc ord i := by
  rw [← cyc_next hs i]
  exact hs.back _ (cyc_lt hs i)

theorem walk_next_cyc {s : ring_log} {ord : List Nat} (hs : RingShape s ord) (k : Nat) :
    ∀ i, walk_next s.heap k (cyc ord i) = cyc ord (i + k) := by
  induction k with
  | zero => intro i; rfl
  | succ k ih =>
    intro i
    show walk_next s.heap k (s.heap (cyc ord i)).next = _
    rw [cyc_next hs, ih, Nat.add_assoc, Nat.add_comm 1 k]

theorem walk_prev_cyc {s : ring_log} {ord : List Nat} (hs : RingShape s ord) (k : Nat) :
    ∀ i, walk_prev s.heap k (cyc ord (i + k)) = cyc ord i := by
  induction k with
  | zero => intro i; rfl
  | succ k ih =>
    intro i
    show walk_prev s.heap k (s.heap (cyc ord (i + k + 1))).prev = _
    rw [cyc_prev hs, ih]

theorem shape_length {s : ring_log} {ord : List Nat} (hs : RingShape s ord) :
    ord.length = s._buff_cnt := by
  have hp : List.Perm (List.range s._buff_cnt) ord := by
    rw [List.perm_ext_iff_of_nodup (List.nodup_range _) hs.nodup]
    intro a; rw [hs.mem a, List.mem_range]
  rw [← hp.length_eq, List.length_range]

theorem shape_congr {s s2 : ring_log} {ord : List Nat} (hs : RingShape s ord)
    (hn : s2._buff_cnt = s._buff_cnt) (hp : s2._prst_buf = s._prst_buf)
    (hnx : ∀ a, (s2.heap a).next = (s.heap a).next)
    (hpv : ∀ a, (s2.heap a).prev = (s.heap a).prev) : RingShape s2 ord := by
  refine ⟨hs.nodup, ?_, ?_, ?_, ?_⟩
  · intro a; rw [hn]; exact hs.mem a
  · rw [hp]; exact linked_congr s.heap _ _ _ (fun a _ => hnx a) hs.linked
  · rw [hp]; exact hs.head
  · intro a ha
    rw [hn] at ha
    rw [hnx, hpv]; exact hs.back a ha

theorem shape_next_lt {s : ring_log} {ord : List Nat} (hs : RingShape s ord) (a : Nat)
    (ha : a < s._buff_cnt) : (s.heap a).next < s._buff_cnt := by
  obtain ⟨i, _, rfl⟩ := cyc_of_mem ord a ((hs.mem a).2 ha)
  rw [cyc_next hs]; exact cyc_lt hs _

theorem shape_head_eq {s : ring_log} {p : Nat} {t : List Nat} (hs : RingShape s (p :: t)) :
    s._prst_buf = p := by
  have := hs.head
  simp only [List.head?_cons, Option.some.injEq] at this
  exact this.symm

theorem shape_prst_lt {s : ring_log} {ord : List Nat} (hs : RingShape s ord) :
    s._prst_buf < s._buff_cnt :=
  (hs.mem _).1 (List.mem_of_mem_head? hs.head)

theorem shape_rotate {s s2 : ring_log} {p : Nat} {t : List Nat} (hs : RingShape s (p :: t))
    (hn : s2._buff_cnt = s._buff_cnt) (hp : s2._prst_buf = (s.heap p).next)
    (hnx : ∀ a, (s2.heap a).next = (s.heap a).next)
    (hpv : ∀ a, (s2.heap a).prev = (s.heap a).prev) : RingShape s2 (t ++ [p]) := by
  have hC := shape_head_eq hs
  have hl := hs.linked
  rw [hC] at hl
  have hl1 : (s.heap p).next = t.headD p := hl.1
  refine ⟨?_, ?_, ?_, ?_, ?_⟩
  · rw [List.nodup_append_comm]; exact hs.nodup
  · intro a
    rw [hn, ← hs.mem a]
    simp only [List.mem_append, List.mem_singleton, List.mem_cons]
    tauto
  · rw [linked_append]
    refine ⟨linked_congr s.heap _ _ _ (fun a _ => hnx a) hl.2, ?_, trivial⟩
    show (s2.heap p).next = s2._prst_buf
    rw [hnx, hp]
  · rw [hp, hl1]
    cases t <;> rfl
  · intro a ha
    rw [hn] at ha
    rw [hnx, hpv]; exact hs.back a ha

theorem shape_last_next {s : ring_log} {l : List Nat} {c : Nat}
    (hs : RingShape s (l ++ [c])) : (s.heap c).next = s._prst_buf :=
  ((linked_append _ _ _ _).1 hs.linked).2.1

theorem shape_grow {s s2 : ring_log} {l : List Nat} {c : Nat} (hs : RingShape s (l ++ [c]))
    (hn : s2._buff_cnt = s._buff_cnt + 1) (hp : s2._prst_buf = s._prst_buf)
    (hnc : (s2.heap c).next = s._buff_cnt)
    (hnn : (s2.heap s._buff_cnt).next = s._prst_buf)
    (hno : ∀ a, a ≠ c → a ≠ s._buff_cnt → (s2.heap a).next = (s.heap a).next)
    (hpn : (s2.heap s._buff_cnt).prev = c)
    (hpp : (s2.heap s._prst_buf).prev = s._buff_cnt)
    (hpo : ∀ a, a ≠ s._prst_buf → a ≠ s._buff_cnt → (s2.heap a).prev = (s.heap a).prev) :
    RingShape s2 ((l ++ [c]) ++ [s._buff_cnt]) := by
  have hlt : ∀ a ∈ l ++ [c], a < s._buff_cnt := fun a ha => (hs.mem a).1 ha
  have hc : c < s._buff_cnt := hlt c (by simp)
  have hcn := shape_last_next hs
  refine ⟨?_, ?_, ?_, ?_, ?_⟩
  · rw [List.nodup_append]
    refine ⟨hs.nodup, List.nodup_singleton _, ?_⟩
    intro a ha hb
    have := hlt a ha
    simp only [List.mem_singleton] at hb
    omega
  · intro a
    rw [hn, List.mem_append, List.mem_singleton, hs.mem a]
    omega
  · rw [hp, linked_append]
    refine ⟨?_, hnn, trivial⟩
    have h0 := (linked_append _ _ _ _).1 hs.linked
    rw [linked_append]
    refine ⟨linked_congr s.heap _ _ _ ?_ h0.1, hnc, trivial⟩
    intro a ha
    have h1 : a ≠ c := by
      intro h; subst h
      exact (List.nodup_append.mp hs.nodup).2.2 ha (List.mem_singleton_self _)
    have h2 := hlt a (List.mem_append_left _ ha)
    exact hno a h1 (by omega)
  · rw [hp, List.head?_append_of_ne_nil _ (by simp)]; exact hs.head
  · intro a ha
    rw [hn] at ha
    by_cases h1 : a = s._buff_cnt
    · subst h1; rw [hnn, hpp]
    · by_cases h2 : a = c
      · subst h2; rw [hnc, hpn]
      · have h3 : a < s._buff_cnt := by omega
        rw [hno a h2 h1]
        have h4 := shape_next_lt hs a h3
        have h5 : (s.heap a).next ≠ s._prst_buf := by
          intro h6
          have h7 := hs.back a h3
          have h8 := hs.back c hc
          rw [h6] at h7
          rw [hcn] at h8
          exact h2 (h7.symm.trans h8)
        rw [hpo _ h5 (by omega)]
        exact hs.back a h3

theorem modes_congr {s s2 : ring_log} {ord : List Nat} (hm : Modes s ord) (hnd : ord.Nodup)
    (hc : s2._curr_buf = s._curr_buf) (hp : s2._prst_buf = s._prst_buf)
    (hst : ∀ a, (s2.heap a).status = (s.heap a).status)
    (hu : ∀ a, a ≠ s._curr_buf → (s2.heap a)._used_len = (s.heap a)._used_len) :
    Modes s2 ord := by
  rcases hm with ⟨fulls, frees, ho, hf, hP, hr⟩ | ⟨h1, h2⟩
  · left
    refine ⟨fulls, frees, by rw [hc]; exact ho, ?_, ?_, ?_⟩
    · intro a ha; rw [hst]; exact hf a ha
    · rw [hc, hst]; exact hP
    · intro a ha
      have hne : a ≠ s._curr_buf := by
        intro h; subst h
        rw [ho] at hnd
        exact (List.nodup_cons.mp (List.nodup_append.mp hnd).2.1).1 ha
      rw [hst, hu a hne]; exact hr a ha
  · right
    refine ⟨by rw [hc, hp]; exact h1, ?_⟩
    intro a ha; rw [hst]; exact h2 a ha

theorem upd_seal_status_full (h : Nat → cell_buffer) (x a : Nat)
    (hf : (h a).status = FULL) :
    (upd h x (fun c => { c with status := FULL }) a).status = FULL := by
  by_cases ha : a = x
  · subst ha; simp
  · rw [upd_other _ _ _ _ ha]; exact hf

@[simp] theorem upd_clear_prev (h : Nat → cell_buffer) (x a : Nat) :
    (upd h x (fun c => c.clear) a).prev = (h a).prev := by
  unfold upd; split <;> simp_all [cell_buffer.clear]

theorem inv_init (B : Nat) : Inv (ctor B) false [0, 1, 2] := by
  refine ⟨⟨by decide, ?_, ⟨rfl, rfl, rfl, trivial⟩, rfl, ?_⟩, ?_, ?_, by decide⟩
  · intro a
    show a ∈ [0, 1, 2] ↔ a < 3
    simp only [List.mem_cons, List.mem_singleton, List.not_mem_nil, or_false]
    omega
  · intro a ha
    have h3 : a < 3 := ha
    have : a = 0 ∨ a = 1 ∨ a = 2 := by omega
    rcases this with rfl | rfl | rfl <;> rfl
  · left
    refine ⟨[], [1, 2], rfl, ?_, rfl, ?_⟩
    · intro a ha; cases ha
    · intro a ha
      simp only [List.mem_cons, List.mem_singleton, List.not_mem_nil, or_false] at ha
      rcases ha with rfl | rfl <;> exact ⟨rfl, rfl⟩
  · intro h; cases h

theorem inv_fast {s : ring_log} {w : Bool} {ord : List Nat} (now_sec : Nat)
    (log_line : Nat → Byte) (len : Nat) (hi : Inv s w ord) (hb : s.backoff now_sec = false)
    (hfree : (s.heap s._curr_buf).status = FREE)
    (hfit : len ≤ (s.heap s._curr_buf).avail_len) :
    Inv (try_append s now_sec log_line len).1 w ord := by
  rw [try_append_fast s now_sec log_line len hb hfree hfit]
  refine ⟨shape_congr hi.shape rfl rfl (fun a => ?_) (fun a => ?_),
    modes_congr hi.modes hi.shape.nodup rfl rfl (fun a => ?_) (fun a ha => ?_), ?_, hi.three⟩
  · simp
  · simp
  · simp
  · dsimp only
    rw [upd_other _ _ _ _ ha]
  · intro hw
    dsimp only
    rw [upd_append_status]; exact hi.busy hw

theorem inv_full {s : ring_log} {w : Bool} {ord : List Nat} (now_sec : Nat)
    (log_line : Nat → Byte) (len : Nat) (hi : Inv s w ord) (hb : s.backoff now_sec = false)
    (hfull : (s.heap s._curr_buf).status = FULL) :
    Inv (try_append s now_sec log_line len).1 w ord := by
  rw [try_append_full s now_sec log_line len hb hfull]
  exact ⟨shape_congr hi.shape rfl rfl (fun _ => rfl) (fun _ => rfl),
    modes_congr hi.modes hi.shape.nodup rfl rfl (fun _ => rfl) (fun _ _ => rfl), hi.busy,
    hi.three⟩

theorem inv_next_free {s : ring_log} {w : Bool} {ord fulls frees : List Nat} {q : Nat}
    (now_sec : Nat) (log_line : Nat → Byte) (len : Nat) (hi : Inv s w ord)
    (hb : s.backoff now_sec = false) (hfit : (s.heap s._curr_buf).avail_len < len)
    (ho : ord = fulls ++ s._curr_buf :: q :: frees)
    (hf : ∀ a ∈ fulls, (s.heap a).status = FULL)
    (hP : (s.heap s._curr_buf).status = FREE)
    (hr : ∀ a ∈ q :: frees, (s.heap a).status = FREE ∧ (s.heap a)._used_len = 0) :
    Inv (try_append s now_sec log_line len).1 w ord := by
  have hnd := hi.shape.nodup
  rw [ho] at hnd
  have hl := hi.shape.linked
  rw [ho] at hl
  have hnx : (s.heap s._curr_buf).next = q := ((linked_append _ _ _ _).1 hl).2.1
  have hnd2 := (List.nodup_append.mp hnd).2.1
  have hqP : q ≠ s._curr_buf := by
    intro h
    exact (List.nodup_cons.mp hnd2).1 (h ▸ List.mem_cons_self _ _)
  have hfP : ∀ a ∈ fulls, a ≠ s._curr_buf := by
    intro a ha h; subst h
    exact (List.nodup_append.mp hnd).2.2 ha (List.mem_cons_self _ _)
  have hrP : ∀ a ∈ frees, a ≠ s._curr_buf ∧ a ≠ q := by
    intro a ha
    constructor
    · intro h; subst h
      exact (List.nodup_cons.mp hnd2).1 (List.mem_cons_of_mem _ ha)
    · intro h; subst h
      exact (List.nodup_cons.mp (List.nodup_cons.mp hnd2).2).1 ha
  rw [try_append_next_free s now_sec log_line len hb hP hfit (by rw [hnx]; exact hqP)
    (by rw [hnx]; exact (hr q (List.mem_cons_self _ _)).1), hnx]
  refine ⟨shape_congr hi.shape rfl rfl (fun a => ?_) (fun a => ?_), ?_, ?_, hi.three⟩
  · simp
  · simp
  · left
    refine ⟨fulls ++ [s._curr_buf], frees, by rw [ho]; simp, ?_, ?_, ?_⟩
    · intro a ha
      dsimp only
      rw [upd_append_status]
      rcases List.mem_append.mp ha with h | h
      · exact upd_seal_status_full _ _ _ (hf a h)
      · simp only [List.mem_singleton] at h
        subst h; simp
    · dsimp only
      rw [upd_append_status, upd_other _ _ _ _ hqP]
      exact (hr q (List.mem_cons_self _ _)).1
    · intro a ha
      dsimp only
      rw [upd_other _ _ _ _ (hrP a ha).2, upd_other _ _ _ _ (hrP a ha).1]
      exact hr a (List.mem_cons_of_mem _ ha)
  · intro hw
    dsimp only
    rw [upd_append_status]
    exact upd_seal_status_full _ _ _ (hi.busy hw)

theorem last_next_alt {s : ring_log} {w : Bool} {ord fulls : List Nat} (hi : Inv s w ord)
    (ho : ord = fulls ++ [s._curr_buf])
    (hf : ∀ a ∈ fulls, (s.heap a).status = FULL) :
    (s.heap s._curr_buf).next = s._prst_buf
      ∧ ((s.heap s._curr_buf).next = s._curr_buf
        ∨ (s.heap (s.heap s._curr_buf).next).status = FULL) := by
  have hs := hi.shape
  rw [ho] at hs
  have hnx := shape_last_next hs
  refine ⟨hnx, ?_⟩
  have hh := hs.head
  cases fulls with
  | nil =>
    left
    simp only [List.nil_append, List.head?_cons, Option.some.injEq] at hh
    rw [hnx, hh]
  | cons a l =>
    right
    simp only [List.cons_append, List.head?_cons, Option.some.injEq] at hh
    rw [hnx, ← hh]
    exact hf a (List.mem_cons_self _ _)

theorem inv_over {s : ring_log} {w : Bool} {ord fulls : List Nat}
    (now_sec : Nat) (log_line : Nat → Byte) (len : Nat) (hi : Inv s w ord)
    (hb : s.backoff now_sec = false) (hfit : (s.heap s._curr_buf).avail_len < len)
    (ho : ord = fulls ++ [s._curr_buf])
    (hf : ∀ a ∈ fulls, (s.heap a).status = FULL)
    (hP : (s.heap s._curr_buf).status = FREE) (hov : s.over_limit = true) :
    Inv (try_append s now_sec log_line len).1 w ord := by
  obtain ⟨hnx, halt⟩ := last_next_alt hi ho hf
  have hall : ∀ a ∈ ord,
      (upd s.heap s._curr_buf (fun c => { c with status := FULL }) a).status = FULL := by
    intro a ha
    rw [ho] at ha
    rcases List.mem_append.mp ha with h | h
    · exact upd_seal_status_full _ _ _ (hf a h)
    · simp only [List.mem_singleton] at h
      subst h; simp
  rw [try_append_over s now_sec log_line len hb hP hfit halt hov]
  by_cases hnow : now_sec = 0
  · simp only [hnow, if_true]
    refine ⟨shape_congr hi.shape rfl rfl (fun a => ?_) (fun a => ?_), ?_, ?_, hi.three⟩
    · simp
    · simp
    · right
      refine ⟨hnx, ?_⟩
      intro a ha
      dsimp only
      rw [upd_append_status]; exact hall a ha
    · intro hw
      dsimp only
      rw [upd_append_status]
      exact upd_seal_status_full _ _ _ (hi.busy hw)
  · simp only [hnow, if_false]
    refine ⟨shape_congr hi.shape rfl rfl (fun a => ?_) (fun a => ?_), ?_, ?_, hi.three⟩
    · simp
    · simp
    · right
      exact ⟨hnx, hall⟩
    · intro hw
      exact upd_seal_status_full _ _ _ (hi.busy hw)

theorem grow_links (s : ring_log) (now_sec : Nat) (log_line : Nat → Byte) (len : Nat)
    (hb : s.backoff now_sec = false) (hfree : (s.heap s._curr_buf).status = FREE)
    (hfit : (s.heap s._curr_buf).avail_len < len)
    (hnext : (s.heap s._curr_buf).next = s._curr_buf
      ∨ (s.heap (s.heap s._curr_buf).next).status = FULL)
    (hover : s.over_limit = false)
    (hP : s._curr_buf < s._buff_cnt) (hN : (s.heap s._curr_buf).next < s._buff_cnt) :
    (try_append s now_sec log_line len).1._buff_cnt = s._buff_cnt + 1
      ∧ (try_append s now_sec log_line len).1._curr_buf = s._buff_cnt
      ∧ (try_append s now_sec log_line len).1._prst_buf = s._prst_buf
      ∧ (∀ a, a ≠ s._curr_buf → a ≠ s._buff_cnt →
          ((try_append s now_sec log_line len).1.heap a).status = (s.heap a).status
          ∧ ((try_append s now_sec log_line len).1.heap a).next = (s.heap a).next)
      ∧ (∀ a, a ≠ (s.heap s._curr_buf).next → a ≠ s._buff_cnt →
          ((try_append s now_sec log_line len).1.heap a).prev = (s.heap a).prev)
      ∧ (∀ a, a ≠ s._buff_cnt →
          ((try_append s now_sec log_line len).1.heap a)._used_len = (s.heap a)._used_len
          ∧ ((try_append s now_sec log_line len).1.heap a)._total_len = (s.heap a)._total_len)
      ∧ ((try_append s now_sec log_line len).1.heap s._curr_buf).status = FULL
      ∧ ((try_append s now_sec log_line len).1.heap s._curr_buf).next = s._buff_cnt
      ∧ ((try_append s now_sec log_line len).1.heap s._buff_cnt).status = FREE
      ∧ ((try_append s now_sec log_line len).1.heap s._buff_cnt).next
          = (s.heap s._curr_buf).next
      ∧ ((try_append s now_sec log_line len).1.heap s._buff_cnt).prev = s._curr_buf
      ∧ ((try_append s now_sec log_line len).1.heap (s.heap s._curr_buf).next).prev
          = s._buff_cnt := by
  have hPn : s._curr_buf ≠ s._buff_cnt := by omega
  have hNn : (s.heap s._curr_buf).next ≠ s._buff_cnt := by omega
  rw [try_append_grow s now_sec log_line len hb hfree hfit hnext hover]
  refine ⟨rfl, rfl, rfl, ?_, ?_, ?_, ?_, ?_, ?_, ?_, ?_, ?_⟩
  · intro a h1 h2
    simp [upd_other _ _ _ _ h1, upd_other _ _ _ _ h2, alloc_other _ _ _ _ h2]
  · intro a h1 h2
    simp [upd_other _ _ _ _ h1, upd_other _ _ _ _ h2, alloc_other _ _ _ _ h2]
  · intro a h2
    simp [upd_other _ _ _ _ h2, alloc_other _ _ _ _ h2]
  · simp [upd_other _ _ _ _ hPn, alloc_other _ _ _ _ hPn]
  · simp [upd_other _ _ _ _ hPn, alloc_other _ _ _ _ hPn]
  · simp [cell_buffer.mk_len, append_status]
  · simp [cell_buffer.mk_len, append_next]
  · simp [cell_buffer.mk_len, append_prev, upd_other _ _ _ _ hNn.symm,
      upd_other _ _ _ _ hPn.symm]
  · simp [upd_other _ _ _ _ hNn]

theorem inv_grow {s : ring_log} {w : Bool} {ord fulls : List Nat}
    (now_sec : Nat) (log_line : Nat → Byte) (len : Nat) (hi : Inv s w ord)
    (hb : s.backoff now_sec = false) (hfit : (s.heap s._curr_buf).avail_len < len)
    (ho : ord = fulls ++ [s._curr_buf])
    (hf : ∀ a ∈ fulls, (s.heap a).status = FULL)
    (hP : (s.heap s._curr_buf).status = FREE) (hov : s.over_limit = false) :
    Inv (try_append s now_sec log_line len).1 w (ord ++ [s._buff_cnt]) := by
  obtain ⟨hnx, halt⟩ := last_next_alt hi ho hf
  have hs := hi.shape
  rw [ho] at hs
  have hlt : ∀ a ∈ fulls ++ [s._curr_buf], a < s._buff_cnt := fun a ha => (hs.mem a).1 ha
  have hc : s._curr_buf < s._buff_cnt := hlt _ (by simp)
  have hC : s._prst_buf < s._buff_cnt := shape_prst_lt hs
  obtain ⟨hn, hcur, hprst, hoth, hpo, hus, hcs, hcn, hns, hnn, hnp, hpp⟩ :=
    grow_links s now_sec log_line len hb hP hfit halt hov hc (by rw [hnx]; exact hC)
  rw [hnx] at hpo hnn hpp
  have hfP : ∀ a ∈ fulls, a ≠ s._curr_buf := by
    intro a ha h; subst h
    exact (List.nodup_append.mp hs.nodup).2.2 ha (List.mem_singleton_self _)
  refine ⟨?_, ?_, ?_, ?_⟩
  · rw [ho]
    exact shape_grow hs hn hprst hcn hnn (fun a h1 h2 => (hoth a h1 h2).2) hnp hpp hpo
  · left
    refine ⟨fulls ++ [s._curr_buf], [], by rw [ho, hcur], ?_, ?_, ?_⟩
    · intro a ha
      rcases List.mem_append.mp ha with h | h
      · have := hlt a (List.mem_append_left _ h)
        rw [(hoth a (hfP a h) (by omega)).1]; exact hf a h
      · simp only [List.mem_singleton] at h
        subst h; exact hcs
    · rw [hcur]; exact hns
    · intro a ha; cases ha
  · intro hw
    rw [hprst]
    by_cases h : s._prst_buf = s._curr_buf
    · rw [h]; exact hcs
    · rw [(hoth _ h (by omega)).1]; exact hi.busy hw
  · have := hi.three
    simp only [List.length_append, List.length_singleton]
    omega

theorem inv_produce {s : ring_log} {w : Bool} {ord : List Nat} (now_sec : Nat)
    (log_line : Nat → Byte) (len : Nat) (hi : Inv s w ord) :
    ∃ ord2, Inv (try_append s now_sec log_line len).1 w ord2 := by
  cases hb : s.backoff now_sec
  · cases hst : (s.heap s._curr_buf).status
    · by_cases hfit : len ≤ (s.heap s._curr_buf).avail_len
      · exact ⟨ord, inv_fast now_sec log_line len hi hb hst hfit⟩
      · have hfit2 : (s.heap s._curr_buf).avail_len < len := by omega
        rcases hi.modes with ⟨fulls, frees, ho, hf, hP, hr⟩ | ⟨h1, h2⟩
        · cases frees with
          | nil =>
            cases hov : s.over_limit
            · exact ⟨_, inv_grow now_sec log_line len hi hb hfit2 ho hf hP hov⟩
            · exact ⟨_, inv_over now_sec log_line len hi hb hfit2 ho hf hP hov⟩
          | cons q frees =>
            exact ⟨ord, inv_next_free now_sec log_line len hi hb hfit2 ho hf hP hr⟩
        · have := h2 _ (List.mem_of_mem_head? hi.shape.head)
          rw [← h1, hst] at this
          cases this
    · exact ⟨ord, inv_full now_sec log_line len hi hb hst⟩
  · rw [try_append_gate s now_sec log_line len hb]; exact ⟨ord, hi⟩

theorem promote_facts {s : ring_log} {w : Bool} {ord : List Nat} (hi : Inv s w ord)
    (hst : (s.heap s._prst_buf).status = FREE) :
    s._curr_buf = s._prst_buf
      ∧ ∃ q frees, ord = s._prst_buf :: q :: frees ∧ (s.heap s._prst_buf).next = q
        ∧ ∀ a ∈ q :: frees, (s.heap a).status = FREE ∧ (s.heap a)._used_len = 0 := by
  have hh := hi.shape.head
  rcases hi.modes with ⟨fulls, frees, ho, hf, hP, hr⟩ | ⟨h1, h2⟩
  · cases fulls with
    | nil =>
      rw [ho] at hh
      simp only [List.nil_append, List.head?_cons, Option.some.injEq] at hh
      refine ⟨hh, ?_⟩
      cases frees with
      | nil =>
        have := hi.three
        rw [ho] at this
        simp at this
      | cons q frees =>
        have hl := hi.shape.linked
        rw [ho] at hl
        refine ⟨q, frees, by rw [ho, ← hh]; rfl, ?_, hr⟩
        rw [← hh]; exact hl.1
    | cons a l =>
      rw [ho] at hh
      simp only [List.cons_append, List.head?_cons, Option.some.injEq] at hh
      have := hf a (List.mem_cons_self _ _)
      rw [hh, hst] at this
      cases this
  · have := h2 _ (List.mem_of_mem_head? hh)
    rw [hst] at this
    cases this

theorem inv_promote {s : ring_log} {ord : List Nat} (hi : Inv s false ord)
    (hst : (s.heap s._prst_buf).status = FREE) :
    Inv { s with heap := upd s.heap s._prst_buf (fun c => { c with status := FULL })
                 _curr_buf := (s.heap s._prst_buf).next } true ord := by
  obtain ⟨hc, q, frees, ho, hq, hr⟩ := promote_facts hi hst
  have hnd := hi.shape.nodup
  rw [ho] at hnd
  have hne : ∀ a ∈ q :: frees, a ≠ s._prst_buf := by
    intro a ha h; subst h
    exact (List.nodup_cons.mp hnd).1 ha
  refine ⟨shape_congr hi.shape rfl rfl (fun a => ?_) (fun a => ?_), ?_, ?_, hi.three⟩
  · simp
  · simp
  · left
    refine ⟨[s._prst_buf], frees, by rw [ho, hq]; rfl, ?_, ?_, ?_⟩
    · intro a ha
      simp only [List.mem_singleton] at ha
      subst ha; simp
    · dsimp only
      rw [hq, upd_other _ _ _ _ (hne q (List.mem_cons_self _ _))]
      exact (hr q (List.mem_cons_self _ _)).1
    · intro a ha
      dsimp only
      rw [upd_other _ _ _ _ (hne a (List.mem_cons_of_mem _ ha))]
      exact hr a (List.mem_cons_of_mem _ ha)
  · intro _
    simp

theorem inv_select {s s1 : ring_log} {b : Bool} {ord : List Nat} (hi : Inv s false ord)
    (h : s.persist_select = some (s1, b)) : Inv s1 b ord := by
  cases hE : (s.heap s._prst_buf).empty
  · cases hst : (s.heap s._prst_buf).status
    · by_cases hc : s._curr_buf = s._prst_buf
      · rw [persist_select_promote s hE hst hc] at h
        simp only [Option.some.injEq, Prod.mk.injEq] at h
        obtain ⟨rfl, rfl⟩ := h
        exact inv_promote hi hst
      · rw [persist_select_abort s hE hst hc] at h; cases h
    · rw [persist_select_full s hE hst] at h
      simp only [Option.some.injEq, Prod.mk.injEq] at h
      obtain ⟨rfl, rfl⟩ := h
      exact ⟨hi.shape, hi.modes, fun _ => hst, hi.three⟩
  · rw [persist_select_empty s hE] at h
    simp only [Option.some.injEq, Prod.mk.injEq] at h
    obtain ⟨rfl, rfl⟩ := h
    exact hi

theorem persist_release_eq (s : ring_log) :
    s.persist_release
      = { s with heap := upd s.heap s._prst_buf (fun c => c.clear)
                 _prst_buf := (s.heap s._prst_buf).next } := by
  simp [persist_release, cell_buffer.clear]

theorem inv_release {s : ring_log} {ord : List Nat} (hi : Inv s true ord) :
    ∃ ord2, Inv s.persist_release false ord2 := by
  have hbusy := hi.busy rfl
  rw [persist_release_eq]
  cases hord : ord with
  | nil =>
    have := hi.three
    rw [hord] at this
    simp at this
  | cons p t =>
    have hs := hi.shape
    rw [hord] at hs
    have hC := shape_head_eq hs
    have hpt : ∀ a ∈ t, a ≠ s._prst_buf := by
      intro a ha h
      rw [hC] at h; subst h
      exact (List.nodup_cons.mp hs.nodup).1 ha
    have hclr : (upd s.heap s._prst_buf (fun c => c.clear) p).status = FREE
        ∧ (upd s.heap s._prst_buf (fun c => c.clear) p)._used_len = 0 := by
      rw [← hC]; simp [cell_buffer.clear]
    refine ⟨t ++ [p], shape_rotate hs rfl (by rw [hC]) (fun a => ?_) (fun a => ?_), ?_, ?_, ?_⟩
    · simp
    · simp
    · rcases hi.modes with ⟨fulls, frees, ho, hf, hP, hr⟩ | ⟨h1, h2⟩
      · rw [hord] at ho
        cases fulls with
        | nil =>
          simp only [List.nil_append, List.cons.injEq] at ho
          rw [← ho.1, ← hC, hbusy] at hP
          cases hP
        | cons a l =>
          simp only [List.cons_append, List.cons.injEq] at ho
          obtain ⟨rfl, rfl⟩ := ho
          left
          refine ⟨l, frees ++ [p], by simp, ?_, ?_, ?_⟩
          · intro a ha
            dsimp only
            rw [upd_other _ _ _ _ (hpt a (by simp [ha]))]
            exact hf a (List.mem_cons_of_mem _ ha)
          · dsimp only
            rw [upd_other _ _ _ _ (hpt _ (by simp))]
            exact hP
          · intro a ha
            dsimp only
            rcases List.mem_append.mp ha with h | h
            · rw [upd_other _ _ _ _ (hpt a (by simp [h]))]
              exact hr a h
            · simp only [List.mem_singleton] at h
              subst h; exact hclr
      · left
        refine ⟨t, [], by rw [h1, hC], ?_, ?_, ?_⟩
        · intro a ha
          dsimp only
          rw [upd_other _ _ _ _ (hpt a ha)]
          exact h2 a (by rw [hord]; exact List.mem_cons_of_mem _ ha)
        · dsimp only
          rw [h1]; simp [cell_buffer.clear]
        · intro a ha; cases ha
    · intro h; cases h
    · have := hi.three
      rw [hord] at this
      simp only [List.length_append, List.length_singleton, List.length_cons] at this ⊢
      exact this

theorem reach_inv {B : Nat} {ok : Nat → Prop} {s : ring_log} {w : Bool}
    (hr : Reach B ok s w) : ∃ ord, Inv s w ord := by
  induction hr with
  | init => exact ⟨_, inv_init B⟩
  | produce s w t p len _ _ ih =>
    obtain ⟨ord, hi⟩ := ih
    exact inv_produce t p len hi
  | select_skip s s1 _ h ih =>
    obtain ⟨ord, hi⟩ := ih
    exact ⟨ord, inv_select hi h⟩
  | select_go s s1 _ h ih =>
    obtain ⟨ord, hi⟩ := ih
    exact ⟨ord, inv_select hi h⟩
  | file_fail s _ ih =>
    obtain ⟨ord, hi⟩ := ih
    exact ⟨ord, hi.shape, hi.modes, (fun h => by cases h), hi.three⟩
  | release s _ ih =>
    obtain ⟨ord, hi⟩ := ih
    exact inv_release hi

theorem reach_mono {B : Nat} {ok ok2 : Nat → Prop} (hok : ∀ len, ok len → ok2 len)
    {s : ring_log} {w : Bool} (hr : Reach B ok s w) : Reach B ok2 s w := by
  induction hr with
  | init => exact Reach.init
  | produce s w t p len _ h ih => exact Reach.produce s w t p len ih (hok len h)
  | select_skip s s1 _ h ih => exact Reach.select_skip s s1 ih h
  | select_go s s1 _ h ih => exact Reach.select_go s s1 ih h
  | file_fail s _ ih => exact Reach.file_fail s ih
  | release s _ ih => exact Reach.release s ih

theorem reach_produce {B : Nat} {ok : Nat → Prop} (calls : List (Nat × (Nat → Byte) × Nat)) :
    ∀ (s : ring_log) (w : Bool), Reach B ok s w → (∀ call ∈ calls, ok call.2.2) →
      Reach B ok (produce s calls) w := by
  induction calls with
  | nil => intro s w hr _; exact hr
  | cons call rest ih =>
    intro s w hr hok
    exact ih _ w (Reach.produce s w call.1 call.2.1 call.2.2 hr (hok call (List.mem_cons_self _ _)))
      (fun c hc => hok c (List.mem_cons_of_mem _ hc))

theorem append_sized (c : cell_buffer) (p : Nat → Byte) (len B : Nat)
    (h1 : c._total_len = B) (h2 : c._used_len ≤ B) (hB : B < U32) :
    (c.append p len)._total_len = B ∧ (c.append p len)._used_len ≤ B
      ∧ c._used_len ≤ (c.append p len)._used_len := by
  rw [append_total_len]
  by_cases h : c.avail_len < len
  · rw [append_of_lt c p len h]; exact ⟨h1, h2, Nat.le_refl _⟩
  · have hu : c._used_len ≤ c._total_len := by omega
    have ht : c._total_len < U32 := by omega
    have ha := avail_len_of_le c hu ht
    rw [append_used_len c p len hu ht (by omega)]
    exact ⟨h1, by omega, by omega⟩

theorem upd_append_sized (h : Nat → cell_buffer) (x a : Nat) (p : Nat → Byte) (len B : Nat)
    (h1 : (h a)._total_len = B) (h2 : (h a)._used_len ≤ B) (hB : B < U32) :
    (upd h x (fun c => c.append p len) a)._total_len = B
      ∧ (upd h x (fun c => c.append p len) a)._used_len ≤ B
      ∧ (h a)._used_len ≤ (upd h x (fun c => c.append p len) a)._used_len := by
  by_cases ha : a = x
  · subst ha; rw [upd_same]; exact append_sized _ p len B h1 h2 hB
  · rw [upd_other _ _ _ _ ha]; exact ⟨h1, h2, Nat.le_refl _⟩

theorem upd_seal_status_cases (h : Nat → cell_buffer) (x a : Nat)
    (hf : (upd h x (fun c => { c with status := FULL }) a).status = FULL) :
    (h a).status = FULL ∨ a = x := by
  by_cases ha : a = x
  · right; exact ha
  · left; rw [upd_other _ _ _ _ ha] at hf; exact hf

theorem grow_new_sized (s : ring_log) (now_sec : Nat) (log_line : Nat → Byte) (len : Nat)
    (hb : s.backoff now_sec = false) (hfree : (s.heap s._curr_buf).status = FREE)
    (hfit : (s.heap s._curr_buf).avail_len < len)
    (hnext : (s.heap s._curr_buf).next = s._curr_buf
      ∨ (s.heap (s.heap s._curr_buf).next).status = FULL)
    (hover : s.over_limit = false)
    (hP : s._curr_buf < s._buff_cnt) (hN : (s.heap s._curr_buf).next < s._buff_cnt)
    (hB : s._one_buff_len < U32) :
    ((try_append s now_sec log_line len).1.heap s._buff_cnt)._total_len = s._one_buff_len
      ∧ ((try_append s now_sec log_line len).1.heap s._buff_cnt)._used_len
          ≤ s._one_buff_len := by
  have hPn : s._curr_buf ≠ s._buff_cnt := by omega
  have hNn : (s.heap s._curr_buf).next ≠ s._buff_cnt := by omega
  rw [try_append_grow s now_sec log_line len hb hfree hfit hnext hover]
  dsimp only
  rw [upd_same]
  have h := append_sized
    (upd (upd (upd (upd (alloc
      (upd s.heap s._curr_buf (fun c => { c with status := FULL }))
        s._buff_cnt s._one_buff_len)
        s._buff_cnt (fun c => { c with prev := s._curr_buf }))
        s._curr_buf (fun c => { c with next := s._buff_cnt }))
        s._buff_cnt (fun c => { c with next := (s.heap s._curr_buf).next }))
        (s.heap s._curr_buf).next (fun c => { c with prev := s._buff_cnt }) s._buff_cnt)
    log_line len s._one_buff_len
    (by simp [cell_buffer.mk_len])
    (by simp [cell_buffer.mk_len]) hB
  exact ⟨h.1, h.2.1⟩

/-- What one call of `try_append` does to the sizes and to the `FULL` cells. -/
theorem produce_frame {s : ring_log} {w : Bool} {ord : List Nat} (now_sec : Nat)
    (log_line : Nat → Byte) (len B : Nat) (hi : Inv s w ord) (hz : Sized s B) (hB : B < U32) :
    (try_append s now_sec log_line len).1._one_buff_len = B
      ∧ ∀ a, a < (try_append s now_sec log_line len).1._buff_cnt →
        ((try_append s now_sec log_line len).1.heap a)._total_len = B
        ∧ ((try_append s now_sec log_line len).1.heap a)._used_len ≤ B
        ∧ (((try_append s now_sec log_line len).1.heap a).status = FULL →
            a < s._buff_cnt
            ∧ (s.heap a)._used_len ≤ ((try_append s now_sec log_line len).1.heap a)._used_len
            ∧ ((s.heap a).status = FULL
              ∨ (a = s._curr_buf ∧ (s.heap a).avail_len < len))) := by
  refine ⟨by rw [try_append_one_buff_len]; exact hz.1, ?_⟩
  have hsame : ∀ a, a < s._buff_cnt →
      (s.heap a)._total_len = B ∧ (s.heap a)._used_len ≤ B
        ∧ ((s.heap a).status = FULL →
            a < s._buff_cnt ∧ (s.heap a)._used_len ≤ (s.heap a)._used_len
            ∧ ((s.heap a).status = FULL
              ∨ (a = s._curr_buf ∧ (s.heap a).avail_len < len))) :=
    fun a ha => ⟨(hz.2 a ha).1, (hz.2 a ha).2, fun hf => ⟨ha, Nat.le_refl _, Or.inl hf⟩⟩
  cases hb : s.backoff now_sec
  · cases hst : (s.heap s._curr_buf).status
    · by_cases hfit : len ≤ (s.heap s._curr_buf).avail_len
      · rw [try_append_fast s now_sec log_line len hb hst hfit]
        intro a ha
        have h := upd_append_sized s.heap s._curr_buf a log_line len B (hz.2 a ha).1
          (hz.2 a ha).2 hB
        refine ⟨h.1, h.2.1, ?_⟩
        intro hf
        dsimp only at hf
        rw [upd_append_status] at hf
        exact ⟨ha, h.2.2, Or.inl hf⟩
      · have hfit2 : (s.heap s._curr_buf).avail_len < len := by omega
        have hseal : ∀ x a, a < s._buff_cnt →
            (upd (upd s.heap s._curr_buf (fun c => { c with status := FULL })) x
                (fun c => c.append log_line len) a)._total_len = B
            ∧ (upd (upd s.heap s._curr_buf (fun c => { c with status := FULL })) x
                (fun c => c.append log_line len) a)._used_len ≤ B
            ∧ ((upd (upd s.heap s._curr_buf (fun c => { c with status := FULL })) x
                (fun c => c.append log_line len) a).status = FULL →
              a < s._buff_cnt
              ∧ (s.heap a)._used_len
                  ≤ (upd (upd s.heap s._curr_buf (fun c => { c with status := FULL })) x
                      (fun c => c.append log_line len) a)._used_len
              ∧ ((s.heap a).status = FULL
                ∨ (a = s._curr_buf ∧ (s.heap a).avail_len < len))) := by
          intro x a ha
          have h := upd_append_sized
            (upd s.heap s._curr_buf (fun c => { c with status := FULL })) x a log_line len B
            (by rw [upd_seal_total_len]; exact (hz.2 a ha).1)
            (by rw [upd_seal_used_len]; exact (hz.2 a ha).2) hB
          rw [upd_seal_used_len] at h
          refine ⟨h.1, h.2.1, ?_⟩
          intro hf
          rw [upd_append_status] at hf
          refine ⟨ha, h.2.2, ?_⟩
          rcases upd_seal_status_cases _ _ _ hf with h3 | h3
          · exact Or.inl h3
          · right; subst h3; exact ⟨rfl, hfit2⟩
        have hseal0 : ∀ a, a < s._buff_cnt →
            (upd s.heap s._curr_buf (fun c => { c with status := FULL }) a)._total_len = B
            ∧ (upd s.heap s._curr_buf (fun c => { c with status := FULL }) a)._used_len ≤ B
            ∧ ((upd s.heap s._curr_buf (fun c => { c with status := FULL }) a).status = FULL →
              a < s._buff_cnt
              ∧ (s.heap a)._used_len
                  ≤ (upd s.heap s._curr_buf (fun c => { c with status := FULL }) a)._used_len
              ∧ ((s.heap a).status = FULL
                ∨ (a = s._curr_buf ∧ (s.heap a).avail_len < len))) := by
          intro a ha
          rw [upd_seal_total_len, upd_seal_used_len]
          refine ⟨(hz.2 a ha).1, (hz.2 a ha).2, ?_⟩
          intro hf
          refine ⟨ha, Nat.le_refl _, ?_⟩
          rcases upd_seal_status_cases _ _ _ hf with h3 | h3
          · exact Or.inl h3
          · right; subst h3; exact ⟨rfl, hfit2⟩
        rcases hi.modes with ⟨fulls, frees, ho, hf, hP, hr⟩ | ⟨h1, h2⟩
        · cases frees with
          | nil =>
            obtain ⟨hnx, halt⟩ := last_next_alt hi ho hf
            have hc : s._curr_buf < s._buff_cnt := (hi.shape.mem _).1 (by rw [ho]; simp)
            have hC : s._prst_buf < s._buff_cnt := shape_prst_lt hi.shape
            cases hov : s.over_limit
            · obtain ⟨hn, hcur, hprst, hoth, hpo, hus, hcs, hcn, hns, hnn, hnp, hpp⟩ :=
                grow_links s now_sec log_line len hb hP hfit2 halt hov hc
                  (by rw [hnx]; exact hC)
              have hnew := grow_new_sized s now_sec log_line len hb hP hfit2 halt hov hc
                (by rw [hnx]; exact hC) (by rw [hz.1]; exact hB)
              rw [hz.1] at hnew
              intro a ha
              rw [hn] at ha
              by_cases h3 : a = s._buff_cnt
              · subst h3
                refine ⟨hnew.1, hnew.2, ?_⟩
                intro hf2
                rw [hns] at hf2
                cases hf2
              · have h4 : a < s._buff_cnt := by omega
                rw [(hus a h3).1, (hus a h3).2]
                refine ⟨(hz.2 a h4).1, (hz.2 a h4).2, ?_⟩
                intro hf2
                refine ⟨h4, Nat.le_refl _, ?_⟩
                by_cases h5 : a = s._curr_buf
                · right; subst h5; exact ⟨rfl, hfit2⟩
                · left; rw [(hoth a h5 h3).1] at hf2; exact hf2
            · rw [try_append_over s now_sec log_line len hb hP hfit2 halt hov]
              by_cases hnow : now_sec = 0
              · simp only [hnow, if_true]
                exact hseal _
              · simp only [hnow, if_false]
                exact hseal0
          | cons q frees =>
            have hnd := hi.shape.nodup
            rw [ho] at hnd
            have hl := hi.shape.linked
            rw [ho] at hl
            have hnx : (s.heap s._curr_buf).next = q := ((linked_append _ _ _ _).1 hl).2.1
            have hqP : q ≠ s._curr_buf := by
              intro h
              exact (List.nodup_cons.mp (List.nodup_append.mp hnd).2.1).1
                (h ▸ List.mem_cons_self _ _)
            rw [try_append_next_free s now_sec log_line len hb hP hfit2
              (by rw [hnx]; exact hqP) (by rw [hnx]; exact (hr q (List.mem_cons_self _ _)).1)]
            exact hseal _
        · have := h2 _ (List.mem_of_mem_head? hi.shape.head)
          rw [← h1, hst] at this
          cases this
    · rw [try_append_full s now_sec log_line len hb hst]
      exact hsame
  · rw [try_append_gate s now_sec log_line len hb]; exact hsame

theorem sized_produce {s : ring_log} {w : Bool} {ord : List Nat} (now_sec : Nat)
    (log_line : Nat → Byte) (len B : Nat) (hi : Inv s w ord) (hz : Sized s B) (hB : B < U32) :
    Sized (try_append s now_sec log_line len).1 B := by
  have h := produce_frame now_sec log_line len B hi hz hB
  exact ⟨h.1, fun a ha => ⟨(h.2 a ha).1, (h.2 a ha).2.1⟩⟩

theorem nz_produce {s : ring_log} {w : Bool} {ord : List Nat} (now_sec : Nat)
    (log_line : Nat → Byte) (len B : Nat) (hi : Inv s w ord) (hz : Sized s B) (hB : B < U32)
    (hlen : len ≤ B) (hnz : NonEmptyFull s) :
    NonEmptyFull (try_append s now_sec log_line len).1 := by
  have h := produce_frame now_sec log_line len B hi hz hB
  intro a ha hf
  obtain ⟨h1, h2, h3⟩ := (h.2 a ha).2.2 hf
  have h4 : 0 < (s.heap a)._used_len := by
    rcases h3 with h3 | ⟨_, h3⟩
    · exact hnz a h1 h3
    · have hc := hz.2 a h1
      have := avail_len_of_le (s.heap a) (by omega) (by omega)
      omega
  omega

theorem sized_select {s s1 : ring_log} {b : Bool} {B : Nat}
    (h : s.persist_select = some (s1, b)) (hz : Sized s B) (hnz : NonEmptyFull s) :
    Sized s1 B ∧ NonEmptyFull s1 := by
  cases hE : (s.heap s._prst_buf).empty
  · cases hst : (s.heap s._prst_buf).status
    · by_cases hc : s._curr_buf = s._prst_buf
      · rw [persist_select_promote s hE hst hc] at h
        simp only [Option.some.injEq, Prod.mk.injEq] at h
        obtain ⟨rfl, rfl⟩ := h
        refine ⟨⟨hz.1, ?_⟩, ?_⟩
        · intro a ha
          dsimp only
          rw [upd_seal_total_len, upd_seal_used_len]
          exact hz.2 a ha
        · intro a ha hf
          dsimp only at hf ⊢
          rw [upd_seal_used_len]
          rcases upd_seal_status_cases _ _ _ hf with h3 | h3
          · exact hnz a ha h3
          · rw [h3]
            have : (s.heap s._prst_buf)._used_len ≠ 0 := by
              simpa [cell_buffer.empty] using hE
            omega
      · rw [persist_select_abort s hE hst hc] at h; cases h
    · rw [persist_select_full s hE hst] at h
      simp only [Option.some.injEq, Prod.mk.injEq] at h
      obtain ⟨rfl, rfl⟩ := h
      exact ⟨hz, hnz⟩
  · rw [persist_select_empty s hE] at h
    simp only [Option.some.injEq, Prod.mk.injEq] at h
    obtain ⟨rfl, rfl⟩ := h
    exact ⟨hz, hnz⟩

theorem sized_release {s : ring_log} {B : Nat} (hz : Sized s B) (hnz : NonEmptyFull s) :
    Sized s.persist_release B ∧ NonEmptyFull s.persist_release := by
  rw [persist_release_eq]
  refine ⟨⟨hz.1, ?_⟩, ?_⟩
  · intro a ha
    dsimp only
    by_cases h : a = s._prst_buf
    · rw [h, upd_same]
      exact ⟨(hz.2 _ (h ▸ ha)).1, Nat.zero_le _⟩
    · rw [upd_other _ _ _ _ h]; exact hz.2 a ha
  · intro a ha hf
    dsimp only at hf ⊢
    by_cases h : a = s._prst_buf
    · rw [h, upd_same] at hf
      cases hf
    · rw [upd_other _ _ _ _ h] at hf ⊢
      exact hnz a ha hf

theorem sized_init (B : Nat) : Sized (ctor B) B ∧ NonEmptyFull (ctor B) := by
  have three : ∀ a, a < (ctor B)._buff_cnt → a = 0 ∨ a = 1 ∨ a = 2 := by
    intro a ha
    have h3 : a < 3 := ha
    omega
  refine ⟨⟨rfl, ?_⟩, ?_⟩
  · intro a ha
    rcases three a ha with rfl | rfl | rfl <;> exact ⟨rfl, Nat.zero_le _⟩
  · intro a ha hf
    rcases three a ha with rfl | rfl | rfl <;> cases hf

theorem reach_sized {B : Nat} (hB : B < U32) {s : ring_log} {w : Bool}
    (hr : Reach B (fun len => len ≤ B) s w) : Sized s B ∧ NonEmptyFull s := by
  induction hr with
  | init => exact sized_init B
  | produce s w t p len hr hlen ih =>
    obtain ⟨ord, hi⟩ := reach_inv hr
    exact ⟨sized_produce t p len B hi ih.1 hB, nz_produce t p len B hi ih.1 hB hlen ih.2⟩
  | select_skip s s1 _ h ih => exact sized_select h ih.1 ih.2
  | select_go s s1 _ h ih => exact sized_select h ih.1 ih.2
  | file_fail s _ ih => exact ih
  | release s _ ih => exact sized_release ih.1 ih.2

theorem cyc_fulls (fulls frees : List Nat) (c i : Nat) (hi : i < fulls.length) :
    cyc (fulls ++ c :: frees) i ∈ fulls := by
  have h1 : i < (fulls ++ c :: frees).length := by
    simp only [List.length_append, List.length_cons]; omega
  unfold cyc
  rw [Nat.mod_eq_of_lt h1, List.getD_append _ _ _ _ hi, List.getD_eq_getElem _ _ hi]
  exact List.getElem_mem _

theorem cyc_cur (fulls frees : List Nat) (c : Nat) :
    cyc (fulls ++ c :: frees) fulls.length = c := by
  have h1 : fulls.length < (fulls ++ c :: frees).length := by
    simp only [List.length_append, List.length_cons]; omega
  unfold cyc
  rw [Nat.mod_eq_of_lt h1, List.getD_append_right _ _ _ _ (Nat.le_refl _), Nat.sub_self]
  rfl

theorem reach_S2_state (ok : Nat → Prop) (h60 : ok 60) : Reach 100 ok S2_state false :=
  reach_produce [(7, fun _ => 65, 60)] (ring_log.ctor 100) false Reach.init
    (by intro call hc
        simp only [List.mem_singleton] at hc
        subst hc; exact h60)

theorem reach_S2_sealed (ok : Nat → Prop) (h60 : ok 60) (h50 : ok 50) :
    Reach 100 ok S2_sealed false :=
  reach_produce [(7, fun _ => 65, 60), (8, fun _ => 66, 50)] (ring_log.ctor 100) false Reach.init
    (by intro call hc
        simp only [List.mem_cons, List.mem_singleton, List.not_mem_nil, or_false] at hc
        rcases hc with rfl | rfl
        · exact h60
        · exact h50)

theorem reach_S4_state_900 :
    Reach 943718400 (fun _ => True) S4_state_900 false :=
  reach_produce _ (ring_log.ctor 943718400) false Reach.init (fun _ _ => trivial)

end reach_lemmas

section gate_lemmas

open cell_buffer ring_log

theorem inv_cur_lt {s : ring_log} {w : Bool} {ord : List Nat} (hi : Inv s w ord) :
    s._curr_buf < s._buff_cnt := by
  rcases hi.modes with ⟨fulls, frees, ho, _, _, _⟩ | ⟨h1, _⟩
  · exact (hi.shape.mem _).1 (by rw [ho]; simp)
  · rw [h1]; exact shape_prst_lt hi.shape

theorem sized_only_select {s s1 : ring_log} {b : Bool} {B : Nat}
    (h : s.persist_select = some (s1, b)) (hz : Sized s B) : Sized s1 B := by
  cases hE : (s.heap s._prst_buf).empty
  · cases hst : (s.heap s._prst_buf).status
    · by_cases hc : s._curr_buf = s._prst_buf
      · rw [persist_select_promote s hE hst hc] at h
        simp only [Option.some.injEq, Prod.mk.injEq] at h
        obtain ⟨rfl, rfl⟩ := h
        refine ⟨hz.1, ?_⟩
        intro a ha
        dsimp only
        rw [upd_seal_total_len, upd_seal_used_len]
        exact hz.2 a ha
      · rw [persist_select_abort s hE hst hc] at h; cases h
    · rw [persist_select_full s hE hst] at h
      simp only [Option.some.injEq, Prod.mk.injEq] at h
      obtain ⟨rfl, rfl⟩ := h
      exact hz
  · rw [persist_select_empty s hE] at h
    simp only [Option.some.injEq, Prod.mk.injEq] at h
    obtain ⟨rfl, rfl⟩ := h
    exact hz

theorem sized_only_release {s : ring_log} {B : Nat} (hz : Sized s B) :
    Sized s.persist_release B := by
  rw [persist_release_eq]
  refine ⟨hz.1, ?_⟩
  intro a ha
  dsimp only
  by_cases h : a = s._prst_buf
  · rw [h, upd_same]
    exact ⟨(hz.2 _ (h ▸ ha)).1, Nat.zero_le _⟩
  · rw [upd_other _ _ _ _ h]; exact hz.2 a ha

theorem reach_sized_any {B : Nat} {ok : Nat → Prop} (hB : B < U32) {s : ring_log} {w : Bool}
    (hr : Reach B ok s w) : Sized s B := by
  induction hr with
  | init => exact (sized_init B).1
  | produce s w t p len hr _ ih =>
    obtain ⟨ord, hi⟩ := reach_inv hr
    exact sized_produce t p len B hi ih hB
  | select_skip s s1 _ h ih => exact sized_only_select h ih
  | select_go s s1 _ h ih => exact sized_only_select h ih
  | file_fail s _ ih => exact ih
  | release s _ ih => exact sized_only_release ih

/-- After a call of `try_append`, a loss time other than 0 stands only with the
producer pointer on a `FULL` cell, or on an empty one. -/
theorem flag_produce (s : ring_log) (now_sec : Nat) (log_line : Nat → Byte) (len : Nat)
    (h : s._lst_lts ≠ 0 →
      (s.heap s._curr_buf).status = FULL ∨ (s.heap s._curr_buf)._used_len = 0) :
    (try_append s now_sec log_line len).1._lst_lts ≠ 0 →
      ((try_append s now_sec log_line len).1.heap
          (try_append s now_sec log_line len).1._curr_buf).status = FULL
        ∨ ((try_append s now_sec log_line len).1.heap
          (try_append s now_sec log_line len).1._curr_buf)._used_len = 0 := by
  have hover : ∀ hnext : (s.heap s._curr_buf).next = s._curr_buf
        ∨ (s.heap (s.heap s._curr_buf).next).status = FULL,
      (upd s.heap s._curr_buf (fun c => { c with status := FULL })
        (s.heap s._curr_buf).next).status = FULL := by
    intro hnext
    rcases hnext with h1 | h1
    · rw [h1]; simp
    · exact upd_seal_status_full _ _ _ h1
  cases hb : s.backoff now_sec
  · cases hst : (s.heap s._curr_buf).status
    · by_cases hfit : len ≤ (s.heap s._curr_buf).avail_len
      · rw [try_append_fast s now_sec log_line len hb hst hfit]
        intro h0; exact absurd rfl h0
      · have hfit2 : (s.heap s._curr_buf).avail_len < len := by omega
        have hcase : (s.heap s._curr_buf).next ≠ s._curr_buf
              ∧ (s.heap (s.heap s._curr_buf).next).status = FREE
            ∨ ((s.heap s._curr_buf).next = s._curr_buf
              ∨ (s.heap (s.heap s._curr_buf).next).status = FULL) := by
          by_cases hne : (s.heap s._curr_buf).next = s._curr_buf
          · exact Or.inr (Or.inl hne)
          · cases hn : (s.heap (s.heap s._curr_buf).next).status
            · exact Or.inl ⟨hne, rfl⟩
            · exact Or.inr (Or.inr rfl)
        rcases hcase with ⟨hne, hn⟩ | hnext
        · rw [try_append_next_free s now_sec log_line len hb hst hfit2 hne hn]
          intro h0; exact absurd rfl h0
        · cases hov : s.over_limit
          · rw [try_append_grow s now_sec log_line len hb hst hfit2 hnext hov]
            intro h0; exact absurd rfl h0
          · rw [try_append_over s now_sec log_line len hb hst hfit2 hnext hov]
            by_cases hnow : now_sec = 0
            · simp only [hnow, if_true]
              intro h0; exact absurd rfl h0
            · simp only [hnow, if_false]
              intro _
              left
              exact hover hnext
    · rw [try_append_full s now_sec log_line len hb hst]
      intro _
      left
      exact hst
  · rw [try_append_gate s now_sec log_line len hb]; exact h

theorem reach_flag {B : Nat} {ok : Nat → Prop} {s : ring_log} {w : Bool}
    (hr : Reach B ok s w) :
    s._lst_lts ≠ 0 →
      (s.heap s._curr_buf).status = FULL ∨ (s.heap s._curr_buf)._used_len = 0 := by
  induction hr with
  | init => intro h; exact absurd rfl h
  | produce s w t p len _ _ ih => exact flag_produce s t p len ih
  | select_skip s s1 _ h ih =>
    cases hE : (s.heap s._prst_buf).empty
    · cases hst : (s.heap s._prst_buf).status
      · by_cases hc : s._curr_buf = s._prst_buf
        · rw [persist_select_promote s hE hst hc] at h
          simp only [Option.some.injEq, Prod.mk.injEq] at h
          exact absurd h.2 (by decide)
        · rw [persist_select_abort s hE hst hc] at h; cases h
      · rw [persist_select_full s hE hst] at h
        simp only [Option.some.injEq, Prod.mk.injEq] at h
        exact absurd h.2 (by decide)
    · rw [persist_select_empty s hE] at h
      simp only [Option.some.injEq, Prod.mk.injEq] at h
      obtain ⟨rfl, _⟩ := h
      exact ih
  | select_go s s1 _ h ih =>
    cases hE : (s.heap s._prst_buf).empty
    · cases hst : (s.heap s._prst_buf).status
      · by_cases hc : s._curr_buf = s._prst_buf
        · rw [persist_select_promote s hE hst hc] at h
          simp only [Option.some.injEq, Prod.mk.injEq] at h
          obtain ⟨rfl, _⟩ := h
          intro h0
          exfalso
          rcases ih h0 with h1 | h1
          · rw [hc, hst] at h1; cases h1
          · rw [hc] at h1
            simp [cell_buffer.empty, h1] at hE
        · rw [persist_select_abort s hE hst hc] at h; cases h
      · rw [persist_select_full s hE hst] at h
        simp only [Option.some.injEq, Prod.mk.injEq] at h
        obtain ⟨rfl, _⟩ := h
        exact ih
    · rw [persist_select_empty s hE] at h
      simp only [Option.some.injEq, Prod.mk.injEq] at h
      exact absurd h.2 (by decide)
  | file_fail s _ ih => exact ih
  | release s _ ih =>
    rw [persist_release_eq]
    intro h0
    rcases ih h0 with h1 | h1
    · by_cases hc : s._curr_buf = s._prst_buf
      · right
        show (upd s.heap s._prst_buf (fun c => c.clear) s._curr_buf)._used_len = 0
        rw [hc, upd_same]; rfl
      · left
        show (upd s.heap s._prst_buf (fun c => c.clear) s._curr_buf).status = FULL
        rw [upd_other _ _ _ _ hc]; exact h1
    · right
      show (upd s.heap s._prst_buf (fun c => c.clear) s._curr_buf)._used_len = 0
      by_cases hc : s._curr_buf = s._prst_buf
      · rw [hc, upd_same]; rfl
      · rw [upd_other _ _ _ _ hc]; exact h1

/-- In a reachable state the backoff gate is open for every record of at most
`B` bytes that does not fit in a `FREE` producer cell. -/
theorem reach_gate_open {B : Nat} {ok : Nat → Prop} {s : ring_log} {w : Bool}
    (hr : Reach B ok s w) (hB : B < U32) (now_sec len : Nat)
    (hfree : (s.heap s._curr_buf).status = FREE)
    (hfit : (s.heap s._curr_buf).avail_len < len) (hlen : len ≤ B) :
    s.backoff now_sec = false := by
  obtain ⟨ord, hi⟩ := reach_inv (reach_mono (fun _ _ => trivial) hr)
  have hz := reach_sized_any hB hr
  have hc := hz.2 _ (inv_cur_lt hi)
  have hav := avail_len_of_le (s.heap s._curr_buf) (by omega) (by omega)
  cases hb : s.backoff now_sec
  · rfl
  · exfalso
    have h0 : s._lst_lts ≠ 0 := by
      intro h0
      simp [backoff, h0] at hb
    rcases reach_flag hr h0 with h1 | h1
    · rw [hfree] at h1; cases h1
    · omega

theorem reach_S3_state : Reach 94371840 (fun _ => True) S3_state false :=
  reach_produce _ (ring_log.ctor 94371840) false Reach.init (fun _ _ => trivial)

theorem reach_S4_state : Reach 1073741824 (fun _ => True) S4_state false :=
  reach_produce _ (ring_log.ctor 1073741824) false Reach.init (fun _ _ => trivial)

theorem reach_S2_third : Reach 100 (fun _ => True) S2_third false :=
  reach_produce _ (ring_log.ctor 100) false Reach.init (fun _ _ => trivial)

end gate_lemmas

section producer_reach_claims

open cell_buffer ring_log

/-- Claim C4. In every state reachable from the constructor's ring (cells of
`B` bytes) by producer calls and drainer steps, in which `P` is `FREE`, the
record of length `L ≤ B` does not fit in `P`, `P.next` is `FULL` and
`(n+1)*B ≤ MEM_CAP`: `try_append` makes the cell count `n+1`, marks the old `P`
`FULL` with its bytes unchanged, splices one fresh cell (address `n`) between
the old `P` and the old `P.next`, makes it the new `P` with status `FREE` and
contents exactly the record; every other cell and `C` are as they were. -/
theorem C4_elastic_growth (B : Nat) (s : ring_log) (w : Bool) (now_sec : Nat)
    (log_line : Nat → Byte) (len : Nat)
    (hr : Reach B (fun _ => True) s w)
    (hfree : (s.heap s._curr_buf).status = FREE)
    (hfit : (s.heap s._curr_buf).avail_len < len)
    (hnext : (s.heap (s.heap s._curr_buf).next).status = FULL)
    (hlen : len ≤ B)
    (hcap : (s._buff_cnt + 1) * B ≤ MEM_USE_LIMIT) :
    (try_append s now_sec log_line len).1._buff_cnt = s._buff_cnt + 1
      ∧ (try_append s now_sec log_line len).1.heap s._curr_buf
          = { s.heap s._curr_buf with status := FULL, next := s._buff_cnt }
      ∧ (try_append s now_sec log_line len).1.heap (s.heap s._curr_buf).next
          = { s.heap (s.heap s._curr_buf).next with prev := s._buff_cnt }
      ∧ (try_append s now_sec log_line len).1._curr_buf = s._buff_cnt
      ∧ ((try_append s now_sec log_line len).1.heap s._buff_cnt).status = FREE
      ∧ ((try_append s now_sec log_line len).1.heap s._buff_cnt).prev = s._curr_buf
      ∧ ((try_append s now_sec log_line len).1.heap s._buff_cnt).next = (s.heap s._curr_buf).next
      ∧ ((try_append s now_sec log_line len).1.heap s._buff_cnt).contents = bytes_at log_line len
      ∧ ((try_append s now_sec log_line len).1.heap s._buff_cnt)._used_len = len
      ∧ (try_append s now_sec log_line len).1._prst_buf = s._prst_buf
      ∧ (∀ a, a ≠ s._curr_buf → a ≠ (s.heap s._curr_buf).next → a ≠ s._buff_cnt →
          (try_append s now_sec log_line len).1.heap a = s.heap a)
      ∧ (try_append s now_sec log_line len).2 = true := by
  have hmem : MEM_USE_LIMIT < U32 := by decide
  have hB : B < U32 := by
    have : B ≤ (s._buff_cnt + 1) * B := Nat.le_mul_of_pos_left _ (Nat.succ_pos _)
    omega
  obtain ⟨ord, hi⟩ := reach_inv hr
  have hz := reach_sized_any hB hr
  have hP := inv_cur_lt hi
  have hN := shape_next_lt hi.shape _ hP
  have hgate := reach_gate_open hr hB now_sec len hfree hfit hlen
  exact elastic_growth_of_gate s now_sec log_line len hgate hfree hfit hnext
    (by rw [hz.1]; exact hlen) (by rw [hz.1]; exact hcap) hP hN

/-- Claim C4 at scenario S3: `B = 90 MiB`, `n = 3`, the three cells without
room, a record of 100 bytes at second 8. -/
theorem C4_elastic_growth_witness :
    ((S3_state.heap S3_state._curr_buf).status = FREE
      ∧ (S3_state.heap S3_state._curr_buf).avail_len < 100
      ∧ (S3_state.heap (S3_state.heap S3_state._curr_buf).next).status = FULL
      ∧ (S3_state._buff_cnt + 1) * 94371840 ≤ MEM_USE_LIMIT
      ∧ S3_state._buff_cnt = 3)
    ∧ ((try_append S3_state 8 (fun _ => 66) 100).1._buff_cnt = S3_state._buff_cnt + 1
      ∧ (try_append S3_state 8 (fun _ => 66) 100).1._curr_buf = S3_state._buff_cnt
      ∧ ((try_append S3_state 8 (fun _ => 66) 100).1.heap S3_state._buff_cnt)._used_len = 100) :=
  ⟨⟨by decide, by decide, by decide, by decide, by decide⟩,
    (C4_elastic_growth 94371840 S3_state false 8 (fun _ => 66) 100 reach_S3_state
      (by decide) (by decide) (by decide) (by decide) (by decide)).1,
    (C4_elastic_growth 94371840 S3_state false 8 (fun _ => 66) 100 reach_S3_state
      (by decide) (by decide) (by decide) (by decide) (by decide)).2.2.2.1,
    (C4_elastic_growth 94371840 S3_state false 8 (fun _ => 66) 100 reach_S3_state
      (by decide) (by decide) (by decide) (by decide) (by decide)).2.2.2.2.2.2.2.2.1⟩

/-- Claim C3, the code at its failing input. Scenario S4: cells of `B = 1 GiB`,
the constructor's three cells filled by three records of 1 GiB, no drainer
step; the state is reachable and meets the conditions of the claim (`P` `FREE`
without room for a 1-byte record, `P.next` `FULL`, `(n+1)*B = 4 GiB` above
`MEM_CAP = 3 GiB`), and no backoff is active.  A call of `try_append` at
second 8 with a 1-byte record does not drop it: the growth test
`_one_buff_len * (_buff_cnt + 1) > MEM_USE_LIMIT` is computed modulo `2^32`,
where the product is 0, so a fourth cell is allocated, `P` moves to it and not
to the old `P.next`, the record is stored there, and `last_lost_ts` is 0
afterwards, not 8. -/
theorem C3_ceiling_overflow :
    Reach 1073741824 (fun _ => True) S4_state false
      ∧ (S4_state._one_buff_len = 1073741824 ∧ S4_state._buff_cnt = 3
        ∧ S4_state.backoff 8 = false
        ∧ (S4_state.heap S4_state._curr_buf).status = FREE
        ∧ (S4_state.heap S4_state._curr_buf).avail_len < 1
        ∧ (S4_state.heap (S4_state.heap S4_state._curr_buf).next).status = FULL
        ∧ (S4_state._buff_cnt + 1) * S4_state._one_buff_len > MEM_USE_LIMIT
        ∧ (S4_state._one_buff_len * ((S4_state._buff_cnt + 1) % U32)) % U32 = 0)
      ∧ ((try_append S4_state 8 (fun _ => 66) 1).1._buff_cnt = 4
        ∧ (try_append S4_state 8 (fun _ => 66) 1).1._curr_buf = 3
        ∧ (try_append S4_state 8 (fun _ => 66) 1).1._curr_buf
            ≠ (S4_state.heap S4_state._curr_buf).next
        ∧ ((try_append S4_state 8 (fun _ => 66) 1).1.heap 3)._used_len = 1
        ∧ (try_append S4_state 8 (fun _ => 66) 1).1._lst_lts = 0) :=
  ⟨reach_S4_state, by decide, by decide⟩

end producer_reach_claims

section ring_claims

open cell_buffer ring_log

/-- Claim C16. In every state reachable from the constructor's ring by producer
calls (with records of any length, elastic insertion included) and drainer
steps, with `n = _buff_cnt` the number of cells, and for every cell `a`:
following `next` from `a` comes back to `a` after exactly `n` steps and not
after fewer, following `prev` does too, and `a.next.prev == a`. -/
theorem C16_ring_integrity (B : Nat) (s : ring_log) (w : Bool)
    (hr : Reach B (fun _ => True) s w) (a : Nat) (ha : a < s._buff_cnt) :
    walk_next s.heap s._buff_cnt a = a
      ∧ (∀ k, 0 < k → k < s._buff_cnt → walk_next s.heap k a ≠ a)
      ∧ walk_prev s.heap s._buff_cnt a = a
      ∧ (∀ k, 0 < k → k < s._buff_cnt → walk_prev s.heap k a ≠ a)
      ∧ (s.heap (s.heap a).next).prev = a := by
  obtain ⟨ord, hi⟩ := reach_inv hr
  have hs := hi.shape
  have hlen := shape_length hs
  obtain ⟨i, _, rfl⟩ := cyc_of_mem ord a ((hs.mem a).2 ha)
  rw [← hlen]
  refine ⟨?_, ?_, ?_, ?_, hs.back _ ha⟩
  · rw [walk_next_cyc hs, cyc_add_length]
  · intro k hk hkn
    rw [walk_next_cyc hs]
    exact cyc_ne ord hs.nodup i k hk hkn
  · have := walk_prev_cyc hs ord.length i
    rw [cyc_add_length] at this
    exact this
  · intro k hk hkn h
    have h1 := walk_prev_cyc hs k (i + ord.length - k)
    have h2 : i + ord.length - k + k = i + ord.length := by omega
    rw [h2, cyc_add_length, h] at h1
    have h3 := cyc_ne ord hs.nodup (i + ord.length - k) k hk hkn
    rw [h2, cyc_add_length] at h3
    exact h3 h1

/-- Claim C16 at the ring of scenario S2 after its two records, for cell 1. -/
theorem C16_ring_integrity_witness :
    1 < S2_sealed._buff_cnt
      ∧ (walk_next S2_sealed.heap S2_sealed._buff_cnt 1 = 1
        ∧ (∀ k, 0 < k → k < S2_sealed._buff_cnt → walk_next S2_sealed.heap k 1 ≠ 1)
        ∧ walk_prev S2_sealed.heap S2_sealed._buff_cnt 1 = 1
        ∧ (∀ k, 0 < k → k < S2_sealed._buff_cnt → walk_prev S2_sealed.heap k 1 ≠ 1)
        ∧ (S2_sealed.heap (S2_sealed.heap 1).next).prev = 1) :=
  ⟨by decide,
    C16_ring_integrity 100 S2_sealed false
      (reach_S2_sealed (fun _ => True) trivial trivial) 1 (by decide)⟩

/-- Claim C17. In every state reachable from the initial ring by any
interleaving of `try_append` calls and the two critical sections of `persist`:
walking `next` from the consumer cell `C`, the producer cell `P` is first
reached after some `j < n` steps, and every cell strictly between them (the
cells reached after `k` steps, `0 < k < j`) is `FULL`. -/
theorem C17_cursor_interval (B : Nat) (s : ring_log) (w : Bool)
    (hr : Reach B (fun _ => True) s w) :
    ∃ j, j < s._buff_cnt
      ∧ walk_next s.heap j s._prst_buf = s._curr_buf
      ∧ (∀ i, i < j → walk_next s.heap i s._prst_buf ≠ s._curr_buf)
      ∧ ∀ k, 0 < k → k < j → (s.heap (walk_next s.heap k s._prst_buf)).status = FULL := by
  obtain ⟨ord, hi⟩ := reach_inv hr
  have hs := hi.shape
  have hlen := shape_length hs
  have hw : ∀ k, walk_next s.heap k s._prst_buf = cyc ord k := by
    intro k
    rw [← cyc_zero hs, walk_next_cyc hs, Nat.zero_add]
  rcases hi.modes with ⟨fulls, frees, ho, hf, hP, hr2⟩ | ⟨h1, h2⟩
  · have hj : fulls.length < s._buff_cnt := by
      rw [← hlen, ho]
      simp only [List.length_append, List.length_cons]; omega
    refine ⟨fulls.length, hj, ?_, ?_, ?_⟩
    · rw [hw, ho]; exact cyc_cur _ _ _
    · intro i hi2 h
      rw [hw, ho] at h
      have hm := cyc_fulls fulls frees s._curr_buf i hi2
      rw [h] at hm
      have hnd := hs.nodup
      rw [ho] at hnd
      exact (List.nodup_append.mp hnd).2.2 hm (List.mem_cons_self _ _)
    · intro k _ hk
      rw [hw, ho]
      exact hf _ (cyc_fulls fulls frees s._curr_buf k hk)
  · have hpos := shape_pos hs
    refine ⟨0, by omega, h1.symm, ?_, ?_⟩
    · intro i hi2; omega
    · intro k h3 h4; omega

/-- Claim C17 at the ring of scenario S2 after three records (60, 50 and 60
bytes in cells of 100): the consumer stands on cell 0, the producer is first
reached after two steps, on cell 2, and the cell between them, reached after
one step, is `FULL`. -/
theorem C17_cursor_interval_witness :
    (walk_next S2_third.heap 0 S2_third._prst_buf ≠ S2_third._curr_buf
      ∧ walk_next S2_third.heap 1 S2_third._prst_buf ≠ S2_third._curr_buf
      ∧ walk_next S2_third.heap 2 S2_third._prst_buf = S2_third._curr_buf)
    ∧ (S2_third.heap (walk_next S2_third.heap 1 S2_third._prst_buf)).status = FULL := by
  refine ⟨by decide, ?_⟩
  obtain ⟨j, hj, hw, _, hfull⟩ := C17_cursor_interval 100 S2_third false reach_S2_third
  have hj3 : j < 3 := hj
  have h0 : j ≠ 0 := by
    intro h; subst h; exact absurd hw (by decide)
  have h1 : j ≠ 1 := by
    intro h; subst h; exact absurd hw (by decide)
  have h2 : j = 2 := by omega
  subst h2
  exact hfull 1 (by decide) (by decide)

/-- Claim C18. In every state reachable from the initial ring by any
interleaving of `try_append` calls and the critical sections of `persist`: if
the consumer cell `C` is `FREE` and not empty then `C == P`, so the assertion
of the promotion step holds and the first critical section of `persist`
selects the cell: it sets that cell `FULL` and moves `P` to the next cell,
another cell, which is `FREE` and empty. -/
theorem C18_idle_flush (B : Nat) (s : ring_log) (w : Bool)
    (hr : Reach B (fun _ => True) s w)
    (hst : (s.heap s._prst_buf).status = FREE)
    (hE : (s.heap s._prst_buf).empty = false) :
    s._curr_buf = s._prst_buf
      ∧ ∃ s1, s.persist_select = some (s1, true)
        ∧ s1._prst_buf = s._prst_buf
        ∧ (s1.heap s._prst_buf).status = FULL
        ∧ s1._curr_buf = (s.heap s._curr_buf).next
        ∧ s1._curr_buf ≠ s._curr_buf
        ∧ (s1.heap s1._curr_buf).status = FREE
        ∧ (s1.heap s1._curr_buf).empty = true := by
  obtain ⟨ord, hi⟩ := reach_inv hr
  obtain ⟨hc, q, frees, ho, hq, hfr⟩ := promote_facts hi hst
  have hnd := hi.shape.nodup
  rw [ho] at hnd
  have hqC : q ≠ s._prst_buf := by
    intro h
    exact (List.nodup_cons.mp hnd).1 (h ▸ List.mem_cons_self _ _)
  refine ⟨hc, _, persist_select_promote s hE hst hc, rfl, ?_, ?_, ?_, ?_, ?_⟩
  · simp
  · rw [hc]
  · show (s.heap s._prst_buf).next ≠ s._curr_buf
    rw [hq, hc]; exact hqC
  · show (upd s.heap s._prst_buf _ (s.heap s._prst_buf).next).status = FREE
    rw [hq, upd_other _ _ _ _ hqC]
    exact (hfr q (List.mem_cons_self _ _)).1
  · show (upd s.heap s._prst_buf _ (s.heap s._prst_buf).next).empty = true
    rw [hq, upd_other _ _ _ _ hqC]
    simp [cell_buffer.empty, (hfr q (List.mem_cons_self _ _)).2]

/-- Claim C18 at scenario S2 after its first record: cell 0 is `FREE` with 60
bytes and both pointers stand on it. -/
theorem C18_idle_flush_witness :
    ((S2_state.heap S2_state._prst_buf).status = FREE
      ∧ (S2_state.heap S2_state._prst_buf).empty = false)
    ∧ (S2_state._curr_buf = S2_state._prst_buf
      ∧ ∃ s1, S2_state.persist_select = some (s1, true)
        ∧ s1._prst_buf = S2_state._prst_buf
        ∧ (s1.heap S2_state._prst_buf).status = FULL
        ∧ s1._curr_buf = (S2_state.heap S2_state._curr_buf).next
        ∧ s1._curr_buf ≠ S2_state._curr_buf
        ∧ (s1.heap s1._curr_buf).status = FREE
        ∧ (s1.heap s1._curr_buf).empty = true) :=
  ⟨⟨by decide, by decide⟩,
    C18_idle_flush 100 S2_state false (reach_S2_state (fun _ => True) trivial)
      (by decide) (by decide)⟩

/-- Claim C20 as stated fails. With cells of 900 MiB, after three records of
900 MiB have filled the three cells, a fourth record (1 byte, at second 8)
finds no room, the next cell `FULL` and no memory left for a fourth cell: the
call ends (a mutex release point of `try_append`) with the producer pointer on
cell 0, whose status is `FULL`. -/
theorem C20_counterexample :
    Reach 943718400 (fun _ => True) (try_append S4_state_900 8 (fun _ => 66) 1).1 false
      ∧ (try_append S4_state_900 8 (fun _ => 66) 1).1._curr_buf = 0
      ∧ ((try_append S4_state_900 8 (fun _ => 66) 1).1.heap
          (try_append S4_state_900 8 (fun _ => 66) 1).1._curr_buf).status = FULL :=
  ⟨Reach.produce _ _ 8 (fun _ => 66) 1 reach_S4_state_900 trivial, by decide, by decide⟩

/-- Claim C20, amended. In every state reachable from the initial ring, at
every mutex release point of `try_append` and `persist`: the producer cell `P`
is `FREE`, or `P` stands on the consumer cell `C` and every cell of the ring is
`FULL` (the state left by a record lost at the memory ceiling, until the
drainer clears `C`). -/
theorem C20_producer_cell (B : Nat) (s : ring_log) (w : Bool)
    (hr : Reach B (fun _ => True) s w) :
    (s.heap s._curr_buf).status = FREE
      ∨ (s._curr_buf = s._prst_buf ∧ ∀ a, a < s._buff_cnt → (s.heap a).status = FULL) := by
  obtain ⟨ord, hi⟩ := reach_inv hr
  rcases hi.modes with ⟨_, _, _, _, hP, _⟩ | ⟨h1, h2⟩
  · exact Or.inl hP
  · exact Or.inr ⟨h1, fun a ha => h2 a ((hi.shape.mem a).2 ha)⟩

/-- Claim C20, amended, at the state after the lost record of the
counterexample. -/
theorem C20_producer_cell_witness :
    ((try_append S4_state_900 8 (fun _ => 66) 1).1.heap
        (try_append S4_state_900 8 (fun _ => 66) 1).1._curr_buf).status = FREE
      ∨ ((try_append S4_state_900 8 (fun _ => 66) 1).1._curr_buf
          = (try_append S4_state_900 8 (fun _ => 66) 1).1._prst_buf
        ∧ ∀ a, a < (try_append S4_state_900 8 (fun _ => 66) 1).1._buff_cnt →
            ((try_append S4_state_900 8 (fun _ => 66) 1).1.heap a).status = FULL) :=
  C20_producer_cell 943718400 _ false
    (Reach.produce _ _ 8 (fun _ => 66) 1 reach_S4_state_900 trivial)

/-- Claim C21 as stated fails in its last part. In scenario S2 after its two
records (records of 60 and 50 bytes, cells of 100 bytes) the consumer cell is
`FULL` with 60 bytes; a drain cycle that finds it while `decis_file` fails
writes nothing and leaves the state as it is: the cell is neither written nor
cleared by that cycle. -/
theorem C21_counterexample :
    Reach 100 (fun len => len ≤ 100) S2_sealed false
      ∧ (S2_sealed.heap S2_sealed._prst_buf).status = FULL
      ∧ S2_sealed.persist_body false = some (S2_sealed, [])
      ∧ (S2_sealed.heap S2_sealed._prst_buf)._used_len = 60 :=
  ⟨reach_S2_sealed _ (by decide) (by decide), by decide,
    by simp [persist_body, persist_select_full S2_sealed (by decide) (by decide)], by decide⟩

/-- Claim C21, amended. With cells of `B` bytes and every record handed to
`try_append` of length at most `B`, in every state reachable from the initial
ring by any interleaving of `try_append` calls and the critical sections of
`persist`: every `FULL` cell has a used length above 0; hence, when the
consumer cell is `FULL`, the empty-check of `persist` does not skip it (the
first critical section selects it, state unchanged), and a drain cycle in
which `decis_file` succeeds writes its bytes (at least one) and clears it. -/
theorem C21_full_not_empty (B : Nat) (s : ring_log) (w : Bool) (hB : B < U32)
    (hr : Reach B (fun len => len ≤ B) s w) :
    (∀ a, a < s._buff_cnt → (s.heap a).status = FULL → 0 < (s.heap a)._used_len)
      ∧ ((s.heap s._prst_buf).status = FULL →
          s.persist_select = some (s, true)
          ∧ s.persist_body true = some (s.persist_release, (s.heap s._prst_buf).contents)
          ∧ 0 < (s.heap s._prst_buf).contents.length
          ∧ (s.persist_release.heap s._prst_buf).status = FREE
          ∧ (s.persist_release.heap s._prst_buf)._used_len = 0) := by
  have hnz := (reach_sized hB hr).2
  obtain ⟨ord, hi⟩ := reach_inv (reach_mono (fun _ _ => trivial) hr)
  refine ⟨hnz, ?_⟩
  intro hst
  have hpos := hnz _ (shape_prst_lt hi.shape) hst
  have hE : (s.heap s._prst_buf).empty = false := by
    simp [cell_buffer.empty]; omega
  have hsel := persist_select_full s hE hst
  refine ⟨hsel, ?_, ?_, ?_, ?_⟩
  · simp [persist_body, hsel]
  · rw [contents_length]; exact hpos
  · rw [persist_release_eq]; simp [cell_buffer.clear]
  · rw [persist_release_eq]; simp [cell_buffer.clear]

/-- Claim C21, amended, at scenario S2 after its two records, where the
consumer cell is `FULL`. -/
theorem C21_full_not_empty_witness :
    (100 < U32 ∧ (S2_sealed.heap S2_sealed._prst_buf).status = FULL)
    ∧ ((∀ a, a < S2_sealed._buff_cnt → (S2_sealed.heap a).status = FULL →
          0 < (S2_sealed.heap a)._used_len)
      ∧ ((S2_sealed.heap S2_sealed._prst_buf).status = FULL →
          S2_sealed.persist_select = some (S2_sealed, true)
          ∧ S2_sealed.persist_body true
              = some (S2_sealed.persist_release,
                  (S2_sealed.heap S2_sealed._prst_buf).contents)
          ∧ 0 < (S2_sealed.heap S2_sealed._prst_buf).contents.length
          ∧ (S2_sealed.persist_release.heap S2_sealed._prst_buf).status = FREE
          ∧ (S2_sealed.persist_release.heap S2_sealed._prst_buf)._used_len = 0)) :=
  ⟨⟨by decide, by decide⟩,
    C21_full_not_empty 100 S2_sealed false (by decide)
      (reach_S2_sealed _ (by decide) (by decide))⟩

end ring_claims

end RingLog
